import Mathlib

/-!
Verification of the `png2obj` geometry pipeline (tools/png2obj of the
surviveler repository): a shallow embedding in Lean 4 of the wall-perimeter
tracer (`BlocksMap.build`), the perimeter normalizer
(`normalized_perimeter`, `remove_internal_edge_points`,
`remove_contiguous_values`), the hole-marker generator (`matrix2holes`),
the blocks-map constructor (`mat2map`), the cap-triangulation driver
(`triangulate_walls`) and the Wavefront exporter (`export_mesh`),
together with theorems settling the specification claims about them.

Conventions of the embedding:
* Python `(x, y)` int tuples become `Int × Int`.
* The blocks map `data` dict (whose keys are the blocked boxes, all mapped
  to `1` by `mat2map`) becomes the `List (Int × Int)` of its keys in
  insertion order; `dict.get(key, 0)` becomes `mapGet` (membership).
* `box_size` is fixed to `1`, the only value the pipeline ever constructs
  (`mat2map` always builds `BlocksMap(ret, map_size=(x+1, y+1))` with the
  default `box_size=1`), so `map_vertex` is the identity on lattice
  vertices.
* The unbounded `while True` tracing loop of `BlocksMap.build` becomes the
  fuel-indexed `walkAux`; `none` models non-termination / `KeyError`.
  Termination of the source loop is proved as the statement that a
  sufficiently large fuel always yields `some`.
* Python `assert` failures and uncaught exceptions (`KeyError`,
  `IndexError`, `NameError`) become `none` / `Except.error`.
-/

namespace Png2Obj

/-- A lattice position / box coordinate `(x, y)`. -/
abbrev Pos : Type := Int × Int

/-- A versor (unit direction) `(dx, dy)`; `(0, 0)` is `STILL`. -/
abbrev Dir : Type := Int × Int

def LEFT : Dir := (-1, 0)

def UP : Dir := (0, -1)

def RIGHT : Dir := (1, 0)

def DOWN : Dir := (0, 1)

def STILL : Dir := (0, 0)

/-- A 2x2 walkable/blocked matrix `((upleft, upright), (downleft, downright))`
as produced by `BlocksMap.boxes2block_matrix`. -/
abbrev Mat : Type := (Int × Int) × (Int × Int)

/-- `POSSIBLE_DIRECTIONS` from png2obj.py: for each 2x2 neighbour
configuration, the tuple of directions a perimeter walker may take. -/
def POSSIBLE_DIRECTIONS (bm : Mat) : List Dir :=
  if bm = ((0, 0), (0, 0)) then []
  else if bm = ((0, 0), (0, 1)) then [RIGHT, DOWN]
  else if bm = ((0, 0), (1, 0)) then [LEFT, DOWN]
  else if bm = ((0, 0), (1, 1)) then [LEFT, RIGHT]
  else if bm = ((0, 1), (0, 0)) then [UP, RIGHT]
  else if bm = ((0, 1), (0, 1)) then [UP, DOWN]
  else if bm = ((0, 1), (1, 0)) then [LEFT, UP, RIGHT, DOWN]
  else if bm = ((0, 1), (1, 1)) then [LEFT, UP]
  else if bm = ((1, 0), (0, 0)) then [LEFT, UP]
  else if bm = ((1, 0), (0, 1)) then [LEFT, UP, RIGHT, DOWN]
  else if bm = ((1, 0), (1, 0)) then [UP, DOWN]
  else if bm = ((1, 0), (1, 1)) then [UP, RIGHT]
  else if bm = ((1, 1), (0, 0)) then [LEFT, RIGHT]
  else if bm = ((1, 1), (0, 1)) then [LEFT, DOWN]
  else if bm = ((1, 1), (1, 0)) then [RIGHT, DOWN]
  else if bm = ((1, 1), (1, 1)) then []
  else []

/-- `RULES` from png2obj.py: the (configuration, incoming versor) ->
outgoing versor transition table.  A missing key (Python `KeyError`)
is `none`. -/
def RULES (bm : Mat) (d : Dir) : Option Dir :=
  if bm = ((0, 0), (0, 0)) then
    if d = STILL then some STILL else if d = UP then some UP
    else if d = LEFT then some LEFT else if d = RIGHT then some RIGHT
    else if d = DOWN then some DOWN else none
  else if bm = ((0, 0), (0, 1)) then
    if d = STILL then some RIGHT else if d = UP then some RIGHT
    else if d = LEFT then some DOWN else none
  else if bm = ((0, 0), (1, 0)) then
    if d = STILL then some DOWN else if d = UP then some LEFT
    else if d = RIGHT then some DOWN else none
  else if bm = ((0, 0), (1, 1)) then
    if d = STILL then some RIGHT else if d = RIGHT then some RIGHT
    else if d = LEFT then some LEFT else none
  else if bm = ((0, 1), (0, 0)) then
    if d = STILL then some UP else if d = LEFT then some UP
    else if d = DOWN then some RIGHT else none
  else if bm = ((0, 1), (0, 1)) then
    if d = STILL then some UP else if d = UP then some UP
    else if d = DOWN then some DOWN else none
  else if bm = ((0, 1), (1, 0)) then
    if d = STILL then some RIGHT else if d = UP then some RIGHT
    else if d = LEFT then some DOWN else if d = RIGHT then some UP
    else if d = DOWN then some LEFT else none
  else if bm = ((0, 1), (1, 1)) then
    if d = STILL then some UP else if d = RIGHT then some UP
    else if d = DOWN then some LEFT else none
  else if bm = ((1, 0), (0, 0)) then
    if d = STILL then some LEFT else if d = RIGHT then some UP
    else if d = DOWN then some LEFT else none
  else if bm = ((1, 0), (0, 1)) then
    if d = STILL then some RIGHT else if d = UP then some LEFT
    else if d = DOWN then some RIGHT else if d = LEFT then some UP
    else if d = RIGHT then some DOWN else none
  else if bm = ((1, 0), (1, 0)) then
    if d = STILL then some UP else if d = UP then some UP
    else if d = DOWN then some DOWN else none
  else if bm = ((1, 0), (1, 1)) then
    if d = STILL then some RIGHT else if d = LEFT then some UP
    else if d = DOWN then some RIGHT else none
  else if bm = ((1, 1), (0, 0)) then
    if d = STILL then some RIGHT else if d = LEFT then some LEFT
    else if d = RIGHT then some RIGHT else none
  else if bm = ((1, 1), (0, 1)) then
    if d = STILL then some LEFT else if d = UP then some LEFT
    else if d = RIGHT then some DOWN else none
  else if bm = ((1, 1), (1, 0)) then
    if d = STILL then some RIGHT else if d = UP then some RIGHT
    else if d = LEFT then some DOWN else none
  else if bm = ((1, 1), (1, 1)) then
    if d = STILL then some STILL else if d = UP then some STILL
    else if d = DOWN then some STILL else if d = LEFT then some STILL
    else if d = RIGHT then some STILL else none
  else none

/-- `sum_vectors` from png2obj.py. -/
def sum_vectors (v1 v2 : Dir) : Dir := (v1.1 + v2.1, v1.2 + v2.2)

/-- The interior scan of `remove_internal_edge_points`: `prev` is the
previous input vertex; the final input vertex is always kept. -/
def rieAux (prev : Pos) : List Pos → List Pos
  | [] => []
  | [last] => [last]
  | cur :: next :: t =>
    if (cur.1 - prev.1, cur.2 - prev.2) ≠ (next.1 - cur.1, next.2 - cur.2) then
      cur :: rieAux cur (next :: t)
    else
      rieAux cur (next :: t)

/-- `remove_internal_edge_points` from png2obj.py: keeps the first vertex,
the corner vertices, and the last vertex.  (On a singleton list the Python
code returns the point twice; on `[]` it raises, which the pipeline never
does — we return `[]`.) -/
def remove_internal_edge_points (vertices : List Pos) : List Pos :=
  match vertices with
  | [] => []
  | [a] => [a, a]
  | v0 :: rest => v0 :: rieAux v0 rest

/-- `remove_contiguous_values` from png2obj.py (the in-place
`del`-loop expressed recursively): drops an element equal to its
successor, keeping the final occurrence of each run. -/
def remove_contiguous_values {α : Type*} [DecidableEq α] : List α → List α
  | [] => []
  | [a] => [a]
  | a :: b :: t =>
    if a = b then remove_contiguous_values (b :: t)
    else a :: remove_contiguous_values (b :: t)

/-- Python tuple comparison `<` on int pairs (lexicographic). -/
def lexLt (a b : Pos) : Prop := a.1 < b.1 ∨ (a.1 = b.1 ∧ a.2 < b.2)

instance : DecidableRel lexLt := fun a b => by
  unfold lexLt; infer_instance

/-- Python `min` over a list of int pairs (`none` on the empty list,
where Python raises `ValueError`). -/
def list_min : List Pos → Option Pos
  | [] => none
  | h :: t => some (t.foldl (fun m x => if lexLt x m then x else m) h)

/-- One `deque.rotate(1)`: the last element moves to the front. -/
def rot_right {α : Type*} (l : List α) : List α :=
  match l.getLast? with
  | none => []
  | some a => a :: l.dropLast

/-- The `while deq[0] != minimum: deq.rotate(1)` loop of
`normalized_perimeter`, fuelled by the list length (which suffices,
as proved below). -/
def rotate_to_min (m : Pos) : Nat → List Pos → List Pos
  | 0, l => l
  | fuel + 1, l => if l.head? = some m then l else rotate_to_min m fuel (rot_right l)

/-- `normalized_perimeter` from png2obj.py: rotate the closed perimeter so
it starts at its lexicographically smallest point, re-append that point,
and drop contiguous duplicates.  (`[]` for the empty input, on which the
Python code raises.) -/
def normalized_perimeter (wall_perimeter : List Pos) : List Pos :=
  match list_min wall_perimeter with
  | none => []
  | some minimum =>
    let deq := rotate_to_min minimum wall_perimeter.length wall_perimeter
    let ret := deq ++ [deq.headD minimum]
    remove_contiguous_values ret

/-- `matrix2holes` from png2obj.py: one marker `(x + 0.5, y + 0.5)` for
every walkable (nonzero) entry of the matrix, in row-major order. -/
def matrix2holes (matrix : List (List Int)) : List (ℚ × ℚ) :=
  (matrix.enum.map (fun yrow =>
    yrow.2.enum.filterMap (fun xe =>
      if xe.2 ≠ 0 then some ((xe.1 : ℚ) + 1 / 2, (yrow.1 : ℚ) + 1 / 2)
      else none))).flatten

/-- `dict.get(box, 0)` on the blocks map: `1` for a blocked box, else `0`. -/
def mapGet (B : List Pos) (p : Pos) : Int := if p ∈ B then 1 else 0

/-- `boxes2block_matrix (vertex2boxes v)` of `BlocksMap` (with
`box_size = 1`, the only constructed value): the 2x2 matrix of the four
boxes sharing lattice vertex `v`. -/
def blocks_matrix (B : List Pos) (v : Pos) : Mat :=
  ((mapGet B (v.1 - 1, v.2 - 1), mapGet B (v.1, v.2 - 1)),
   (mapGet B (v.1 - 1, v.2), mapGet B (v.1, v.2)))

/-- `get_grid_vertices` of `BlocksMap`: all grid vertices `(bx, by)` for
`bx < width`, `by < height`, in the iteration order of the source
(`bx` outer, `by` inner). -/
def grid_vertices (W H : Int) : List Pos :=
  ((List.range W.toNat).map (fun bx =>
    (List.range H.toNat).map (fun gy => ((bx : Int), (gy : Int))))).flatten

/-- The `while True` tracing loop of `BlocksMap.build`, fuelled.
State: remaining fuel, current vertex `wv`, incoming versor, the
`tracked_vertices` counter, and the accumulated `wall_perimeter`.
Returns the updated counter and the closed perimeter, or `none` if the
fuel runs out (non-termination) or a `RULES` lookup fails (`KeyError`). -/
def walkAux (B : List Pos) (first : Pos) :
    Nat → Pos → Dir → (Pos → Nat) → List Pos → Option ((Pos → Nat) × List Pos)
  | 0, _, _, _, _ => none
  | fuel + 1, wv, versor, tracked, acc =>
    let bm := blocks_matrix B wv
    let versors := POSSIBLE_DIRECTIONS bm
    let tracked' := fun p =>
      if p = wv then tracked wv + (if versors.length = 4 then 1 else 2) else tracked p
    match RULES bm versor with
    | none => none
    | some versor_next =>
      let v' := sum_vectors wv versor_next
      let acc' := acc ++ [v']
      if v' = first then some (tracked', acc')
      else walkAux B first fuel v' versor_next tracked' acc'

/-- The body of the `for iv, vertex in enumerate(...)` loop of
`BlocksMap.build`: possibly trace a new wall perimeter starting at `v`. -/
def build_step (B : List Pos) (fuel : Nat)
    (st : (Pos → Nat) × List (List Pos)) (v : Pos) :
    Option ((Pos → Nat) × List (List Pos)) :=
  let versors := POSSIBLE_DIRECTIONS (blocks_matrix B v)
  let n_versors := versors.length
  if n_versors = 0 then some st
  else if n_versors = 4 ∧ st.1 v > 1 then some st
  else if n_versors ≠ 4 ∧ st.1 v > 0 then some st
  else
    match walkAux B v fuel v STILL st.1 [v] with
    | none => none
    | some (tracked', wp) =>
      some (tracked', st.2 ++ [normalized_perimeter (remove_internal_edge_points wp)])

/-- Python list comparison (`<`) on lists of int pairs. -/
def perimLtB : List Pos → List Pos → Bool
  | [], [] => false
  | [], _ :: _ => true
  | _ :: _, [] => false
  | a :: as_, b :: bs => if a = b then perimLtB as_ bs else decide (lexLt a b)

/-- The `≤` used to model `list.sort()` (ascending, total). -/
def perimLe (a b : List Pos) : Prop := perimLtB b a = false

instance : DecidableRel perimLe := fun a b => by
  unfold perimLe; infer_instance

/-- `BlocksMap.build` with the `tracked_vertices` counter exposed and the
tracing loop fuelled: returns the final counter together with the list of
normalized wall perimeters (before the final `ret.sort()`). -/
def buildT (B : List Pos) (W H : Int) (fuel : Nat) :
    Option ((Pos → Nat) × List (List Pos)) :=
  if B = [] then some (fun _ => 0, [])
  else (grid_vertices W H).foldlM (build_step B fuel) (fun _ => 0, [])

/-- `BlocksMap.build` (fuelled): the sorted list of wall perimeters. -/
def buildFuel (B : List Pos) (W H : Int) (fuel : Nat) : Option (List (List Pos)) :=
  (buildT B W H fuel).map (fun st => st.2.insertionSort perimLe)

example :
    buildFuel [(0, 0)] 1 1 20 =
      some [[(0, 0), (1, 0), (1, 1), (0, 1), (0, 0)]] := by decide

example :
    buildFuel [(0, 0), (1, 1)] 2 2 40 =
      some [[(0, 0), (1, 0), (1, 1), (2, 1), (2, 2), (1, 2), (1, 1), (0, 1), (0, 0)]] := by
  decide

/-- The inner `for x, walkable in enumerate(row)` loop of `mat2map`; the
state is `(ret, x, y)` where `x`, `y` are the last values assigned to the
loop variables (`none` when never assigned, modelling Python's
`NameError`). -/
def mat2mapInner (y : Int) (st : List Pos × Option Int × Option Int)
    (row : List (Nat × Int)) : List Pos × Option Int × Option Int :=
  row.foldl (fun st2 xe =>
    ((if xe.2 = 0 then st2.1 ++ [((xe.1 : Int), y)] else st2.1),
      some (xe.1 : Int), st2.2.2)) st

/-- `mat2map` from png2obj.py: builds the blocked-box set from a walkable
matrix and returns it with `map_size = (x + 1, y + 1)` computed from the
loop variables after the loops; `none` models the `NameError` raised when
`x` or `y` was never assigned (empty matrix / no nonempty row). -/
def mat2map (matrix : List (List Int)) : Option (List Pos × Int × Int) :=
  let st := matrix.enum.foldl
    (fun st yrow => mat2mapInner (yrow.1 : Int) (st.1, st.2.1, some (yrow.1 : Int)) yrow.2.enum)
    (([] : List Pos), (none : Option Int), (none : Option Int))
  match st with
  | (B, some x, some y) => some (B, x + 1, y + 1)
  | _ => none

/-- Whether cell `(x, y)` of the matrix exists and is walkable (nonzero). -/
def walkable_cell (matrix : List (List Int)) (x y : Nat) : Bool :=
  match (matrix.get? y).bind (fun row => row.get? x) with
  | some e => e ≠ 0
  | none => false

/-! ### The Wavefront exporter (`wavefront.py`) -/

/-- A 3D vertex (coordinates modelled as exact integers: every pipeline
vertex is a lattice point at height `0` or `height`, and the ordering and
formatting of such values are those of the integers). -/
abbrev Vertex3 : Type := Int × Int × Int

/-- A mesh face: the list of its vertices (quads from the extruder,
triangles from the cap triangulation). -/
abbrev Face : Type := List Vertex3

abbrev Mesh : Type := List Face

/-- `(axis, sign)` pairs, as produced by `parse_readable_export_settings`. -/
abbrev ExportSettings : Type := (Nat × Int) × (Nat × Int) × (Nat × Int)

/-- `parse_readable_export_settings(DEFAULT_EXPORT_SETTINGS)`:
`('+x', '+z', '+y')` parses to `((0, 1), (2, 1), (1, 1))`. -/
def DEFAULT_SETTINGS : ExportSettings := ((0, 1), (2, 1), (1, 1))

/-- Component `i` of a vertex (`0 ↦ x`, `1 ↦ y`, `2 ↦ z`). -/
def vcomp (v : Vertex3) (i : Nat) : Int :=
  if i = 0 then v.1 else if i = 1 then v.2.1 else v.2.2

/-- `'{:.6f}'.format` of an integer value. -/
def fmt6 (i : Int) : String := toString i ++ ".000000"

/-- `export_vertex` from wavefront.py. -/
def export_vertex (v : Vertex3) (es : ExportSettings) : String :=
  "v " ++ fmt6 (vcomp v es.1.1 * es.1.2) ++ " " ++ fmt6 (vcomp v es.2.1.1 * es.2.1.2)
    ++ " " ++ fmt6 (vcomp v es.2.2.1 * es.2.2.2)

/-- `export_face_indices` from wavefront.py (with `zero_index=False`). -/
def export_face_indices (face_indices : List Nat) : String :=
  "f " ++ String.intercalate " " (face_indices.map toString)

/-- Python tuple comparison `≤` on int triples (lexicographic). -/
def vertLe (a b : Vertex3) : Prop :=
  a.1 < b.1 ∨ (a.1 = b.1 ∧ (a.2.1 < b.2.1 ∨ (a.2.1 = b.2.1 ∧ a.2.2 ≤ b.2.2)))

instance : DecidableRel vertLe := fun a b => by
  unfold vertLe; infer_instance

instance : IsTotal Vertex3 vertLe :=
  ⟨by intro a b; unfold vertLe; omega⟩

instance : IsTrans Vertex3 vertLe :=
  ⟨by intro a b c; unfold vertLe; omega⟩

instance : IsAntisymm Vertex3 vertLe :=
  ⟨by
    intro a b h1 h2
    obtain ⟨a1, a2, a3⟩ := a
    obtain ⟨b1, b2, b3⟩ := b
    simp only [vertLe] at h1 h2
    simp only [Prod.mk.injEq]
    omega⟩

/-- The key list of `mesh2vertices` from wavefront.py: the distinct
vertices of all faces, sorted (Python: `sorted(list(set(...)))`).  The
OrderedDict then maps the `i`-th vertex of this list to index `i + 1`. -/
def mesh2vertices_keys (mesh : Mesh) : List Vertex3 :=
  (mesh.flatten.dedup).insertionSort vertLe

/-- Index lookup in the `mesh2vertices` OrderedDict (1-based). -/
def vertex_index (vs : List Vertex3) (v : Vertex3) : Nat := vs.indexOf v + 1

/-- The vertex block of `export_mesh`: one line per unique vertex, in
sorted order. -/
def export_vertex_lines (mesh : Mesh) : List String :=
  (mesh2vertices_keys mesh).map (fun v => export_vertex v DEFAULT_SETTINGS)

/-- The face block of `export_mesh`: one line per face, in mesh order. -/
def export_face_lines (mesh : Mesh) : List String :=
  mesh.map (fun face =>
    export_face_indices (face.map (vertex_index (mesh2vertices_keys mesh))))

/-- `export_mesh` from wavefront.py (with the default export settings):
the newline-joined vertex block followed by the face block. -/
def export_mesh (mesh : Mesh) : String :=
  String.intercalate "\n" (export_vertex_lines mesh ++ export_face_lines mesh)

/-! ### The cap-triangulation driver (`triangulate_walls`) -/

/-- The `dic` handed to the external `triangle.triangulate` collaborator:
unique vertices, segments as index pairs, and the `holes` key (absent,
modelled `none`, when the hole list is empty). -/
abbrev TriIn : Type := List Pos × List (Nat × Nat) × Option (List (ℚ × ℚ))

/-- The result of the external constrained-triangulation collaborator. -/
structure TriOut where
  vertices : List (ℚ × ℚ)
  triangles : List (Nat × Nat × Nat)

/-- A 2D output triangle. -/
abbrev Tri2 : Type := (ℚ × ℚ) × (ℚ × ℚ) × (ℚ × ℚ)

/-- `wall_perimeters_to_unique_vertices` from png2obj.py: first-occurrence
deduplication of all perimeter vertices. -/
def wall_perimeters_to_unique_vertices (walls : List (List Pos)) : List Pos :=
  walls.foldl (fun ret wall =>
    wall.foldl (fun r v => if v ∈ r then r else r ++ [v]) ret) []

/-- `triangulate_walls` from png2obj.py, with the external
`triangle.triangulate` call abstracted as the parameter `tri`.  The result
carries the list of calls made to `tri` (empty iff the collaborator was
never invoked); `Except.error` models the `assert` failures and index
errors of the source. -/
def triangulate_walls (tri : TriIn → TriOut) (walls : List (List Pos))
    (holes : List (ℚ × ℚ)) : Except String (List Tri2 × List TriIn) :=
  let unique_vertices := wall_perimeters_to_unique_vertices walls
  if ¬ unique_vertices.Nodup then
    Except.error "the list contains duplicated elements"
  else if ¬ walls.all (fun w => !w.isEmpty && decide (w.head? = w.getLast?)) then
    Except.error "The wall must be closed"
  else
    let segments := (walls.map (fun w =>
      (w.zip w.tail).map (fun ab =>
        (unique_vertices.indexOf ab.1, unique_vertices.indexOf ab.2)))).flatten
    let v_segments := (walls.map (fun w => w.zip w.tail)).flatten
    if ¬ (segments.zip v_segments).all (fun se =>
        decide (unique_vertices.get? se.1.1 = some se.2.1) &&
        decide (unique_vertices.get? se.1.2 = some se.2.2)) then
      Except.error "segment does not match wall edge"
    else
      let dic : TriIn := (unique_vertices, segments,
        if holes = [] then none else some holes)
      if unique_vertices = [] then Except.ok ([], [])
      else
        let out := tri dic
        match (out.triangles.mapM (fun ijk => do
            let a ← out.vertices.get? ijk.1
            let b ← out.vertices.get? ijk.2.1
            let c ← out.vertices.get? ijk.2.2
            pure ((a, b, c) : Tri2)) : Option (List Tri2)) with
        | none => Except.error "IndexError"
        | some faces => Except.ok (faces, [dic])

/-! ### Support definitions for the tracer invariants -/

/-- The four proper versors. -/
def dirList : List Dir := [LEFT, UP, RIGHT, DOWN]

/-- The two boxes flanking the lattice edge along which a walker ARRIVES
at vertex `v` with incoming versor `d` (the edge from `v - d` to `v`). -/
def inEdgeCells (v : Pos) (d : Dir) : Pos × Pos :=
  if d = UP then ((v.1 - 1, v.2), (v.1, v.2))
  else if d = DOWN then ((v.1 - 1, v.2 - 1), (v.1, v.2 - 1))
  else if d = LEFT then ((v.1, v.2 - 1), (v.1, v.2))
  else ((v.1 - 1, v.2 - 1), (v.1 - 1, v.2))

/-- A walker state `(v, d)`: at vertex `v`, having arrived with versor
`d`.  It is consistent when `d` is a proper versor and the arrival edge is
a boundary edge (its two flanking boxes differ). -/
def consistentS (B : List Pos) (s : Pos × Dir) : Prop :=
  s.2 ∈ dirList ∧ mapGet B (inEdgeCells s.1 s.2).1 ≠ mapGet B (inEdgeCells s.1 s.2).2

/-- The total step function on walker states (junk `s` itself where the
source would raise `KeyError`; consistent states never do). -/
def stepFn (B : List Pos) (s : Pos × Dir) : Pos × Dir :=
  match RULES (blocks_matrix B s.1) s.2 with
  | some r => (sum_vectors s.1 r, r)
  | none => s

/-- The 16 walker states incident to box `c` (its four corners, four
versors each): every consistent state lives at a corner of a blocked box. -/
def cornerStates (c : Pos) : Finset (Pos × Dir) :=
  (([c, (c.1 + 1, c.2), (c.1, c.2 + 1), (c.1 + 1, c.2 + 1)] : List Pos).flatMap
    (fun v => [(v, LEFT), (v, UP), (v, RIGHT), (v, DOWN)])).toFinset

/-- All walker states incident to some blocked box: a finite superset of
the consistent states. -/
def stateSpace (B : List Pos) : Finset (Pos × Dir) := B.toFinset.biUnion cornerStates

/-- The two entries of the 2x2 matrix of vertex `v` that flank the edge
along which a walker ARRIVES at `v` with versor `d` (same cells as
`inEdgeCells v d`, read off the matrix). -/
def inCellsOfMat (bm : Mat) (d : Dir) : Int × Int :=
  if d = UP then (bm.2.1, bm.2.2)
  else if d = DOWN then (bm.1.1, bm.1.2)
  else if d = LEFT then (bm.1.2, bm.2.2)
  else (bm.1.1, bm.2.1)

/-- The two entries of the 2x2 matrix of vertex `v` that flank the edge
along which a walker LEAVES `v` with versor `d` (the arrival edge of
`v + d` with versor `d`). -/
def outCellsOfMat (bm : Mat) (d : Dir) : Int × Int :=
  if d = UP then (bm.1.1, bm.1.2)
  else if d = DOWN then (bm.2.1, bm.2.2)
  else if d = LEFT then (bm.1.1, bm.2.1)
  else (bm.1.2, bm.2.2)

/-- Checks that the `RULES` lookup for incoming versor `din` succeeds and
yields a proper versor whose departure edge is again a boundary edge. -/
def ruleOutOk (M : Mat) (din : Dir) : Bool :=
  match RULES M din with
  | none => false
  | some r => decide (r ∈ dirList) && decide ((outCellsOfMat M r).1 ≠ (outCellsOfMat M r).2)

/-- For a triple `((prev, cur), next)` of consecutive input vertices:
whether `cur` is a corner, i.e. the step vector into `cur` differs from
the step vector out of `cur`. -/
def corner_triple (t : (Pos × Pos) × Pos) : Bool :=
  decide ((t.1.2.1 - t.1.1.1, t.1.2.2 - t.1.1.2) ≠ (t.2.1 - t.1.2.1, t.2.2 - t.1.2.2))

/-- Negation of a versor. -/
def negD (d : Dir) : Dir := (-d.1, -d.2)

/-- The reversal of a walker state: the same lattice edge, traversed in
the opposite direction (arrival at the edge's other endpoint). -/
def revS (s : Pos × Dir) : Pos × Dir := ((s.1.1 - s.2.1, s.1.2 - s.2.2), negD s.2)

/-- The per-pass increment applied to `tracked_vertices` at vertex `u`:
`1` at a saddle (four possible directions), `2` otherwise. -/
def incOf (B : List Pos) (u : Pos) : Nat :=
  if (POSSIBLE_DIRECTIONS (blocks_matrix B u)).length = 4 then 1 else 2

/-- The first `16 * B.length` iterates of the walker step from `s`; for a
consistent state this list covers its whole (periodic) orbit. -/
def orbitStates (B : List Pos) (s : Pos × Dir) : List (Pos × Dir) :=
  (List.range (16 * B.length)).map (fun k => (stepFn B)^[k] s)

/-- The vertices visited by the orbit of `s`. -/
def orbitVerts (B : List Pos) (s : Pos × Dir) : List Pos :=
  (orbitStates B s).map Prod.fst

/-- The trigger of a state: the Python-minimal vertex on its orbit (the
vertex whose processing launches the walk tracing the state's curve). -/
def trig (B : List Pos) (s : Pos × Dir) : Option Pos := list_min (orbitVerts B s)

/-- The state reached by the first move of a walk started at `m`
(`RULES[...][STILL] = RIGHT` at every configuration a minimal vertex of a
curve can have). -/
def startStateAt (m : Pos) : Pos × Dir := ((m.1 + 1, m.2), RIGHT)

instance (B : List Pos) (s : Pos × Dir) : Decidable (consistentS B s) := by
  unfold consistentS
  infer_instance

/-- Whether state `s` is consumed once every walk whose start vertex
precedes `p` (Python tuple order) has been traced: `s` is consistent, its
curve is triggered before `p`, and `s` lies on the traced orientation of
its curve. -/
def consumedB (B : List Pos) (p : Pos) (s : Pos × Dir) : Bool :=
  decide (consistentS B s) &&
    (match trig B s with
     | none => false
     | some m => decide (lexLt m p) && decide (s ∈ orbitStates B (startStateAt m)))

/-- The four candidate arrival states at vertex `u`. -/
def stateAt (u : Pos) : List (Pos × Dir) := [(u, LEFT), (u, UP), (u, RIGHT), (u, DOWN)]

/-- The number of consumed arrival states at `u` at threshold `p`. -/
def countConsumed (B : List Pos) (p : Pos) (u : Pos) : Nat :=
  (stateAt u).countP (consumedB B p)

/-- The configurations that can occur at the minimal vertex of a boundary
curve (the walk heads out of the minimum through the south/east edges). -/
def minConfigB (M : Mat) : Bool :=
  decide (RULES M UP = some RIGHT) || decide (RULES M LEFT = some DOWN)

/-- Chirality selector: the entry of the 2x2 matrix on the walker's LEFT
flank of its arrival edge. -/
def chiIn (M : Mat) (d : Dir) : Int :=
  if d = UP then (inCellsOfMat M d).1
  else if d = DOWN then (inCellsOfMat M d).2
  else if d = LEFT then (inCellsOfMat M d).2
  else (inCellsOfMat M d).1

/-- Chirality selector on the departure edge. -/
def chiOut (M : Mat) (r : Dir) : Int :=
  if r = UP then (outCellsOfMat M r).1
  else if r = DOWN then (outCellsOfMat M r).2
  else if r = LEFT then (outCellsOfMat M r).2
  else (outCellsOfMat M r).1

/-- Chirality of a walker state: the box on its left flank (`1` when the
solid side is on the left; constant along an orbit, flipped by reversal). -/
def chiB (B : List Pos) (s : Pos × Dir) : Int := chiIn (blocks_matrix B s.1) s.2

/-- How many of the first `n` iterates from `s` sit at vertex `u`. -/
def visitCount (B : List Pos) (s : Pos × Dir) (n : Nat) (u : Pos) : Nat :=
  ((List.range n).map (fun k => ((stepFn B)^[k] s).1)).count u

/-- The mate of an arrival state at a vertex: the reversed arrival along
the state's departure edge (the other half of the same passage). -/
def mateS (B : List Pos) (s : Pos × Dir) : Pos × Dir := revS (stepFn B s)

/-! ## Theorems

### C6 — the single blocked 1x1 grid -/

/-- C6.  For the 1x1 grid whose single cell is blocked (`mat2map [[0]]`
gives the blocks map `{(0,0)}` with map size `(1,1)`), `BlocksMap.build`
returns exactly one perimeter, `[(0,0),(1,0),(1,1),(0,1),(0,0)]`.  (Fuel
`20` exceeds the bound `16·|B|+3` proved sufficient in the termination
theorem, so it models the source's unbounded loop.) -/
theorem build_single_blocked_cell :
    mat2map [[0]] = some ([(0, 0)], 1, 1) ∧
      buildFuel [(0, 0)] 1 1 20 =
        some [[(0, 0), (1, 0), (1, 1), (0, 1), (0, 0)]] := by decide

/-- C2 (counterexample).  For the checkerboard blocks map
`{(0,0), (1,1)}` of map size `(2,2)`, the lattice vertex `(1,1)` is a
saddle (its 2x2 configuration has direction set of size 4), the complete
tracing passes through it exactly twice (`tracked_vertices[(1,1)] = 2`,
each saddle pass adding 1), but `build` produces exactly ONE closed loop —
a figure-eight in which `(1,1)` occurs twice — so the two passes belong to
the same loop, not to two different loops as the claim states. -/
theorem saddle_single_loop_counterexample :
    (POSSIBLE_DIRECTIONS (blocks_matrix [(0, 0), (1, 1)] (1, 1))).length = 4 ∧
      buildFuel [(0, 0), (1, 1)] 2 2 40 =
        some [[(0, 0), (1, 0), (1, 1), (2, 1), (2, 2), (1, 2), (1, 1), (0, 1), (0, 0)]] ∧
      (buildT [(0, 0), (1, 1)] 2 2 40).map (fun st => st.1 (1, 1)) = some 2 ∧
      (buildT [(0, 0), (1, 1)] 2 2 40).map (fun st => st.2.length) = some 1 ∧
      List.count ((1, 1) : Pos)
          [(0, 0), (1, 0), (1, 1), (2, 1), (2, 2), (1, 2), (1, 1), (0, 1), (0, 0)] = 2 := by
  decide

/-- C10.  With no wall perimeters at all, `triangulate_walls` returns the
empty triangle list without invoking the external constrained-triangulation
collaborator (the call log is empty) and without raising an error, for
every collaborator `tri` and every hole list. -/
theorem triangulate_walls_empty_graph (tri : TriIn → TriOut) (holes : List (ℚ × ℚ)) :
    triangulate_walls tri [] holes = Except.ok ([], []) := rfl

/-- C9 (counterexample).  The non-rectangular matrix `[[0], [0, 0]]` (row
lengths 1 and 2) is NOT rejected: `mat2map` builds a blocks map from it
(with map size taken from the final loop indices), and tracing then
proceeds normally, producing a wall perimeter — no precondition check
exists anywhere on the path. -/
theorem mat2map_ragged_counterexample :
    ([[0], [0, 0]] : List (List Int)).map List.length = [1, 2] ∧
      mat2map [[0], [0, 0]] = some ([(0, 0), (0, 1), (1, 1)], 2, 2) ∧
      buildFuel [(0, 0), (0, 1), (1, 1)] 2 2 60 =
        some [[(0, 0), (1, 0), (1, 1), (2, 1), (2, 2), (0, 2), (0, 0)]] := by
  decide

/-- C8 (counterexample).  For the matrix `[[0,0,0,0],[0,1,1,0],[0,0,0,0]]`
there is exactly one enclosed walkable region — the two orthogonally
adjacent walkable cells `(1,1)` and `(2,1)` — yet `matrix2holes` hands the
cap triangulation TWO markers, one per walkable cell (their centres), not
one per region. -/
theorem matrix2holes_region_counterexample :
    matrix2holes [[0, 0, 0, 0], [0, 1, 1, 0], [0, 0, 0, 0]] =
        [(3 / 2, 3 / 2), (5 / 2, 3 / 2)] ∧
      ((3 / 2, 3 / 2) : ℚ × ℚ) ≠ (5 / 2, 3 / 2) ∧
      walkable_cell [[0, 0, 0, 0], [0, 1, 1, 0], [0, 0, 0, 0]] 1 1 = true ∧
      walkable_cell [[0, 0, 0, 0], [0, 1, 1, 0], [0, 0, 0, 0]] 2 1 = true ∧
      (matrix2holes [[0, 0, 0, 0], [0, 1, 1, 0], [0, 0, 0, 0]]).length = 2 := by
  refine ⟨?_, by norm_num, by decide, by decide, ?_⟩ <;>
    · simp [matrix2holes, List.enum, List.enumFrom]
      try norm_num

/-- C7 (counterexample).  Supplying the same two faces in the opposite
insertion order produces a DIFFERENT output string: the vertex block is
identical, but the face lines follow mesh insertion order, so the exports
are not byte-identical. -/
theorem export_mesh_order_counterexample :
    (([[(0, 0, 0), (1, 0, 0), (1, 1, 0), (0, 1, 0)],
       [(0, 1, 0), (1, 1, 0), (1, 0, 0), (0, 0, 0)]] : Mesh).Perm
      [[(0, 1, 0), (1, 1, 0), (1, 0, 0), (0, 0, 0)],
       [(0, 0, 0), (1, 0, 0), (1, 1, 0), (0, 1, 0)]]) ∧
      export_mesh
          [[(0, 0, 0), (1, 0, 0), (1, 1, 0), (0, 1, 0)],
           [(0, 1, 0), (1, 1, 0), (1, 0, 0), (0, 0, 0)]] ≠
        export_mesh
          [[(0, 1, 0), (1, 1, 0), (1, 0, 0), (0, 0, 0)],
           [(0, 0, 0), (1, 0, 0), (1, 1, 0), (0, 1, 0)]] := by
  decide

/-! ### C5 — specification of `remove_internal_edge_points` -/

theorem rieAux_eq (prev v1 : Pos) (rest : List Pos) :
    rieAux prev (v1 :: rest) =
      ((((prev :: v1 :: rest).zip (v1 :: rest)).zip rest).filter corner_triple).map
          (fun t => t.1.2) ++
        [(v1 :: rest).getLast (List.cons_ne_nil v1 rest)] := by
  induction rest generalizing prev v1 with
  | nil => simp [rieAux]
  | cons r rs ih =>
    have hz : (((prev :: v1 :: r :: rs).zip (v1 :: r :: rs)).zip (r :: rs)) =
        ((prev, v1), r) :: (((v1 :: r :: rs).zip (r :: rs)).zip rs) := by
      simp [List.zip_cons_cons]
    have hlast : (v1 :: r :: rs).getLast (List.cons_ne_nil v1 (r :: rs)) =
        (r :: rs).getLast (List.cons_ne_nil r rs) := List.getLast_cons _
    rw [hz, hlast]
    by_cases hcond : (v1.1 - prev.1, v1.2 - prev.2) ≠ (r.1 - v1.1, r.2 - v1.2)
    · have hb : corner_triple ((prev, v1), r) = true := by
        unfold corner_triple; exact decide_eq_true hcond
      rw [List.filter_cons_of_pos hb]
      show rieAux prev (v1 :: r :: rs) = _
      rw [rieAux, if_pos hcond, ih v1 r]
      simp
    · have hb : ¬ (corner_triple ((prev, v1), r) = true) := by
        unfold corner_triple; simp only [decide_eq_true_eq]; exact hcond
      rw [List.filter_cons_of_neg hb]
      show rieAux prev (v1 :: r :: rs) = _
      rw [rieAux, if_neg hcond, ih v1 r]

/-- C5.  For every vertex list with at least two elements
(`v0 :: v1 :: rest`), `remove_internal_edge_points` returns exactly the
first point, followed by those interior points whose step vector from the
previous input point differs from the step vector to the next input point
(the corner triples), followed by the last point. -/
theorem remove_internal_edge_points_spec (v0 v1 : Pos) (rest : List Pos) :
    remove_internal_edge_points (v0 :: v1 :: rest) =
      v0 :: (((((v0 :: v1 :: rest).zip (v1 :: rest)).zip rest).filter corner_triple).map
          (fun t => t.1.2) ++
        [(v1 :: rest).getLast (List.cons_ne_nil v1 rest)]) := by
  have hdef : remove_internal_edge_points (v0 :: v1 :: rest) =
      v0 :: rieAux v0 (v1 :: rest) := rfl
  rw [hdef, rieAux_eq]

/-! ### Order lemmas for Python tuple comparison -/

theorem lexLt_irrefl (a : Pos) : ¬ lexLt a a := by unfold lexLt; omega

theorem lexLt_trans {a b c : Pos} (h1 : lexLt a b) (h2 : lexLt b c) : lexLt a c := by
  unfold lexLt at *; omega

theorem lexLt_antisymm {a b : Pos} (h1 : ¬ lexLt a b) (h2 : ¬ lexLt b a) : a = b := by
  obtain ⟨a1, a2⟩ := a
  obtain ⟨b1, b2⟩ := b
  unfold lexLt at *
  simp only [Prod.mk.injEq]
  constructor <;> omega

theorem lexLt_total (a b : Pos) : lexLt a b ∨ a = b ∨ lexLt b a := by
  obtain ⟨a1, a2⟩ := a
  obtain ⟨b1, b2⟩ := b
  unfold lexLt
  simp only [Prod.mk.injEq]
  omega

/-! ### Lemmas about `list_min` -/

theorem list_min_isSome {l : List Pos} (hl : l ≠ []) : ∃ m, list_min l = some m := by
  cases l with
  | nil => exact absurd rfl hl
  | cons h t => exact ⟨_, rfl⟩

theorem foldl_min_mem (t : List Pos) (h : Pos) :
    t.foldl (fun m x => if lexLt x m then x else m) h = h ∨
      t.foldl (fun m x => if lexLt x m then x else m) h ∈ t := by
  induction t generalizing h with
  | nil => exact Or.inl rfl
  | cons y ys ih =>
    simp only [List.foldl_cons]
    rcases ih (if lexLt y h then y else h) with heq | hmem
    · rw [heq]
      by_cases hc : lexLt y h
      · simp [hc]
      · simp [hc]
    · exact Or.inr (List.mem_cons_of_mem _ hmem)

theorem foldl_min_le (t : List Pos) (h : Pos) :
    ∀ x ∈ h :: t, ¬ lexLt x (t.foldl (fun m x => if lexLt x m then x else m) h) := by
  induction t generalizing h with
  | nil =>
    intro x hx
    simp only [List.mem_singleton] at hx
    subst hx
    exact lexLt_irrefl x
  | cons y ys ih =>
    intro x hx
    simp only [List.foldl_cons]
    have ihh := ih (if lexLt y h then y else h)
    rcases List.mem_cons.1 hx with hxh | hx2
    · subst hxh
      by_cases hc : lexLt y x
      · rw [if_pos hc] at ihh ⊢
        intro habs
        exact ihh y (List.mem_cons_self y ys) (lexLt_trans hc habs)
      · rw [if_neg hc] at ihh ⊢
        exact ihh x (List.mem_cons_self x ys)
    rcases List.mem_cons.1 hx2 with hxy | hx3
    · subst hxy
      by_cases hc : lexLt x h
      · rw [if_pos hc] at ihh ⊢
        exact ihh x (List.mem_cons_self x ys)
      · rw [if_neg hc] at ihh ⊢
        intro habs
        rcases lexLt_total x h with hlt | heq | hgt
        · exact hc hlt
        · rw [heq] at habs
          exact ihh h (List.mem_cons_self h ys) habs
        · exact ihh h (List.mem_cons_self h ys) (lexLt_trans hgt habs)
    · exact ih _ x (List.mem_cons_of_mem _ hx3)

theorem list_min_mem {l : List Pos} {m : Pos} (h : list_min l = some m) : m ∈ l := by
  cases l with
  | nil => simp [list_min] at h
  | cons a t =>
    simp only [list_min, Option.some.injEq] at h
    rcases foldl_min_mem t a with heq | hmem
    · rw [heq] at h
      rw [← h]
      exact List.mem_cons_self a t
    · rw [← h]
      exact List.mem_cons_of_mem _ hmem

theorem list_min_not_lt {l : List Pos} {m : Pos} (h : list_min l = some m) :
    ∀ x ∈ l, ¬ lexLt x m := by
  cases l with
  | nil => simp [list_min] at h
  | cons a t =>
    simp only [list_min, Option.some.injEq] at h
    rw [← h]
    exact foldl_min_le t a

/-! ### Lemmas about `remove_contiguous_values` -/

theorem rcv_cons_cons {α : Type*} [DecidableEq α] (a b : α) (t : List α) :
    remove_contiguous_values (a :: b :: t) =
      if a = b then remove_contiguous_values (b :: t)
      else a :: remove_contiguous_values (b :: t) := rfl

theorem rcv_head {α : Type*} [DecidableEq α] :
    ∀ l : List α, (remove_contiguous_values l).head? = l.head? := by
  intro l
  induction l with
  | nil => rfl
  | cons a t ih =>
    cases t with
    | nil => rfl
    | cons b t2 =>
      rw [rcv_cons_cons]
      by_cases h : a = b
      · rw [if_pos h, ih]
        simp [h]
      · rw [if_neg h]
        simp

theorem rcv_ne_nil {α : Type*} [DecidableEq α] {l : List α} (hl : l ≠ []) :
    remove_contiguous_values l ≠ [] := by
  intro habs
  have h1 := rcv_head l
  rw [habs] at h1
  simp only [List.head?_nil] at h1
  exact hl (List.head?_eq_none_iff.1 h1.symm)

theorem rcv_getLast {α : Type*} [DecidableEq α] :
    ∀ l : List α, (remove_contiguous_values l).getLast? = l.getLast? := by
  intro l
  induction l with
  | nil => rfl
  | cons a t ih =>
    cases t with
    | nil => rfl
    | cons b t2 =>
      rw [rcv_cons_cons, List.getLast?_cons_cons]
      by_cases h : a = b
      · rw [if_pos h, ih]
      · rw [if_neg h]
        have hne := rcv_ne_nil (List.cons_ne_nil b t2)
        cases hrc : remove_contiguous_values (b :: t2) with
        | nil => exact absurd hrc hne
        | cons c cs =>
          rw [List.getLast?_cons_cons, ← hrc, ih]

theorem rcv_chain {α : Type*} [DecidableEq α] :
    ∀ l : List α, (remove_contiguous_values l).Chain' (· ≠ ·) := by
  intro l
  induction l with
  | nil => exact List.chain'_nil
  | cons a t ih =>
    cases t with
    | nil => simp [remove_contiguous_values]
    | cons b t2 =>
      rw [rcv_cons_cons]
      by_cases h : a = b
      · rw [if_pos h]
        exact ih
      · rw [if_neg h]
        refine List.chain'_cons'.2 ⟨?_, ih⟩
        intro y hy
        rw [rcv_head (b :: t2)] at hy
        simp only [List.head?_cons, Option.mem_def, Option.some.injEq] at hy
        rw [← hy]
        exact h

theorem rcv_of_chain {α : Type*} [DecidableEq α] :
    ∀ l : List α, l.Chain' (· ≠ ·) → remove_contiguous_values l = l := by
  intro l
  induction l with
  | nil => intro _; rfl
  | cons a t ih =>
    cases t with
    | nil => intro _; rfl
    | cons b t2 =>
      intro hch
      rw [List.chain'_cons] at hch
      rw [rcv_cons_cons, if_neg hch.1, ih hch.2]

theorem rcv_subset {α : Type*} [DecidableEq α] :
    ∀ (l : List α) (x : α), x ∈ remove_contiguous_values l → x ∈ l := by
  intro l
  induction l with
  | nil => intro x hx; exact hx
  | cons a t ih =>
    cases t with
    | nil => intro x hx; exact hx
    | cons b t2 =>
      intro x hx
      rw [rcv_cons_cons] at hx
      by_cases h : a = b
      · rw [if_pos h] at hx
        exact List.mem_cons_of_mem _ (ih x hx)
      · rw [if_neg h] at hx
        rcases List.mem_cons.1 hx with rfl | hx2
        · exact List.mem_cons_self x _
        · exact List.mem_cons_of_mem _ (ih x hx2)

theorem rcv_collapse {α : Type*} [DecidableEq α] :
    ∀ (xs : List α) (a : α) (ys : List α),
      remove_contiguous_values (xs ++ a :: a :: ys) =
        remove_contiguous_values (xs ++ a :: ys) := by
  intro xs
  induction xs with
  | nil =>
    intro a ys
    simp only [List.nil_append]
    rw [rcv_cons_cons, if_pos rfl]
  | cons x xs ih =>
    intro a ys
    cases xs with
    | nil =>
      simp only [List.nil_append, List.cons_append]
      rw [rcv_cons_cons x a (a :: ys), rcv_cons_cons x a ys]
      have ih2 := ih a ys
      simp only [List.nil_append] at ih2
      rw [ih2]
    | cons x2 xs2 =>
      simp only [List.cons_append]
      rw [rcv_cons_cons x x2, rcv_cons_cons x x2]
      have ih2 := ih a ys
      simp only [List.cons_append] at ih2
      rw [ih2]

theorem rcv_append_getLast {α : Type*} [DecidableEq α] :
    ∀ (l : List α) (a : α), l.Chain' (· ≠ ·) → l.getLast? = some a →
      remove_contiguous_values (l ++ [a]) = l := by
  intro l
  induction l with
  | nil => intro a _ h; simp at h
  | cons x t ih =>
    intro a hch hlast
    cases t with
    | nil =>
      simp only [List.getLast?_singleton, Option.some.injEq] at hlast
      subst hlast
      show remove_contiguous_values [x, x] = [x]
      rw [rcv_cons_cons, if_pos rfl]
      rfl
    | cons y t2 =>
      rw [List.chain'_cons] at hch
      rw [List.getLast?_cons_cons] at hlast
      have hcons : (x :: y :: t2) ++ [a] = x :: y :: (t2 ++ [a]) := by simp
      rw [hcons, rcv_cons_cons, if_neg hch.1]
      have ih2 := ih a hch.2 hlast
      simp only [List.cons_append] at ih2
      rw [ih2]

/-! ### Lemmas about the rotation loop of `normalized_perimeter` -/

theorem rot_right_length {α : Type*} (l : List α) : (rot_right l).length = l.length := by
  unfold rot_right
  cases hl : l.getLast? with
  | none =>
    have : l = [] := by
      cases l with
      | nil => rfl
      | cons a t => rw [List.getLast?_eq_getLast_of_ne_nil (List.cons_ne_nil a t)] at hl; cases hl
    rw [this]
  | some a =>
    have hne : l ≠ [] := by intro h; rw [h] at hl; cases hl
    have hpos : 0 < l.length := List.length_pos.2 hne
    simp only [List.length_cons, List.length_dropLast]
    omega

theorem rot_right_head {α : Type*} (l : List α) : (rot_right l).head? = l.getLast? := by
  unfold rot_right
  cases hl : l.getLast? <;> simp

theorem mem_of_head? {α : Type*} {l : List α} {a : α} (h : l.head? = some a) : a ∈ l := by
  cases l with
  | nil => cases h
  | cons x t =>
    simp only [List.head?_cons, Option.some.injEq] at h
    rw [← h]
    exact List.mem_cons_self x t

theorem headD_of_head? {α : Type*} {l : List α} {a d : α} (h : l.head? = some a) :
    l.headD d = a := by
  rw [List.headD_eq_head?, h]
  rfl

theorem rot_reach (m : Pos) : ∀ (j : Nat) (l : List Pos) (i : Nat), l[i]? = some m →
    l.length - 1 - i = j → ∃ k ≤ j + 1, ((rot_right)^[k] l).head? = some m := by
  intro j
  induction j with
  | zero =>
    intro l i hi hj
    have hilen : i < l.length := by
      by_contra hge
      rw [List.getElem?_eq_none (by omega)] at hi
      cases hi
    refine ⟨1, by omega, ?_⟩
    rw [Function.iterate_one, rot_right_head, List.getLast?_eq_getElem?]
    have hieq : l.length - 1 = i := by omega
    rw [hieq]
    exact hi
  | succ j ih =>
    intro l i hi hj
    have hilen : i < l.length := by
      by_contra hge
      rw [List.getElem?_eq_none (by omega)] at hi
      cases hi
    have hlt : i < l.length - 1 := by omega
    have hne : l ≠ [] := List.ne_nil_of_length_pos (by omega)
    obtain ⟨a, ha⟩ : ∃ a, l.getLast? = some a :=
      ⟨l.getLast hne, List.getLast?_eq_getLast_of_ne_nil hne⟩
    have hd : (rot_right l)[i + 1]? = some m := by
      unfold rot_right
      rw [ha, List.getElem?_cons_succ, List.dropLast_eq_take, List.getElem?_take_of_lt hlt]
      exact hi
    obtain ⟨k, hk, hh⟩ := ih (rot_right l) (i + 1) hd (by rw [rot_right_length]; omega)
    refine ⟨k + 1, by omega, ?_⟩
    rwa [Function.iterate_succ_apply]

theorem rotate_to_min_eq (m : Pos) : ∀ (k : Nat) (l : List Pos) (fuel : Nat),
    (∀ j < k, (((rot_right)^[j]) l).head? ≠ some m) →
    (((rot_right)^[k]) l).head? = some m →
    k ≤ fuel → rotate_to_min m fuel l = ((rot_right)^[k]) l := by
  intro k
  induction k with
  | zero =>
    intro l fuel _ hk _
    simp only [Function.iterate_zero, id_eq] at hk ⊢
    cases fuel with
    | zero => rfl
    | succ f =>
      unfold rotate_to_min
      rw [if_pos hk]
  | succ k ih =>
    intro l fuel hj hk hfuel
    have h0 : ¬ l.head? = some m := by
      have := hj 0 (Nat.succ_pos k)
      simpa using this
    cases fuel with
    | zero => omega
    | succ f =>
      unfold rotate_to_min
      rw [if_neg h0]
      have hrec := ih (rot_right l) f
        (fun j hjk => by
          have := hj (j + 1) (by omega)
          rwa [Function.iterate_succ_apply] at this)
        (by rwa [Function.iterate_succ_apply] at hk) (by omega)
      rw [hrec, ← Function.iterate_succ_apply]

theorem rotate_to_min_spec {l : List Pos} {m : Pos} (hm : m ∈ l) :
    ∃ k, rotate_to_min m l.length l = ((rot_right)^[k]) l ∧
      (((rot_right)^[k]) l).head? = some m := by
  obtain ⟨i, hi⟩ := List.mem_iff_getElem?.1 hm
  have hilen : i < l.length := by
    by_contra hge
    rw [List.getElem?_eq_none (by omega)] at hi
    cases hi
  obtain ⟨k0, hk0le, hk0⟩ := rot_reach m (l.length - 1 - i) l i hi rfl
  have hex : ∃ k, (((rot_right)^[k]) l).head? = some m := ⟨k0, hk0⟩
  refine ⟨Nat.find hex, ?_, Nat.find_spec hex⟩
  refine rotate_to_min_eq m (Nat.find hex) l l.length
    (fun j hjk => Nat.find_min hex hjk) (Nat.find_spec hex) ?_
  have h1 := Nat.find_min' hex hk0
  omega

theorem rot_right_eq_rotate {α : Type*} (l : List α) :
    rot_right l = l.rotate (l.length - 1) := by
  rcases List.eq_nil_or_concat l with rfl | ⟨l2, a, rfl⟩
  · rfl
  · rw [List.concat_eq_append]
    have hlen : (l2 ++ [a]).length - 1 = l2.length := by simp
    rw [hlen, List.rotate_eq_drop_append_take (by simp), List.drop_left, List.take_left]
    unfold rot_right
    rw [List.getLast?_concat, List.dropLast_concat]
    rfl

theorem rot_iter_eq_rotate (t : Nat) (l : List Pos) :
    ((rot_right)^[t]) l = l.rotate (t * (l.length - 1)) := by
  induction t with
  | zero => simp
  | succ t ih =>
    rw [Function.iterate_succ_apply', ih, rot_right_eq_rotate, List.length_rotate,
      List.rotate_rotate]
    congr 1
    ring

theorem normalized_perimeter_eq_of_min {l : List Pos} {m : Pos} (hm : list_min l = some m) :
    normalized_perimeter l = remove_contiguous_values
      (rotate_to_min m l.length l ++ [(rotate_to_min m l.length l).headD m]) := by
  unfold normalized_perimeter
  rw [hm]

/-- Master lemma for `normalized_perimeter` on a nonempty input: the result
is the contiguous-dedup of some rotation of the input (rotated so its head
is the Python-minimum `m`) with `m` re-appended; and it starts and ends
with `m`, has no contiguous duplicates, and uses only input points. -/
theorem normalized_master (l : List Pos) (hl : l ≠ []) :
    ∃ m t, list_min l = some m ∧ m ∈ l ∧ (∀ x ∈ l, ¬ lexLt x m) ∧
      (l.rotate t).head? = some m ∧
      normalized_perimeter l = remove_contiguous_values (l.rotate t ++ [m]) ∧
      (normalized_perimeter l).head? = some m ∧
      (normalized_perimeter l).getLast? = some m ∧
      (normalized_perimeter l).Chain' (· ≠ ·) ∧
      (∀ x ∈ normalized_perimeter l, x ∈ l) := by
  obtain ⟨m, hm⟩ := list_min_isSome hl
  obtain ⟨k, hrot, hhead⟩ := rotate_to_min_spec (list_min_mem hm)
  have hiter := rot_iter_eq_rotate k l
  have hrothead : (l.rotate (k * (l.length - 1))).head? = some m := by
    rw [← hiter]; exact hhead
  have heq : normalized_perimeter l =
      remove_contiguous_values (l.rotate (k * (l.length - 1)) ++ [m]) := by
    rw [normalized_perimeter_eq_of_min hm, hrot, headD_of_head? hhead, hiter]
  have hrotne : l.rotate (k * (l.length - 1)) ≠ [] := by
    intro h
    have h2 := congrArg List.length h
    simp only [List.length_rotate, List.length_nil] at h2
    exact hl (List.length_eq_zero.1 h2)
  refine ⟨m, k * (l.length - 1), hm, list_min_mem hm, list_min_not_lt hm, hrothead, heq,
    ?_, ?_, ?_, ?_⟩
  · rw [heq, rcv_head, List.head?_append_of_ne_nil _ hrotne]
    exact hrothead
  · rw [heq, rcv_getLast, List.getLast?_concat]
  · rw [heq]
    exact rcv_chain _
  · intro x hx
    rw [heq] at hx
    have hx2 := rcv_subset _ x hx
    rcases List.mem_append.1 hx2 with h | h
    · exact List.mem_rotate.1 h
    · simp only [List.mem_singleton] at h
      rw [h]
      exact list_min_mem hm

/-- C3.  Normalization is idempotent: for every non-empty closed perimeter,
normalizing twice gives the same sequence as normalizing once. -/
theorem normalized_perimeter_idempotent (l : List Pos) (h1 : l ≠ [])
    (_h2 : l.head? = l.getLast?) :
    normalized_perimeter (normalized_perimeter l) = normalized_perimeter l := by
  obtain ⟨m, t, hmin, hmem, hnotlt, hrothead, heq, hqhead, hqlast, hqchain, hqsub⟩ :=
    normalized_master l h1
  have hqne : normalized_perimeter l ≠ [] := by
    intro h
    rw [h] at hqhead
    cases hqhead
  obtain ⟨m2, hm2⟩ := list_min_isSome hqne
  have hm2m : m2 = m := by
    apply lexLt_antisymm
    · exact hnotlt m2 (hqsub m2 (list_min_mem hm2))
    · exact list_min_not_lt hm2 m (mem_of_head? hqhead)
  rw [hm2m] at hm2
  rw [normalized_perimeter_eq_of_min hm2]
  have hrtm : rotate_to_min m (normalized_perimeter l).length (normalized_perimeter l) =
      normalized_perimeter l := by
    obtain ⟨n, hn⟩ : ∃ n, (normalized_perimeter l).length = n + 1 :=
      ⟨(normalized_perimeter l).length - 1, by
        have := List.length_pos.2 hqne
        omega⟩
    rw [hn]
    unfold rotate_to_min
    rw [if_pos hqhead]
  rw [hrtm, headD_of_head? hqhead]
  exact rcv_append_getLast _ m hqchain hqlast

/-- C4.  For every non-empty closed perimeter, the normalized perimeter
begins with the lexicographically smallest point `m` of the input
(Python tuple comparison: `x` first, then `y`), its last element equals
its first, and it is obtained from the input by a circular rotation
followed by the closure append and contiguous-duplicate removal
(preservation of the cyclic order of the input's points). -/
theorem normalized_perimeter_canonical (l : List Pos) (h1 : l ≠ [])
    (h2 : l.head? = l.getLast?) :
    ∃ m k, list_min l = some m ∧ m ∈ l ∧ (∀ x ∈ l, ¬ lexLt x m) ∧
      (normalized_perimeter l).head? = some m ∧
      (normalized_perimeter l).getLast? = some m ∧
      normalized_perimeter l =
        remove_contiguous_values (l.dropLast.rotate k ++ [m]) := by
  obtain ⟨m, t, hmin, hmem, hnotlt, hrothead, heq, hqhead, hqlast, hqchain, hqsub⟩ :=
    normalized_master l h1
  have hn1 : 1 ≤ l.length := List.length_pos.2 h1
  set j := t % l.length with hjdef
  have hjlt : j < l.length := Nat.mod_lt _ (by omega)
  have hrotj : l.rotate t = l.rotate j := (List.rotate_mod l t).symm
  rw [hrotj] at hrothead heq
  rcases List.eq_nil_or_concat l with rfl | ⟨l2, a, hsplit⟩
  · exact absurd rfl h1
  rw [List.concat_eq_append] at hsplit
  by_cases hj0 : j = 0
  · -- already starts at the minimum; the closing duplicate collapses
    rw [hj0, List.rotate_zero] at hrothead heq
    have hlastl : l.getLast? = some m := by
      rw [← h2]
      exact hrothead
    rw [hsplit, List.getLast?_concat] at hlastl
    have ham : a = m := Option.some.inj hlastl
    refine ⟨m, 0, hmin, hmem, hnotlt, hqhead, hqlast, ?_⟩
    rw [heq, hsplit, ham, List.rotate_zero, List.dropLast_concat]
    have hform : (l2 ++ [m]) ++ [m] = l2 ++ m :: m :: [] := by simp
    rw [hform, rcv_collapse l2 m []]
  · -- a genuine rotation by j ≥ 1
    have hj1 : 1 ≤ j := by omega
    have hlenl2 : l2.length = l.length - 1 := by
      rw [hsplit]
      simp
    have hjle : j ≤ l2.length := by omega
    -- the head of l equals its last element a
    have hheadl : l.head? = some a := by
      rw [h2, hsplit, List.getLast?_concat]
    have hl2ne : l2 ≠ [] := by
      intro h
      rw [h] at hlenl2
      simp at hlenl2
      omega
    have hheadl2 : l2.head? = some a := by
      rw [hsplit, List.head?_append_of_ne_nil _ hl2ne] at hheadl
      exact hheadl
    obtain ⟨l3, hl3⟩ : ∃ l3, l2 = a :: l3 := by
      cases l2 with
      | nil => exact absurd rfl hl2ne
      | cons x xs =>
        simp only [List.head?_cons, Option.some.injEq] at hheadl2
        exact ⟨xs, by rw [hheadl2]⟩
    obtain ⟨j2, hj2⟩ : ∃ j2, j = j2 + 1 := ⟨j - 1, by omega⟩
    -- decompose the rotation of l
    have hrot_split : l.rotate j = (l2.drop j ++ [a]) ++ (a :: l3.take j2) := by
      rw [hsplit, List.rotate_eq_drop_append_take (by rw [← hsplit]; omega)]
      rw [List.drop_append_eq_append_drop, List.take_append_eq_append_take]
      rw [show j - l2.length = 0 from by omega]
      simp only [List.drop_zero, List.take_zero, List.append_nil]
      rw [hl3, hj2, List.take_succ_cons]
    have hrot2 : l2.rotate j = l2.drop j ++ (a :: l3.take j2) := by
      rw [List.rotate_eq_drop_append_take hjle, hl3, hj2, List.take_succ_cons]
    refine ⟨m, j, hmin, hmem, hnotlt, hqhead, hqlast, ?_⟩
    rw [heq, hrot_split]
    have hform : ((l2.drop j ++ [a]) ++ (a :: l3.take j2)) ++ [m] =
        l2.drop j ++ a :: a :: (l3.take j2 ++ [m]) := by simp
    rw [hform, rcv_collapse (l2.drop j) a (l3.take j2 ++ [m])]
    rw [hsplit, List.dropLast_concat, hrot2]
    congr 1
    simp

/-- C3 witness: idempotence at the docstring example of the source. -/
theorem normalized_perimeter_idempotent_witness :
    normalized_perimeter (normalized_perimeter
        [((1 : Int), (0 : Int)), (1, 1), (0, 1), (0, 0), (1, 0)]) =
      normalized_perimeter [((1 : Int), (0 : Int)), (1, 1), (0, 1), (0, 0), (1, 0)] :=
  normalized_perimeter_idempotent _ (by decide) (by decide)

/-- C4 witness: canonicalization at the docstring example of the source. -/
theorem normalized_perimeter_canonical_witness :
    ∃ m k, list_min [((1 : Int), (0 : Int)), (1, 1), (0, 1), (0, 0), (1, 0)] = some m ∧
      m ∈ [((1 : Int), (0 : Int)), (1, 1), (0, 1), (0, 0), (1, 0)] ∧
      (∀ x ∈ [((1 : Int), (0 : Int)), (1, 1), (0, 1), (0, 0), (1, 0)], ¬ lexLt x m) ∧
      (normalized_perimeter [((1 : Int), (0 : Int)), (1, 1), (0, 1), (0, 0), (1, 0)]).head? =
        some m ∧
      (normalized_perimeter [((1 : Int), (0 : Int)), (1, 1), (0, 1), (0, 0), (1, 0)]).getLast? =
        some m ∧
      normalized_perimeter [((1 : Int), (0 : Int)), (1, 1), (0, 1), (0, 0), (1, 0)] =
        remove_contiguous_values
          (([((1 : Int), (0 : Int)), (1, 1), (0, 1), (0, 0), (1, 0)].dropLast.rotate k) ++ [m]) :=
  normalized_perimeter_canonical _ (by decide) (by decide)

/-! ### C8 (amended) — one hole marker per walkable cell -/

theorem holes_row_length (f : Nat → ℚ × ℚ) :
    ∀ (row : List Int) (n : Nat),
      ((row.enumFrom n).filterMap (fun xe => if xe.2 ≠ 0 then some (f xe.1) else none)).length =
        (row.filter (fun e => decide (e ≠ 0))).length := by
  intro row
  induction row with
  | nil => intro n; rfl
  | cons e t ih =>
    intro n
    rw [List.enumFrom_cons]
    have ih2 := ih (n + 1)
    simp only [ne_eq, ite_not, decide_not] at ih2
    by_cases h : e = 0
    · simp [List.filterMap_cons, List.filter_cons, h, ih2]
    · simp [List.filterMap_cons, List.filter_cons, h, ih2]

theorem holes_flatten_length :
    ∀ (mat : List (List Int)) (n : Nat),
      (((mat.enumFrom n).map (fun yrow =>
        yrow.2.enum.filterMap (fun xe =>
          if xe.2 ≠ 0 then some ((xe.1 : ℚ) + 1 / 2, (yrow.1 : ℚ) + 1 / 2)
          else none))).flatten).length =
        (mat.map (fun row => (row.filter (fun e => decide (e ≠ 0))).length)).sum := by
  intro mat
  induction mat with
  | nil => intro n; rfl
  | cons row rest ih =>
    intro n
    rw [List.enumFrom_cons]
    simp only [List.map_cons, List.flatten_cons, List.length_append, List.sum_cons]
    rw [ih (n + 1)]
    congr 1
    exact holes_row_length (fun k => ((k : ℚ) + 1 / 2, (n : ℚ) + 1 / 2)) row 0

/-- C8 (amended).  `matrix2holes` hands the cap triangulation exactly one
interior seed point per WALKABLE CELL — the cell's centre
`(x + 1/2, y + 1/2)` — not one per enclosed walkable region: a marker is
in the list iff its cell exists and is walkable, and the number of markers
is the total number of walkable cells. -/
theorem matrix2holes_per_cell (matrix : List (List Int)) :
    (∀ p : ℚ × ℚ, p ∈ matrix2holes matrix ↔
      ∃ (x y : Nat) (row : List Int) (e : Int), matrix.get? y = some row ∧
        row.get? x = some e ∧ e ≠ 0 ∧ p = ((x : ℚ) + 1 / 2, (y : ℚ) + 1 / 2)) ∧
    (matrix2holes matrix).length =
      (matrix.map (fun row => (row.filter (fun e => decide (e ≠ 0))).length)).sum := by
  constructor
  · intro p
    unfold matrix2holes
    rw [List.mem_flatten]
    constructor
    · rintro ⟨lp, hlp, hplp⟩
      rw [List.mem_map] at hlp
      obtain ⟨yrow, hyrow, rfl⟩ := hlp
      rw [List.mem_filterMap] at hplp
      obtain ⟨xe, hxe, hxeq⟩ := hplp
      by_cases h : xe.2 ≠ 0
      · rw [if_pos h] at hxeq
        refine ⟨xe.1, yrow.1, yrow.2, xe.2, ?_, ?_, h, (Option.some.inj hxeq).symm⟩
        · exact List.mem_enum_iff_get?.1 hyrow
        · exact List.mem_enum_iff_get?.1 hxe
      · rw [if_neg h] at hxeq
        cases hxeq
    · rintro ⟨x, y, row, e, hy, hx, he, rfl⟩
      refine ⟨(row.enum.filterMap (fun xe =>
          if xe.2 ≠ 0 then some ((xe.1 : ℚ) + 1 / 2, (y : ℚ) + 1 / 2) else none)), ?_, ?_⟩
      · rw [List.mem_map]
        exact ⟨(y, row), List.mem_enum_iff_get?.2 hy, rfl⟩
      · rw [List.mem_filterMap]
        exact ⟨(x, e), List.mem_enum_iff_get?.2 hx, by rw [if_pos he]⟩
  · unfold matrix2holes
    have h := holes_flatten_length matrix 0
    exact h

/-! ### C9 (amended) — no rectangularity check in `mat2map` -/

theorem mat2mapInner_sndsnd (y : Int) :
    ∀ (row : List (Nat × Int)) (st : List Pos × Option Int × Option Int),
      (mat2mapInner y st row).2.2 = st.2.2 := by
  intro row
  induction row with
  | nil => intro st; rfl
  | cons xe t ih =>
    intro st
    unfold mat2mapInner
    rw [List.foldl_cons]
    exact ih _

theorem mat2mapInner_sndfst (y : Int) :
    ∀ (row : List (Nat × Int)) (st : List Pos × Option Int × Option Int),
      (mat2mapInner y st row).2.1.isSome = (st.2.1.isSome || !row.isEmpty) := by
  intro row
  induction row with
  | nil => intro st; simp [mat2mapInner]
  | cons xe t ih =>
    intro st
    unfold mat2mapInner
    rw [List.foldl_cons]
    have := ih ((if xe.2 = 0 then st.1 ++ [((xe.1 : Int), y)] else st.1),
      some (xe.1 : Int), st.2.2)
    unfold mat2mapInner at this
    rw [this]
    simp

theorem mat2map_outer_spec :
    ∀ (rows : List (Nat × List Int)) (init : List Pos × Option Int × Option Int),
      ((rows.foldl (fun st yrow =>
          mat2mapInner (yrow.1 : Int) (st.1, st.2.1, some (yrow.1 : Int)) yrow.2.enum)
        init).2.1.isSome = (init.2.1.isSome || rows.any (fun yrow => !yrow.2.isEmpty)) ∧
       (rows.foldl (fun st yrow =>
          mat2mapInner (yrow.1 : Int) (st.1, st.2.1, some (yrow.1 : Int)) yrow.2.enum)
        init).2.2.isSome = (init.2.2.isSome || !rows.isEmpty)) := by
  intro rows
  induction rows with
  | nil =>
    intro init
    constructor <;> simp
  | cons yrow rest ih =>
    intro init
    rw [List.foldl_cons]
    obtain ⟨ih1, ih2⟩ := ih (mat2mapInner (yrow.1 : Int)
      (init.1, init.2.1, some (yrow.1 : Int)) yrow.2.enum)
    constructor
    · rw [ih1, mat2mapInner_sndfst]
      have henum : yrow.2.enum.isEmpty = yrow.2.isEmpty := by
        cases yrow.2 with
        | nil => rfl
        | cons a t => rfl
      rw [henum]
      simp [Bool.or_assoc]
    · rw [ih2, mat2mapInner_sndsnd]
      simp

/-- C9 (amended).  `mat2map` performs NO rectangularity validation: it
succeeds precisely when the matrix has at least one nonempty row (the only
failure mode is Python's `NameError` when the `x` or `y` loop variable was
never assigned), so every ragged matrix with a nonempty row is accepted
and handed to the tracer. -/
theorem mat2map_no_rectangularity_check (matrix : List (List Int)) :
    (mat2map matrix).isSome ↔ ∃ row ∈ matrix, row ≠ [] := by
  obtain ⟨h1, h2⟩ := mat2map_outer_spec matrix.enum ([], none, none)
  unfold mat2map
  constructor
  · intro hsome
    rcases hst : (matrix.enum.foldl (fun st yrow =>
        mat2mapInner (yrow.1 : Int) (st.1, st.2.1, some (yrow.1 : Int)) yrow.2.enum)
      ([], none, none)) with ⟨B, ox, oy⟩
    rw [hst] at h1
    cases ox with
    | none => simp [hst] at hsome
    | some x =>
      simp only [Option.isSome_some, Option.isSome_none, Bool.false_or] at h1
      have hany : matrix.enum.any (fun yrow => !yrow.2.isEmpty) = true := h1.symm
      rw [List.any_eq_true] at hany
      obtain ⟨yrow, hyrow, hne⟩ := hany
      refine ⟨yrow.2, ?_, ?_⟩
      · have := List.mem_enum_iff_get?.1 hyrow
        exact List.get?_mem this
      · simp only [Bool.not_eq_eq_eq_not, Bool.not_true] at hne
        intro habs
        rw [habs] at hne
        simp at hne
  · rintro ⟨row, hrow, hne⟩
    rcases hst : (matrix.enum.foldl (fun st yrow =>
        mat2mapInner (yrow.1 : Int) (st.1, st.2.1, some (yrow.1 : Int)) yrow.2.enum)
      ([], none, none)) with ⟨B, ox, oy⟩
    rw [hst] at h1 h2
    have hmatne : matrix ≠ [] := by
      intro h
      rw [h] at hrow
      cases hrow
    have hanytrue : matrix.enum.any (fun yrow => !yrow.2.isEmpty) = true := by
      rw [List.any_eq_true]
      obtain ⟨i, hi⟩ := List.mem_iff_getElem?.1 hrow
      refine ⟨(i, row), ?_, by simpa using hne⟩
      rw [List.mem_enum_iff_get?]
      simpa [List.get?_eq_getElem?] using hi
    have hoxsome : ox.isSome = true := by
      rw [h1, hanytrue]
      simp
    have hoysome : oy.isSome = true := by
      rw [h2]
      have : matrix.enum.isEmpty = false := by
        cases matrix with
        | nil => exact absurd rfl hmatne
        | cons r t => rfl
      rw [this]
      simp
    obtain ⟨x, rfl⟩ := Option.isSome_iff_exists.1 hoxsome
    obtain ⟨y, rfl⟩ := Option.isSome_iff_exists.1 hoysome
    simp [hst]

/-! ### C7 (amended) — export under face-order permutation -/

theorem mesh2vertices_keys_perm {m1 m2 : Mesh} (h : m1.Perm m2) :
    mesh2vertices_keys m1 = mesh2vertices_keys m2 := by
  unfold mesh2vertices_keys
  have hp : (m1.flatten.dedup).Perm (m2.flatten.dedup) := (h.flatten).dedup
  refine List.eq_of_perm_of_sorted ?_ (List.sorted_insertionSort _ _)
    (List.sorted_insertionSort _ _)
  exact (List.perm_insertionSort _ _).trans (hp.trans (List.perm_insertionSort _ _).symm)

/-- C7 (amended).  Export is NOT byte-identical under face insertion order
(see the counterexample), but it is insensitive to it in every other
respect: for meshes `m1` and `m2` that are permutations of each other the
vertex block is byte-identical (vertex indices come from the sorted
deduplicated coordinate table, not from insertion order), every face is
rendered to exactly the same line (using the shared table), and the face
block of `m2` is precisely the corresponding permutation of the face lines
of `m1`. -/
theorem export_mesh_perm_invariant (m1 m2 : Mesh) (h : m1.Perm m2) :
    export_vertex_lines m1 = export_vertex_lines m2 ∧
    export_face_lines m2 = m2.map (fun face =>
      export_face_indices (face.map (vertex_index (mesh2vertices_keys m1)))) ∧
    (export_face_lines m1).Perm (export_face_lines m2) ∧
    export_mesh m1 = String.intercalate "\n" (export_vertex_lines m1 ++ export_face_lines m1) ∧
    export_mesh m2 = String.intercalate "\n" (export_vertex_lines m1 ++ export_face_lines m2) := by
  have hkeys := mesh2vertices_keys_perm h
  refine ⟨?_, ?_, ?_, rfl, ?_⟩
  · unfold export_vertex_lines
    rw [hkeys]
  · unfold export_face_lines
    rw [hkeys]
  · unfold export_face_lines
    rw [hkeys]
    exact h.map _
  · unfold export_mesh export_vertex_lines
    rw [hkeys]

/-- C7 witness: the amended invariance at the two-face mesh of the
counterexample. -/
theorem export_mesh_perm_invariant_witness :
    export_vertex_lines
        [[((0 : Int), (0 : Int), (0 : Int)), (1, 0, 0), (1, 1, 0), (0, 1, 0)],
         [(0, 1, 0), (1, 1, 0), (1, 0, 0), (0, 0, 0)]] =
      export_vertex_lines
        [[((0 : Int), (1 : Int), (0 : Int)), (1, 1, 0), (1, 0, 0), (0, 0, 0)],
         [(0, 0, 0), (1, 0, 0), (1, 1, 0), (0, 1, 0)]] ∧
    export_face_lines
        [[((0 : Int), (1 : Int), (0 : Int)), (1, 1, 0), (1, 0, 0), (0, 0, 0)],
         [(0, 0, 0), (1, 0, 0), (1, 1, 0), (0, 1, 0)]] =
      ([[((0 : Int), (1 : Int), (0 : Int)), (1, 1, 0), (1, 0, 0), (0, 0, 0)],
        [(0, 0, 0), (1, 0, 0), (1, 1, 0), (0, 1, 0)]] : Mesh).map (fun face =>
        export_face_indices (face.map (vertex_index (mesh2vertices_keys
          [[((0 : Int), (0 : Int), (0 : Int)), (1, 0, 0), (1, 1, 0), (0, 1, 0)],
           [(0, 1, 0), (1, 1, 0), (1, 0, 0), (0, 0, 0)]])))) ∧
    (export_face_lines
        [[((0 : Int), (0 : Int), (0 : Int)), (1, 0, 0), (1, 1, 0), (0, 1, 0)],
         [(0, 1, 0), (1, 1, 0), (1, 0, 0), (0, 0, 0)]]).Perm
      (export_face_lines
        [[((0 : Int), (1 : Int), (0 : Int)), (1, 1, 0), (1, 0, 0), (0, 0, 0)],
         [(0, 0, 0), (1, 0, 0), (1, 1, 0), (0, 1, 0)]]) ∧
    export_mesh
        [[((0 : Int), (0 : Int), (0 : Int)), (1, 0, 0), (1, 1, 0), (0, 1, 0)],
         [(0, 1, 0), (1, 1, 0), (1, 0, 0), (0, 0, 0)]] =
      String.intercalate "\n"
        (export_vertex_lines
            [[((0 : Int), (0 : Int), (0 : Int)), (1, 0, 0), (1, 1, 0), (0, 1, 0)],
             [(0, 1, 0), (1, 1, 0), (1, 0, 0), (0, 0, 0)]] ++
          export_face_lines
            [[((0 : Int), (0 : Int), (0 : Int)), (1, 0, 0), (1, 1, 0), (0, 1, 0)],
             [(0, 1, 0), (1, 1, 0), (1, 0, 0), (0, 0, 0)]]) ∧
    export_mesh
        [[((0 : Int), (1 : Int), (0 : Int)), (1, 1, 0), (1, 0, 0), (0, 0, 0)],
         [(0, 0, 0), (1, 0, 0), (1, 1, 0), (0, 1, 0)]] =
      String.intercalate "\n"
        (export_vertex_lines
            [[((0 : Int), (0 : Int), (0 : Int)), (1, 0, 0), (1, 1, 0), (0, 1, 0)],
             [(0, 1, 0), (1, 1, 0), (1, 0, 0), (0, 0, 0)]] ++
          export_face_lines
            [[((0 : Int), (1 : Int), (0 : Int)), (1, 1, 0), (1, 0, 0), (0, 0, 0)],
             [(0, 0, 0), (1, 0, 0), (1, 1, 0), (0, 1, 0)]]) :=
  export_mesh_perm_invariant _ _ (by decide)

/-! ### C1 — the tracing walk of `BlocksMap.build` terminates and closes

The proof: a consistent walker state (one that arrived along a boundary
edge) always finds its incoming versor in `RULES`, and the transition
yields a consistent state again (a finite check over the 16
configurations); the step function is injective on consistent states;
consistent states live in the finite set of states incident to a blocked
box; hence by the pigeonhole principle the walk revisits its second state,
and injectivity forces the cycle to pass through the starting vertex. -/

theorem mapGet_01 (B : List Pos) (p : Pos) : mapGet B p = 0 ∨ mapGet B p = 1 := by
  unfold mapGet
  by_cases h : p ∈ B <;> simp [h]

theorem mapGet_mem_l01 (B : List Pos) (p : Pos) : mapGet B p ∈ ([0, 1] : List Int) := by
  rcases mapGet_01 B p with h | h <;> simp [h]

theorem bridge_in (B : List Pos) (v : Pos) (d : Dir) :
    (mapGet B (inEdgeCells v d).1, mapGet B (inEdgeCells v d).2) =
      inCellsOfMat (blocks_matrix B v) d := by
  unfold inEdgeCells inCellsOfMat blocks_matrix
  split_ifs <;> rfl

theorem bridge_out (B : List Pos) (v : Pos) (d : Dir) (hd : d ∈ dirList) :
    (mapGet B (inEdgeCells (sum_vectors v d) d).1,
      mapGet B (inEdgeCells (sum_vectors v d) d).2) =
      outCellsOfMat (blocks_matrix B v) d := by
  unfold dirList at hd
  simp only [List.mem_cons, List.not_mem_nil, or_false] at hd
  obtain ⟨vx, vy⟩ := v
  rcases hd with rfl | rfl | rfl | rfl <;>
    · simp only [inEdgeCells, outCellsOfMat, blocks_matrix, sum_vectors, LEFT, UP, RIGHT, DOWN]
      norm_num
      try exact ⟨rfl, rfl⟩

theorem consistentS_iff (B : List Pos) (v : Pos) (d : Dir) :
    consistentS B (v, d) ↔ d ∈ dirList ∧
      (inCellsOfMat (blocks_matrix B v) d).1 ≠ (inCellsOfMat (blocks_matrix B v) d).2 := by
  unfold consistentS
  dsimp only
  have h1 := congrArg Prod.fst (bridge_in B v d)
  have h2 := congrArg Prod.snd (bridge_in B v d)
  dsimp only at h1 h2
  rw [h1, h2]

theorem fin_rule_ok :
    ∀ a ∈ ([0, 1] : List Int), ∀ b ∈ ([0, 1] : List Int), ∀ c ∈ ([0, 1] : List Int),
    ∀ e ∈ ([0, 1] : List Int), ∀ din ∈ dirList,
      (inCellsOfMat ((a, b), (c, e)) din).1 ≠ (inCellsOfMat ((a, b), (c, e)) din).2 →
      ruleOutOk ((a, b), (c, e)) din = true := by decide

theorem fin_still_ok :
    ∀ a ∈ ([0, 1] : List Int), ∀ b ∈ ([0, 1] : List Int), ∀ c ∈ ([0, 1] : List Int),
    ∀ e ∈ ([0, 1] : List Int),
      POSSIBLE_DIRECTIONS ((a, b), (c, e)) ≠ [] →
      ruleOutOk ((a, b), (c, e)) STILL = true := by decide

theorem fin_inj :
    ∀ a ∈ ([0, 1] : List Int), ∀ b ∈ ([0, 1] : List Int), ∀ c ∈ ([0, 1] : List Int),
    ∀ e ∈ ([0, 1] : List Int), ∀ d1 ∈ dirList, ∀ d2 ∈ dirList,
      (inCellsOfMat ((a, b), (c, e)) d1).1 ≠ (inCellsOfMat ((a, b), (c, e)) d1).2 →
      (inCellsOfMat ((a, b), (c, e)) d2).1 ≠ (inCellsOfMat ((a, b), (c, e)) d2).2 →
      RULES ((a, b), (c, e)) d1 = RULES ((a, b), (c, e)) d2 → d1 = d2 := by decide

theorem ruleOutOk_spec {M : Mat} {d : Dir} (h : ruleOutOk M d = true) :
    ∃ r, RULES M d = some r ∧ r ∈ dirList ∧
      (outCellsOfMat M r).1 ≠ (outCellsOfMat M r).2 := by
  unfold ruleOutOk at h
  cases hr : RULES M d with
  | none => rw [hr] at h; cases h
  | some r =>
    rw [hr] at h
    simp only [Bool.and_eq_true, decide_eq_true_eq] at h
    exact ⟨r, rfl, h.1, h.2⟩

theorem mat_cases (B : List Pos) (v : Pos) :
    ∃ a b c e, blocks_matrix B v = ((a, b), (c, e)) ∧ a ∈ ([0, 1] : List Int) ∧
      b ∈ ([0, 1] : List Int) ∧ c ∈ ([0, 1] : List Int) ∧ e ∈ ([0, 1] : List Int) := by
  refine ⟨_, _, _, _, rfl, ?_, ?_, ?_, ?_⟩ <;> apply mapGet_mem_l01

theorem step_consistent {B : List Pos} {v : Pos} {d : Dir} (h : consistentS B (v, d)) :
    ∃ r, RULES (blocks_matrix B v) d = some r ∧ consistentS B (sum_vectors v r, r) := by
  rw [consistentS_iff] at h
  obtain ⟨a, b, c, e, hM, ha, hb, hc, he⟩ := mat_cases B v
  rw [hM] at h
  have hok := fin_rule_ok a ha b hb c hc e he d h.1 h.2
  obtain ⟨r, hrule, hrdir, hout⟩ := ruleOutOk_spec hok
  refine ⟨r, by rw [hM]; exact hrule, ?_⟩
  rw [consistentS_iff]
  refine ⟨hrdir, ?_⟩
  have hbr := bridge_in B (sum_vectors v r) r
  have hbo := bridge_out B v r hrdir
  have hICO : inCellsOfMat (blocks_matrix B (sum_vectors v r)) r =
      outCellsOfMat (blocks_matrix B v) r := by
    rw [← hbr, hbo]
  rw [hICO, hM]
  exact hout

theorem start_consistent {B : List Pos} {v : Pos}
    (h : POSSIBLE_DIRECTIONS (blocks_matrix B v) ≠ []) :
    ∃ r, RULES (blocks_matrix B v) STILL = some r ∧ consistentS B (sum_vectors v r, r) := by
  obtain ⟨a, b, c, e, hM, ha, hb, hc, he⟩ := mat_cases B v
  rw [hM] at h
  have hok := fin_still_ok a ha b hb c hc e he h
  obtain ⟨r, hrule, hrdir, hout⟩ := ruleOutOk_spec hok
  refine ⟨r, by rw [hM]; exact hrule, ?_⟩
  rw [consistentS_iff]
  refine ⟨hrdir, ?_⟩
  have hbr := bridge_in B (sum_vectors v r) r
  have hbo := bridge_out B v r hrdir
  have hICO : inCellsOfMat (blocks_matrix B (sum_vectors v r)) r =
      outCellsOfMat (blocks_matrix B v) r := by
    rw [← hbr, hbo]
  rw [hICO, hM]
  exact hout

theorem stepFn_eq {B : List Pos} {s : Pos × Dir} {r : Dir}
    (h : RULES (blocks_matrix B s.1) s.2 = some r) :
    stepFn B s = (sum_vectors s.1 r, r) := by
  unfold stepFn
  rw [h]

theorem step_vertex {B : List Pos} {s : Pos × Dir} (h : consistentS B s) :
    stepFn B s = (sum_vectors s.1 (stepFn B s).2, (stepFn B s).2) := by
  obtain ⟨r, hr, _⟩ := step_consistent h
  rw [stepFn_eq hr]

theorem stepFn_consistent {B : List Pos} {s : Pos × Dir} (h : consistentS B s) :
    consistentS B (stepFn B s) := by
  obtain ⟨r, hr, hc⟩ := step_consistent h
  rw [stepFn_eq hr]
  exact hc

theorem step_injective {B : List Pos} {s t : Pos × Dir} (hs : consistentS B s)
    (ht : consistentS B t) (h : stepFn B s = stepFn B t) : s = t := by
  obtain ⟨rs, hrs, _⟩ := step_consistent hs
  obtain ⟨rt, hrt, _⟩ := step_consistent ht
  rw [stepFn_eq hrs, stepFn_eq hrt] at h
  have hr : rs = rt := congrArg Prod.snd h
  subst hr
  have hv : s.1 = t.1 := by
    have h1 := congrArg Prod.fst h
    simp only [sum_vectors, Prod.mk.injEq] at h1
    exact Prod.ext (by omega) (by omega)
  have hM : blocks_matrix B s.1 = blocks_matrix B t.1 := by rw [hv]
  rw [consistentS_iff] at hs ht
  obtain ⟨a, b, c, e, hMs, ha, hb, hc, he⟩ := mat_cases B s.1
  have hd : s.2 = t.2 := by
    apply fin_inj a ha b hb c hc e he s.2 hs.1 t.2 ht.1
    · rw [← hMs]; exact hs.2
    · rw [← hMs, hM]; exact ht.2
    · rw [← hMs]
      nth_rewrite 2 [hM]
      rw [hrs, hrt]
  exact Prod.ext hv hd


theorem iterate_consistent {B : List Pos} {s : Pos × Dir} (h : consistentS B s) (k : Nat) :
    consistentS B ((stepFn B)^[k] s) := by
  induction k with
  | zero => exact h
  | succ k ih => rw [Function.iterate_succ_apply']; exact stepFn_consistent ih

theorem mem_cornerStates {v : Pos} {d : Dir} {c : Pos} (hd : d ∈ dirList)
    (hv : v ∈ ([c, (c.1 + 1, c.2), (c.1, c.2 + 1), (c.1 + 1, c.2 + 1)] : List Pos)) :
    (v, d) ∈ cornerStates c := by
  unfold cornerStates
  rw [List.mem_toFinset]
  refine List.mem_flatMap.2 ⟨v, hv, ?_⟩
  unfold dirList at hd
  simp only [List.mem_cons, List.not_mem_nil, or_false] at hd ⊢
  rcases hd with rfl | rfl | rfl | rfl <;> tauto

theorem inEdge_corner (vx vy : Int) (d : Dir) (hd : d ∈ dirList) (c : Pos)
    (hc : c = (inEdgeCells (vx, vy) d).1 ∨ c = (inEdgeCells (vx, vy) d).2) :
    ((vx, vy) : Pos) ∈ ([c, (c.1 + 1, c.2), (c.1, c.2 + 1), (c.1 + 1, c.2 + 1)] : List Pos) := by
  unfold dirList at hd
  simp only [List.mem_cons, List.not_mem_nil, or_false] at hd
  rcases hd with rfl | rfl | rfl | rfl <;> rcases hc with rfl | rfl <;>
    · simp [inEdgeCells, LEFT, UP, RIGHT, DOWN, Prod.mk.injEq]
      try omega

theorem consistent_mem_stateSpace {B : List Pos} {s : Pos × Dir} (h : consistentS B s) :
    s ∈ stateSpace B := by
  obtain ⟨v, d⟩ := s
  obtain ⟨hd, hne⟩ := h
  dsimp only at hd hne
  have hc : (inEdgeCells v d).1 ∈ B ∨ (inEdgeCells v d).2 ∈ B := by
    by_contra hcon
    push_neg at hcon
    unfold mapGet at hne
    rw [if_neg hcon.1, if_neg hcon.2] at hne
    exact hne rfl
  obtain ⟨vx, vy⟩ := v
  unfold stateSpace
  rcases hc with hc | hc
  · exact Finset.mem_biUnion.2 ⟨_, List.mem_toFinset.2 hc,
      mem_cornerStates hd (inEdge_corner vx vy d hd _ (Or.inl rfl))⟩
  · exact Finset.mem_biUnion.2 ⟨_, List.mem_toFinset.2 hc,
      mem_cornerStates hd (inEdge_corner vx vy d hd _ (Or.inr rfl))⟩

theorem cornerStates_card (c : Pos) : (cornerStates c).card ≤ 16 := by
  unfold cornerStates
  exact le_trans (List.toFinset_card_le _) (le_of_eq rfl)

theorem stateSpace_card (B : List Pos) : (stateSpace B).card ≤ 16 * B.length := by
  unfold stateSpace
  refine le_trans Finset.card_biUnion_le (le_trans (Finset.sum_le_card_nsmul _ _ 16 ?_) ?_)
  · exact fun c _ => cornerStates_card c
  · have h2 := List.toFinset_card_le B
    simp only [smul_eq_mul]
    omega

theorem iterate_inj_cancel {B : List Pos} {s0 : Pos × Dir} (h : consistentS B s0) :
    ∀ i j, i ≤ j → (stepFn B)^[i] s0 = (stepFn B)^[j] s0 →
      (stepFn B)^[j - i] s0 = s0 := by
  intro i
  induction i with
  | zero =>
    intro j _ heq
    rw [Nat.sub_zero, ← heq]
    rfl
  | succ i ih =>
    intro j hij heq
    obtain ⟨j', rfl⟩ : ∃ j', j = j' + 1 := ⟨j - 1, by omega⟩
    rw [Function.iterate_succ_apply', Function.iterate_succ_apply'] at heq
    have h2 := step_injective (iterate_consistent h i) (iterate_consistent h j') heq
    have h3 := ih j' (by omega) h2
    rw [Nat.succ_sub_succ]
    exact h3

theorem exists_period {B : List Pos} {s0 : Pos × Dir} (h : consistentS B s0) :
    ∃ k, 1 ≤ k ∧ k ≤ 16 * B.length ∧ (stepFn B)^[k] s0 = s0 := by
  have hmaps : ∀ i ∈ Finset.range ((stateSpace B).card + 1),
      (stepFn B)^[i] s0 ∈ stateSpace B :=
    fun i _ => consistent_mem_stateSpace (iterate_consistent h i)
  have hcard : (stateSpace B).card < (Finset.range ((stateSpace B).card + 1)).card := by
    simp
  obtain ⟨i, hi, j, hj, hne, heq⟩ :=
    Finset.exists_ne_map_eq_of_card_lt_of_maps_to hcard hmaps
  simp only [Finset.mem_range] at hi hj
  have hcb := stateSpace_card B
  rcases Nat.lt_or_ge i j with hlt | hge
  · exact ⟨j - i, by omega, by omega, iterate_inj_cancel h i j (by omega) heq⟩
  · exact ⟨i - j, by omega, by omega, iterate_inj_cancel h j i (by omega) heq.symm⟩


theorem walkAux_succ_of_rule {B : List Pos} {first wv : Pos} {d r : Dir}
    (hr : RULES (blocks_matrix B wv) d = some r) (fuel : Nat) (tracked : Pos → Nat)
    (acc : List Pos) :
    walkAux B first (fuel + 1) wv d tracked acc =
      (if sum_vectors wv r = first
        then some ((fun p => if p = wv then tracked wv +
            (if (POSSIBLE_DIRECTIONS (blocks_matrix B wv)).length = 4 then 1 else 2)
          else tracked p), acc ++ [sum_vectors wv r])
        else walkAux B first fuel (sum_vectors wv r) r
          (fun p => if p = wv then tracked wv +
              (if (POSSIBLE_DIRECTIONS (blocks_matrix B wv)).length = 4 then 1 else 2)
            else tracked p) (acc ++ [sum_vectors wv r])) := by
  simp only [walkAux]
  rw [hr]

theorem walkAux_hits {B : List Pos} {first : Pos} :
    ∀ (m : Nat) (s : Pos × Dir) (fuel : Nat) (tracked : Pos → Nat) (acc : List Pos),
      consistentS B s → 1 ≤ m → m ≤ fuel →
      ((stepFn B)^[m] s).1 = first →
      ∃ tr tail, tail ≠ [] ∧
        walkAux B first fuel s.1 s.2 tracked acc = some (tr, acc ++ tail) := by
  intro m
  induction m with
  | zero =>
    intro s fuel tracked acc _ h1 _ _
    exact absurd h1 (by omega)
  | succ m ih =>
    intro s fuel tracked acc hcons _ hmf hhit
    obtain ⟨f', rfl⟩ : ∃ f', fuel = f' + 1 := ⟨fuel - 1, by omega⟩
    obtain ⟨r, hr, _⟩ := step_consistent hcons
    have hstep := stepFn_eq hr
    rw [walkAux_succ_of_rule hr f' tracked acc]
    by_cases hv : sum_vectors s.1 r = first
    · rw [if_pos hv]
      exact ⟨_, [sum_vectors s.1 r], by simp, rfl⟩
    · rw [if_neg hv]
      have hm1 : 1 ≤ m := by
        rcases Nat.eq_zero_or_pos m with rfl | hp
        · exfalso
          apply hv
          simp only [Nat.zero_add, Function.iterate_one] at hhit
          rw [hstep] at hhit
          exact hhit
        · exact hp
      obtain ⟨tr, tail, htne, hw⟩ := ih (stepFn B s) f'
        (fun p => if p = s.1 then tracked s.1 +
            (if (POSSIBLE_DIRECTIONS (blocks_matrix B s.1)).length = 4 then 1 else 2)
          else tracked p)
        (acc ++ [sum_vectors s.1 r]) (stepFn_consistent hcons) hm1 (by omega)
        (by rw [← Function.iterate_succ_apply]; exact hhit)
      rw [hstep] at hw
      refine ⟨tr, [sum_vectors s.1 r] ++ tail, by simp, ?_⟩
      rw [← List.append_assoc]
      exact hw

theorem walkAux_start {B : List Pos} {v0 : Pos}
    (h0 : POSSIBLE_DIRECTIONS (blocks_matrix B v0) ≠ []) (fuel : Nat)
    (hfuel : 16 * B.length ≤ fuel) (tracked : Pos → Nat) (acc : List Pos) :
    ∃ tr tail, tail ≠ [] ∧
      walkAux B v0 (fuel + 1) v0 STILL tracked acc = some (tr, acc ++ tail) := by
  obtain ⟨r0, hr0, hc0⟩ := start_consistent h0
  rw [walkAux_succ_of_rule hr0 fuel tracked acc]
  by_cases hv : sum_vectors v0 r0 = v0
  · rw [if_pos hv]
    exact ⟨_, [sum_vectors v0 r0], by simp, rfl⟩
  · rw [if_neg hv]
    obtain ⟨k, hk1, hk2, hkper⟩ := exists_period hc0
    have hk2' : 2 ≤ k := by
      by_contra hlt
      have hk : k = 1 := by omega
      subst hk
      simp only [Function.iterate_one] at hkper
      have hsv := step_vertex hc0
      rw [hkper] at hsv
      have h1 := congrArg (fun t => t.1.1) hsv
      have h2 := congrArg (fun t => t.1.2) hsv
      simp only [sum_vectors] at h1 h2
      apply hv
      have hg1 : (sum_vectors v0 r0).1 = v0.1 := by
        simp only [sum_vectors]
        omega
      have hg2 : (sum_vectors v0 r0).2 = v0.2 := by
        simp only [sum_vectors]
        omega
      exact Prod.ext hg1 hg2
    have hksplit : k - 1 + 1 = k := by omega
    rw [← hksplit, Function.iterate_succ_apply'] at hkper
    have hsv := step_vertex (iterate_consistent hc0 (k - 1))
    rw [hkper] at hsv
    have h1 := congrArg (fun t => t.1.1) hsv
    have h2 := congrArg (fun t => t.1.2) hsv
    simp only [sum_vectors] at h1 h2
    have hvert : ((stepFn B)^[k - 1] (sum_vectors v0 r0, r0)).1 = v0 := by
      refine Prod.ext ?_ ?_ <;>
        · simp only [sum_vectors]
          omega
    obtain ⟨tr, tail, htne, hw⟩ := walkAux_hits (k - 1) (sum_vectors v0 r0, r0) fuel
      (fun p => if p = v0 then tracked v0 +
          (if (POSSIBLE_DIRECTIONS (blocks_matrix B v0)).length = 4 then 1 else 2)
        else tracked p)
      (acc ++ [sum_vectors v0 r0]) hc0 (by omega) (by omega) hvert
    refine ⟨tr, [sum_vectors v0 r0] ++ tail, by simp, ?_⟩
    rw [← List.append_assoc]
    exact hw


theorem closed_new_perimeter {v t0 : Pos} {trest : List Pos} :
    normalized_perimeter (remove_internal_edge_points (v :: t0 :: trest)) ≠ [] ∧
      (normalized_perimeter (remove_internal_edge_points (v :: t0 :: trest))).head? =
        (normalized_perimeter (remove_internal_edge_points (v :: t0 :: trest))).getLast? := by
  have hne2 : remove_internal_edge_points (v :: t0 :: trest) ≠ [] := by
    rw [remove_internal_edge_points_spec]
    exact List.cons_ne_nil _ _
  obtain ⟨m, t, _, _, _, _, _, hh, hl, _, _⟩ := normalized_master _ hne2
  refine ⟨?_, by rw [hh, hl]⟩
  intro hnil
  rw [hnil] at hh
  cases hh

theorem build_step_closed {B : List Pos} {fuel : Nat} (hfuel : 16 * B.length + 1 ≤ fuel)
    {st : (Pos → Nat) × List (List Pos)} (v : Pos)
    (hst : ∀ p ∈ st.2, p ≠ [] ∧ p.head? = p.getLast?) :
    ∃ st', build_step B fuel st v = some st' ∧
      ∀ p ∈ st'.2, p ≠ [] ∧ p.head? = p.getLast? := by
  obtain ⟨f', rfl⟩ : ∃ f', fuel = f' + 1 := ⟨fuel - 1, by omega⟩
  simp only [build_step]
  by_cases h0 : (POSSIBLE_DIRECTIONS (blocks_matrix B v)).length = 0
  · rw [if_pos h0]
    exact ⟨st, rfl, hst⟩
  · rw [if_neg h0]
    by_cases h1 : (POSSIBLE_DIRECTIONS (blocks_matrix B v)).length = 4 ∧ st.1 v > 1
    · rw [if_pos h1]
      exact ⟨st, rfl, hst⟩
    · rw [if_neg h1]
      by_cases h2 : (POSSIBLE_DIRECTIONS (blocks_matrix B v)).length ≠ 4 ∧ st.1 v > 0
      · rw [if_pos h2]
        exact ⟨st, rfl, hst⟩
      · rw [if_neg h2]
        have h0' : POSSIBLE_DIRECTIONS (blocks_matrix B v) ≠ [] := by
          intro hnil
          apply h0
          rw [hnil]
          rfl
        have hf : 16 * B.length ≤ f' := by omega
        obtain ⟨tr, tail, htne, hw⟩ := walkAux_start h0' f' hf st.1 [v]
        obtain ⟨t0, trest, rfl⟩ : ∃ t0 trest, tail = t0 :: trest := by
          cases tail with
          | nil => exact absurd rfl htne
          | cons a l => exact ⟨a, l, rfl⟩
        rw [hw]
        refine ⟨_, rfl, ?_⟩
        intro p hp
        simp only [List.singleton_append] at hp
        rcases List.mem_append.1 hp with hp | hp
        · exact hst p hp
        · simp only [List.mem_singleton] at hp
          subst hp
          exact closed_new_perimeter

theorem foldlM_closed {B : List Pos} {fuel : Nat} (hfuel : 16 * B.length + 1 ≤ fuel) :
    ∀ (vs : List Pos) (st : (Pos → Nat) × List (List Pos)),
      (∀ p ∈ st.2, p ≠ [] ∧ p.head? = p.getLast?) →
      ∃ st', vs.foldlM (build_step B fuel) st = some st' ∧
        ∀ p ∈ st'.2, p ≠ [] ∧ p.head? = p.getLast? := by
  intro vs
  induction vs with
  | nil =>
    intro st hst
    exact ⟨st, rfl, hst⟩
  | cons v vs ih =>
    intro st hst
    obtain ⟨st1, hstep, h1⟩ := build_step_closed hfuel v hst
    obtain ⟨st', hfold, h2⟩ := ih st1 h1
    refine ⟨st', ?_, h2⟩
    rw [List.foldlM_cons, hstep]
    simpa using hfold

/-- C1.  For every blocks map `B` (any finite list of blocked boxes) and
any map size, `BlocksMap.build` terminates: fuel `16 * |B| + 3` suffices
for every tracing walk (each walk stops by returning to its starting
vertex, modelled by `walkAux` yielding `some`), and every wall perimeter
in the returned list is a closed loop — nonempty, with its first vertex
equal to its last vertex. -/
theorem build_terminates_and_closed (B : List Pos) (W H : Int) :
    ∃ ps, buildFuel B W H (16 * B.length + 3) = some ps ∧
      ∀ p ∈ ps, p ≠ [] ∧ p.head? = p.getLast? := by
  unfold buildFuel buildT
  by_cases hB : B = []
  · rw [if_pos hB]
    exact ⟨[], rfl, by simp⟩
  · rw [if_neg hB]
    have hf3 : 16 * B.length + 1 ≤ 16 * B.length + 3 := by omega
    obtain ⟨st', hfold, hcl⟩ := foldlM_closed hf3 (grid_vertices W H)
      ((fun _ => 0), []) (by simp)
    rw [hfold]
    refine ⟨st'.2.insertionSort perimLe, rfl, ?_⟩
    intro p hp
    exact hcl p ((List.perm_insertionSort perimLe st'.2).mem_iff.1 hp)

/-! ### C2 — reversal, chirality and the finite facts behind them -/

theorem fin_rev_rule :
    ∀ a ∈ ([0, 1] : List Int), ∀ b ∈ ([0, 1] : List Int), ∀ c ∈ ([0, 1] : List Int),
    ∀ e ∈ ([0, 1] : List Int), ∀ din ∈ dirList, ∀ r ∈ dirList,
      (inCellsOfMat ((a, b), (c, e)) din).1 ≠ (inCellsOfMat ((a, b), (c, e)) din).2 →
      RULES ((a, b), (c, e)) din = some r →
      RULES ((a, b), (c, e)) (negD r) = some (negD din) := by decide

theorem fin_no_reverse :
    ∀ a ∈ ([0, 1] : List Int), ∀ b ∈ ([0, 1] : List Int), ∀ c ∈ ([0, 1] : List Int),
    ∀ e ∈ ([0, 1] : List Int), ∀ din ∈ dirList, ∀ r ∈ dirList,
      (inCellsOfMat ((a, b), (c, e)) din).1 ≠ (inCellsOfMat ((a, b), (c, e)) din).2 →
      RULES ((a, b), (c, e)) din = some r → r ≠ negD din := by decide

theorem fin_chi :
    ∀ a ∈ ([0, 1] : List Int), ∀ b ∈ ([0, 1] : List Int), ∀ c ∈ ([0, 1] : List Int),
    ∀ e ∈ ([0, 1] : List Int), ∀ din ∈ dirList, ∀ r ∈ dirList,
      (inCellsOfMat ((a, b), (c, e)) din).1 ≠ (inCellsOfMat ((a, b), (c, e)) din).2 →
      RULES ((a, b), (c, e)) din = some r →
      chiOut ((a, b), (c, e)) r = chiIn ((a, b), (c, e)) din := by decide

theorem fin_min_of :
    ∀ a ∈ ([0, 1] : List Int), ∀ b ∈ ([0, 1] : List Int), ∀ c ∈ ([0, 1] : List Int),
    ∀ e ∈ ([0, 1] : List Int), ∀ din ∈ dirList, ∀ r ∈ dirList,
      (inCellsOfMat ((a, b), (c, e)) din).1 ≠ (inCellsOfMat ((a, b), (c, e)) din).2 →
      RULES ((a, b), (c, e)) din = some r →
      (din = UP ∨ din = LEFT) → (r = RIGHT ∨ r = DOWN) →
      minConfigB ((a, b), (c, e)) = true := by decide

theorem fin_minconfig_props :
    ∀ a ∈ ([0, 1] : List Int), ∀ b ∈ ([0, 1] : List Int), ∀ c ∈ ([0, 1] : List Int),
    ∀ e ∈ ([0, 1] : List Int), minConfigB ((a, b), (c, e)) = true →
      RULES ((a, b), (c, e)) STILL = some RIGHT ∧
      RULES ((a, b), (c, e)) UP = some RIGHT ∧
      RULES ((a, b), (c, e)) LEFT = some DOWN ∧
      b ≠ e ∧ c ≠ e ∧ POSSIBLE_DIRECTIONS ((a, b), (c, e)) ≠ [] := by decide

theorem fin_minconfig_saddle :
    ∀ a ∈ ([0, 1] : List Int), ∀ b ∈ ([0, 1] : List Int), ∀ c ∈ ([0, 1] : List Int),
    ∀ e ∈ ([0, 1] : List Int), minConfigB ((a, b), (c, e)) = true →
      (POSSIBLE_DIRECTIONS ((a, b), (c, e))).length = 4 →
      RULES ((a, b), (c, e)) DOWN = some LEFT ∧ RULES ((a, b), (c, e)) RIGHT = some UP ∧
      a ≠ b ∧ a ≠ c := by decide

theorem negD_invol (d : Dir) : negD (negD d) = d := by
  unfold negD
  exact Prod.ext (by dsimp; omega) (by dsimp; omega)

theorem revS_invol (s : Pos × Dir) : revS (revS s) = s := by
  unfold revS negD
  refine Prod.ext (Prod.ext ?_ ?_) (Prod.ext ?_ ?_) <;> dsimp <;> omega

theorem negD_mem {d : Dir} (hd : d ∈ dirList) : negD d ∈ dirList := by
  unfold dirList at hd ⊢
  simp only [List.mem_cons, List.not_mem_nil, or_false] at hd ⊢
  rcases hd with rfl | rfl | rfl | rfl <;> decide

theorem inEdgeCells_rev (v : Pos) (d : Dir) (hd : d ∈ dirList) :
    inEdgeCells (v.1 - d.1, v.2 - d.2) (negD d) = inEdgeCells v d := by
  unfold dirList at hd
  simp only [List.mem_cons, List.not_mem_nil, or_false] at hd
  obtain ⟨vx, vy⟩ := v
  rcases hd with rfl | rfl | rfl | rfl <;>
    · simp only [negD, inEdgeCells, LEFT, UP, RIGHT, DOWN]
      norm_num
      try exact ⟨rfl, rfl⟩

theorem revS_consistent {B : List Pos} {s : Pos × Dir} (h : consistentS B s) :
    consistentS B (revS s) := by
  obtain ⟨v, d⟩ := s
  obtain ⟨hd, hne⟩ := h
  dsimp only at hd hne
  refine ⟨negD_mem hd, ?_⟩
  dsimp only [revS]
  rw [inEdgeCells_rev v d hd]
  exact hne

theorem chiIn_bridge (B : List Pos) (v : Pos) (d : Dir) :
    chiIn (blocks_matrix B v) d =
      (if d = UP then mapGet B (inEdgeCells v d).1
       else if d = DOWN then mapGet B (inEdgeCells v d).2
       else if d = LEFT then mapGet B (inEdgeCells v d).2
       else mapGet B (inEdgeCells v d).1) := by
  unfold chiIn
  have h1 := congrArg Prod.fst (bridge_in B v d)
  have h2 := congrArg Prod.snd (bridge_in B v d)
  dsimp only at h1 h2
  split_ifs <;> first | exact h1.symm | exact h2.symm

theorem chiB_rev {B : List Pos} {s : Pos × Dir} (h : consistentS B s) :
    chiB B (revS s) ≠ chiB B s := by
  obtain ⟨v, d⟩ := s
  obtain ⟨hd, hne⟩ := h
  dsimp only at hd hne
  unfold chiB
  dsimp only [revS]
  rw [chiIn_bridge, chiIn_bridge, inEdgeCells_rev v d hd]
  unfold dirList at hd
  simp only [List.mem_cons, List.not_mem_nil, or_false] at hd
  rcases hd with rfl | rfl | rfl | rfl <;>
    · simp only [negD, LEFT, UP, RIGHT, DOWN] at hne ⊢
      norm_num
      omega

theorem step_rev_step {B : List Pos} {s : Pos × Dir} (h : consistentS B s) :
    stepFn B (revS (stepFn B s)) = revS s := by
  obtain ⟨v, d⟩ := s
  obtain ⟨r, hr, hcons2⟩ := step_consistent h
  have hrd : r ∈ dirList := hcons2.1
  rw [consistentS_iff] at h
  have h1 : stepFn B (v, d) = (sum_vectors v r, r) := stepFn_eq hr
  rw [h1]
  dsimp only [revS, sum_vectors]
  have hveq : ((v.1 + r.1 - r.1, v.2 + r.2 - r.2) : Pos) = v :=
    Prod.ext (by dsimp; omega) (by dsimp; omega)
  rw [hveq]
  obtain ⟨a, b, c, e, hM, ha, hb, hc, he⟩ := mat_cases B v
  rw [hM] at h hr
  have hrev := fin_rev_rule a ha b hb c hc e he d h.1 r hrd h.2 hr
  have hstep2 : stepFn B (v, negD r) = (sum_vectors v (negD d), negD d) := by
    apply stepFn_eq
    dsimp only
    rw [hM]
    exact hrev
  rw [hstep2]
  refine Prod.ext ?_ ?_
  · dsimp only [sum_vectors, negD]
    exact Prod.ext (by dsimp; omega) (by dsimp; omega)
  · rfl

theorem consistent_B_ne {B : List Pos} {s : Pos × Dir} (h : consistentS B s) : B ≠ [] := by
  intro hB
  subst hB
  obtain ⟨-, hne⟩ := h
  unfold mapGet at hne
  simp at hne

theorem N_pos {B : List Pos} (hB : B ≠ []) : 0 < 16 * B.length := by
  have := List.length_pos.2 hB
  omega

theorem exists_min_period {B : List Pos} {s0 : Pos × Dir} (h : consistentS B s0) :
    ∃ P, 1 ≤ P ∧ P ≤ 16 * B.length ∧ (stepFn B)^[P] s0 = s0 ∧
      ∀ j, 1 ≤ j → j < P → (stepFn B)^[j] s0 ≠ s0 := by
  obtain ⟨k, hk1, hk2, hkper⟩ := exists_period h
  have hQ : ∃ n, 1 ≤ n ∧ (stepFn B)^[n] s0 = s0 := ⟨k, hk1, hkper⟩
  refine ⟨Nat.find hQ, (Nat.find_spec hQ).1, le_trans (Nat.find_min' hQ ⟨hk1, hkper⟩) hk2,
    (Nat.find_spec hQ).2, ?_⟩
  intro j hj1 hj2 hper
  exact Nat.find_min hQ hj2 ⟨hj1, hper⟩

theorem iterate_mod_period {B : List Pos} {s0 : Pos × Dir} {P : Nat} (hP1 : 1 ≤ P)
    (hper : (stepFn B)^[P] s0 = s0) : ∀ k, (stepFn B)^[k] s0 = (stepFn B)^[k % P] s0 := by
  intro k
  induction k using Nat.strong_induction_on with
  | _ k ih =>
    rcases Nat.lt_or_ge k P with hk | hk
    · rw [Nat.mod_eq_of_lt hk]
    · obtain ⟨k', rfl⟩ : ∃ k', k = k' + P := ⟨k - P, by omega⟩
      rw [Function.iterate_add_apply, hper, ih k' (by omega), Nat.add_mod_right]

theorem mem_orbitStates {B : List Pos} {s0 t : Pos × Dir} {k : Nat}
    (hk : k < 16 * B.length) (ht : t = (stepFn B)^[k] s0) : t ∈ orbitStates B s0 := by
  unfold orbitStates
  rw [List.mem_map]
  exact ⟨k, List.mem_range.2 hk, ht.symm⟩

theorem orbitStates_elim {B : List Pos} {s0 t : Pos × Dir} (ht : t ∈ orbitStates B s0) :
    ∃ k, k < 16 * B.length ∧ t = (stepFn B)^[k] s0 := by
  unfold orbitStates at ht
  rw [List.mem_map] at ht
  obtain ⟨k, hk, hkt⟩ := ht
  exact ⟨k, List.mem_range.1 hk, hkt.symm⟩

theorem orbit_self {B : List Pos} {s0 : Pos × Dir} (h : consistentS B s0) :
    s0 ∈ orbitStates B s0 :=
  mem_orbitStates (N_pos (consistent_B_ne h)) rfl

theorem orbit_consistent {B : List Pos} {s0 : Pos × Dir} (h : consistentS B s0)
    {t : Pos × Dir} (ht : t ∈ orbitStates B s0) : consistentS B t := by
  obtain ⟨k, hk, rfl⟩ := orbitStates_elim ht
  exact iterate_consistent h k

theorem iterate_mem_orbit {B : List Pos} {s0 : Pos × Dir} (h : consistentS B s0) (k : Nat) :
    (stepFn B)^[k] s0 ∈ orbitStates B s0 := by
  obtain ⟨P, hP1, hPN, hper, hmin⟩ := exists_min_period h
  have hmod := iterate_mod_period hP1 hper k
  exact mem_orbitStates (lt_of_lt_of_le (Nat.mod_lt k (by omega)) hPN) hmod

theorem orbit_symm {B : List Pos} {s0 : Pos × Dir} (h : consistentS B s0)
    {t : Pos × Dir} (ht : t ∈ orbitStates B s0) : s0 ∈ orbitStates B t := by
  obtain ⟨k, hk, rfl⟩ := orbitStates_elim ht
  obtain ⟨P, hP1, hPN, hper, hmin⟩ := exists_min_period h
  have hmod := iterate_mod_period hP1 hper k
  rw [hmod]
  have hkP : k % P < P := Nat.mod_lt k (by omega)
  rcases Nat.eq_zero_or_pos (k % P) with hz | hpos
  · rw [hz]
    exact orbit_self h
  · have : (stepFn B)^[P - k % P] ((stepFn B)^[k % P] s0) = s0 := by
      rw [← Function.iterate_add_apply, Nat.sub_add_cancel (le_of_lt hkP), hper]
    exact mem_orbitStates (by omega) this.symm

theorem orbit_compose {B : List Pos} {s t x : Pos × Dir} (hs : consistentS B s)
    (ht : t ∈ orbitStates B s) (hx : x ∈ orbitStates B t) : x ∈ orbitStates B s := by
  obtain ⟨k, hk, rfl⟩ := orbitStates_elim ht
  obtain ⟨j, hj, rfl⟩ := orbitStates_elim hx
  rw [← Function.iterate_add_apply]
  exact iterate_mem_orbit hs (j + k)

theorem step_mem_orbit {B : List Pos} {s0 : Pos × Dir} (h : consistentS B s0)
    {t : Pos × Dir} (ht : t ∈ orbitStates B s0) : stepFn B t ∈ orbitStates B s0 := by
  obtain ⟨k, hk, rfl⟩ := orbitStates_elim ht
  have hs := Function.iterate_succ_apply' (stepFn B) k s0
  rw [← hs]
  exact iterate_mem_orbit h (k + 1)

theorem pred_mem_orbit {B : List Pos} {s0 : Pos × Dir} (h : consistentS B s0)
    {t : Pos × Dir} (ht : t ∈ orbitStates B s0) :
    ∃ p, p ∈ orbitStates B s0 ∧ stepFn B p = t := by
  have hct : consistentS B t := orbit_consistent h ht
  obtain ⟨P, hP1, hPN, hper, hmin⟩ := exists_min_period hct
  refine ⟨(stepFn B)^[P - 1] t, orbit_compose h ht (iterate_mem_orbit hct (P - 1)), ?_⟩
  have hs := Function.iterate_succ_apply' (stepFn B) (P - 1) t
  rw [← hs]
  have h2 : (P - 1).succ = P := by omega
  rw [h2, hper]

theorem inCells_out (B : List Pos) (v : Pos) (r : Dir) (hr : r ∈ dirList) :
    inCellsOfMat (blocks_matrix B (sum_vectors v r)) r = outCellsOfMat (blocks_matrix B v) r := by
  rw [← bridge_in B (sum_vectors v r) r, bridge_out B v r hr]

theorem chiIn_eq_chiOut {M M2 : Mat} {r : Dir}
    (hpair : inCellsOfMat M2 r = outCellsOfMat M r) : chiIn M2 r = chiOut M r := by
  unfold chiIn chiOut
  rw [hpair]

theorem chiB_step {B : List Pos} {s : Pos × Dir} (h : consistentS B s) :
    chiB B (stepFn B s) = chiB B s := by
  obtain ⟨v, d⟩ := s
  obtain ⟨r, hr, hcons2⟩ := step_consistent h
  have hrd : r ∈ dirList := hcons2.1
  rw [consistentS_iff] at h
  have h1 : stepFn B (v, d) = (sum_vectors v r, r) := stepFn_eq hr
  rw [h1]
  unfold chiB
  dsimp only
  rw [chiIn_eq_chiOut (inCells_out B v r hrd)]
  obtain ⟨a, b, c, e, hM, ha, hb, hc, he⟩ := mat_cases B v
  rw [hM] at h hr ⊢
  exact fin_chi a ha b hb c hc e he d h.1 r hrd h.2 hr

theorem chiB_iterate {B : List Pos} {s0 : Pos × Dir} (h : consistentS B s0) (k : Nat) :
    chiB B ((stepFn B)^[k] s0) = chiB B s0 := by
  induction k with
  | zero => rfl
  | succ k ih =>
    rw [Function.iterate_succ_apply', chiB_step (iterate_consistent h k), ih]

theorem chiB_orbit {B : List Pos} {s0 : Pos × Dir} (h : consistentS B s0)
    {t : Pos × Dir} (ht : t ∈ orbitStates B s0) : chiB B t = chiB B s0 := by
  obtain ⟨k, hk, rfl⟩ := orbitStates_elim ht
  exact chiB_iterate h k

theorem rev_iterate {B : List Pos} {s : Pos × Dir} (h : consistentS B s) :
    ∀ k, (stepFn B)^[k] (revS ((stepFn B)^[k] s)) = revS s := by
  intro k
  induction k with
  | zero => rfl
  | succ k ih =>
    rw [Function.iterate_succ_apply' (stepFn B) k s, Function.iterate_succ_apply,
      step_rev_step (iterate_consistent h k), ih]

theorem revS_mem_orbit_rev {B : List Pos} {s : Pos × Dir} (h : consistentS B s)
    {t : Pos × Dir} (ht : t ∈ orbitStates B s) : revS t ∈ orbitStates B (revS s) := by
  obtain ⟨k, hk, rfl⟩ := orbitStates_elim ht
  have hrev := rev_iterate h k
  have hmem : revS s ∈ orbitStates B (revS ((stepFn B)^[k] s)) :=
    mem_orbitStates hk hrev.symm
  exact orbit_symm (revS_consistent (iterate_consistent h k)) hmem

theorem rev_not_mem_orbit {B : List Pos} {s0 : Pos × Dir} (h : consistentS B s0)
    {t : Pos × Dir} (ht : t ∈ orbitStates B s0) : revS t ∉ orbitStates B s0 := by
  intro hmem
  have h1 := chiB_orbit h ht
  have h2 := chiB_orbit h hmem
  exact chiB_rev (orbit_consistent h ht) (h2.trans h1.symm)

theorem list_min_eq {l : List Pos} {m : Pos} (hm : m ∈ l) (hmin : ∀ x ∈ l, ¬ lexLt x m) :
    list_min l = some m := by
  have hne : l ≠ [] := by
    intro h
    rw [h] at hm
    cases hm
  obtain ⟨m2, hm2⟩ := list_min_isSome hne
  rw [hm2]
  congr 1
  exact lexLt_antisymm (hmin m2 (list_min_mem hm2)) (list_min_not_lt hm2 m hm)

theorem list_min_congr {l1 l2 : List Pos} (h : ∀ x, x ∈ l1 ↔ x ∈ l2) :
    list_min l1 = list_min l2 := by
  by_cases h1 : l1 = []
  · have h2 : l2 = [] := by
      rw [List.eq_nil_iff_forall_not_mem]
      intro x hx
      rw [h1] at h
      exact (List.not_mem_nil x) ((h x).2 hx)
    rw [h1, h2]
  · obtain ⟨m1, hm1⟩ := list_min_isSome h1
    rw [hm1]
    symm
    apply list_min_eq ((h m1).1 (list_min_mem hm1))
    intro x hx
    exact list_min_not_lt hm1 x ((h x).2 hx)

theorem mem_orbitVerts {B : List Pos} {s0 t : Pos × Dir} (ht : t ∈ orbitStates B s0) :
    t.1 ∈ orbitVerts B s0 := by
  unfold orbitVerts
  exact List.mem_map.2 ⟨t, ht, rfl⟩

theorem orbitVerts_elim {B : List Pos} {s0 : Pos × Dir} {x : Pos}
    (hx : x ∈ orbitVerts B s0) : ∃ t, t ∈ orbitStates B s0 ∧ t.1 = x := by
  unfold orbitVerts at hx
  exact List.mem_map.1 hx

theorem orbit_mem_iff {B : List Pos} {s t : Pos × Dir} (hs : consistentS B s)
    (ht : t ∈ orbitStates B s) : ∀ x, x ∈ orbitStates B t ↔ x ∈ orbitStates B s := by
  intro x
  constructor
  · exact orbit_compose hs ht
  · exact orbit_compose (orbit_consistent hs ht) (orbit_symm hs ht)

theorem trig_of_mem {B : List Pos} {s t : Pos × Dir} (hs : consistentS B s)
    (ht : t ∈ orbitStates B s) : trig B t = trig B s := by
  unfold trig
  apply list_min_congr
  intro x
  constructor
  · intro hx
    obtain ⟨w, hw, rfl⟩ := orbitVerts_elim hx
    exact mem_orbitVerts ((orbit_mem_iff hs ht w).1 hw)
  · intro hx
    obtain ⟨w, hw, rfl⟩ := orbitVerts_elim hx
    exact mem_orbitVerts ((orbit_mem_iff hs ht w).2 hw)

theorem revS_vertex_pred {B : List Pos} {p : Pos × Dir} (hp : consistentS B p) :
    (revS (stepFn B p)).1 = p.1 := by
  have h1 := congrArg (fun z => z.1.1) (step_vertex hp)
  have h2 := congrArg (fun z => z.1.2) (step_vertex hp)
  simp only [sum_vectors] at h1 h2
  refine Prod.ext ?_ ?_ <;> · simp only [revS]; omega

theorem trig_rev {B : List Pos} {s : Pos × Dir} (h : consistentS B s) :
    trig B (revS s) = trig B s := by
  unfold trig
  apply list_min_congr
  intro x
  constructor
  · intro hx
    obtain ⟨t, ht, rfl⟩ := orbitVerts_elim hx
    have h2 := revS_mem_orbit_rev (revS_consistent h) ht
    rw [revS_invol] at h2
    obtain ⟨p, hp, hsp⟩ := pred_mem_orbit h h2
    have h3 := revS_vertex_pred (orbit_consistent h hp)
    rw [hsp, revS_invol] at h3
    rw [h3]
    exact mem_orbitVerts hp
  · intro hx
    obtain ⟨t, ht, rfl⟩ := orbitVerts_elim hx
    have hm := revS_mem_orbit_rev h (step_mem_orbit h ht)
    have h3 := revS_vertex_pred (orbit_consistent h ht)
    rw [← h3]
    exact mem_orbitVerts hm

theorem trig_isSome {B : List Pos} {s : Pos × Dir} (h : consistentS B s) :
    ∃ m, trig B s = some m ∧ m ∈ orbitVerts B s ∧ ∀ x ∈ orbitVerts B s, ¬ lexLt x m := by
  have hne : orbitVerts B s ≠ [] := by
    have hx := mem_orbitVerts (orbit_self h)
    intro hnil
    rw [hnil] at hx
    cases hx
  obtain ⟨m, hm⟩ := list_min_isSome hne
  exact ⟨m, hm, list_min_mem hm, list_min_not_lt hm⟩

theorem lexLt_of_not_of_ne {x m : Pos} (h1 : ¬ lexLt x m) (h2 : x ≠ m) : lexLt m x := by
  rcases lexLt_total x m with h | h | h
  · exact absurd h h1
  · exact absurd h h2
  · exact h

theorem pred_vertex_mem {B : List Pos} {s0 : Pos × Dir} (h : consistentS B s0)
    {w : Pos × Dir} (hw : w ∈ orbitStates B s0) :
    ((w.1.1 - w.2.1, w.1.2 - w.2.2) : Pos) ∈ orbitVerts B s0 := by
  obtain ⟨p, hp, hsp⟩ := pred_mem_orbit h hw
  have h3 := revS_vertex_pred (orbit_consistent h hp)
  rw [hsp] at h3
  have h4 : ((w.1.1 - w.2.1, w.1.2 - w.2.2) : Pos) = p.1 := h3
  rw [h4]
  exact mem_orbitVerts hp

/-- The analysis at the minimal vertex `m` of a curve: the configuration
there is one of the three minimum configurations, the first move of a walk
started at `m` is consistent and lands on the curve of `s` (in one of its
two orientations), and the landing state's own trigger is `m` again. -/
theorem min_vertex_analysis {B : List Pos} {s : Pos × Dir} (h : consistentS B s) {m : Pos}
    (hm : trig B s = some m) :
    minConfigB (blocks_matrix B m) = true ∧
      consistentS B (startStateAt m) ∧
      (startStateAt m ∈ orbitStates B s ∨ startStateAt m ∈ orbitStates B (revS s)) ∧
      trig B (startStateAt m) = some m := by
  have hmem : m ∈ orbitVerts B s := list_min_mem hm
  have hnotlt : ∀ x ∈ orbitVerts B s, ¬ lexLt x m := list_min_not_lt hm
  obtain ⟨w, hw, hw1⟩ := orbitVerts_elim hmem
  have hcw : consistentS B w := orbit_consistent h hw
  obtain ⟨r, hr, hcons2⟩ := step_consistent hcw
  have hrd : r ∈ dirList := hcons2.1
  have hdd : w.2 ∈ dirList := hcw.1
  have hpv := pred_vertex_mem h hw
  have hpv_ge : ¬ lexLt (w.1.1 - w.2.1, w.1.2 - w.2.2) m := hnotlt _ hpv
  have hnv : (sum_vectors w.1 r, r).1 ∈ orbitVerts B s := by
    have hst : stepFn B w = (sum_vectors w.1 r, r) := stepFn_eq hr
    rw [← hst]
    exact mem_orbitVerts (step_mem_orbit h hw)
  have hnv_ge : ¬ lexLt (sum_vectors w.1 r) m := hnotlt _ hnv
  have hdUL : w.2 = UP ∨ w.2 = LEFT := by
    unfold dirList at hdd
    simp only [List.mem_cons, List.not_mem_nil, or_false] at hdd
    rcases hdd with hd | hd | hd | hd
    · right; exact hd
    · left; exact hd
    · exfalso
      apply hpv_ge
      rw [hw1, hd]
      unfold lexLt RIGHT
      dsimp
      omega
    · exfalso
      apply hpv_ge
      rw [hw1, hd]
      unfold lexLt DOWN
      dsimp
      omega
  have hrRD : r = RIGHT ∨ r = DOWN := by
    unfold dirList at hrd
    simp only [List.mem_cons, List.not_mem_nil, or_false] at hrd
    rcases hrd with hd | hd | hd | hd
    · exfalso
      apply hnv_ge
      rw [hw1, hd]
      unfold lexLt sum_vectors LEFT
      dsimp
      omega
    · exfalso
      apply hnv_ge
      rw [hw1, hd]
      unfold lexLt sum_vectors UP
      dsimp
      omega
    · left; exact hd
    · right; exact hd
  rw [consistentS_iff] at hcw
  obtain ⟨a, b, c, e, hM, ha, hb, hc, he⟩ := mat_cases B w.1
  rw [hM] at hcw hr
  have hrd2 : r ∈ dirList := hcons2.1
  have hmincfg : minConfigB ((a, b), (c, e)) = true :=
    fin_min_of a ha b hb c hc e he w.2 hcw.1 r hrd2 hcw.2 hr hdUL hrRD
  obtain ⟨hSTILL, hUP, hLEFT, hbe, hce, hver⟩ :=
    fin_minconfig_props a ha b hb c hc e he hmincfg
  have hMm : blocks_matrix B m = ((a, b), (c, e)) := by
    rw [← hw1]
    exact hM
  have hmemb : startStateAt m ∈ orbitStates B s ∨ startStateAt m ∈ orbitStates B (revS s) := by
    rcases hdUL with hd | hd
    · left
      have hrR : r = RIGHT := by
        rw [hd, hUP] at hr
        exact (Option.some.inj hr).symm
      have hst : stepFn B w = (sum_vectors w.1 r, r) := stepFn_eq (by rw [hM]; exact hr)
      have heq : (sum_vectors w.1 r, r) = startStateAt m := by
        rw [hrR, hw1]
        unfold startStateAt sum_vectors RIGHT
        refine Prod.ext (Prod.ext ?_ ?_) rfl <;> dsimp <;> omega
      rw [← heq, ← hst]
      exact step_mem_orbit h hw
    · right
      have hweq : w = revS (startStateAt m) := by
        have hw2 : w = (m, LEFT) := by
          rw [← hw1, ← hd]
        rw [hw2]
        unfold revS startStateAt negD LEFT RIGHT
        refine Prod.ext (Prod.ext ?_ ?_) (Prod.ext ?_ ?_) <;> dsimp <;> omega
      have hmm := revS_mem_orbit_rev h hw
      rw [hweq, revS_invol] at hmm
      exact hmm
  have hconsT : consistentS B (startStateAt m) := by
    rcases hmemb with hmm | hmm
    · exact orbit_consistent h hmm
    · exact orbit_consistent (revS_consistent h) hmm
  have htrigT : trig B (startStateAt m) = some m := by
    rcases hmemb with hmm | hmm
    · rw [trig_of_mem h hmm, hm]
    · rw [trig_of_mem (revS_consistent h) hmm, trig_rev h, hm]
  exact ⟨by rw [hMm]; exact hmincfg, hconsT, hmemb, htrigT⟩

/-- A vertex hosts a trigger iff the first-move state from it does. -/
theorem trig_self_iff {B : List Pos} {v : Pos} :
    (∃ s, consistentS B s ∧ trig B s = some v) ↔
      (consistentS B (startStateAt v) ∧ trig B (startStateAt v) = some v) := by
  constructor
  · intro ⟨s, hs, htr⟩
    obtain ⟨-, h2, -, h4⟩ := min_vertex_analysis hs htr
    exact ⟨h2, h4⟩
  · intro ⟨h1, h2⟩
    exact ⟨startStateAt v, h1, h2⟩

theorem trig_step {B : List Pos} {s : Pos × Dir} (h : consistentS B s) :
    trig B (stepFn B s) = trig B s :=
  trig_of_mem h (step_mem_orbit h (orbit_self h))

theorem mateS_vertex {B : List Pos} {s : Pos × Dir} (h : consistentS B s) :
    (mateS B s).1 = s.1 :=
  revS_vertex_pred h

theorem mateS_consistent {B : List Pos} {s : Pos × Dir} (h : consistentS B s) :
    consistentS B (mateS B s) :=
  revS_consistent (stepFn_consistent h)

theorem mateS_trig {B : List Pos} {s : Pos × Dir} (h : consistentS B s) :
    trig B (mateS B s) = trig B s := by
  unfold mateS
  rw [trig_rev (stepFn_consistent h), trig_step h]

theorem mateS_invol {B : List Pos} {s : Pos × Dir} (h : consistentS B s) :
    mateS B (mateS B s) = s := by
  unfold mateS
  rw [step_rev_step h, revS_invol]

theorem mateS_snd {B : List Pos} {s : Pos × Dir} {r : Dir}
    (hr : RULES (blocks_matrix B s.1) s.2 = some r) : (mateS B s).2 = negD r := by
  unfold mateS
  rw [stepFn_eq hr]
  rfl

theorem mateS_ne {B : List Pos} {s : Pos × Dir} (h : consistentS B s) : mateS B s ≠ s := by
  obtain ⟨r, hr, hcons2⟩ := step_consistent h
  intro heq
  have h2 := congrArg Prod.snd heq
  rw [mateS_snd hr] at h2
  have h3 : r = negD s.2 := by
    rw [← h2, negD_invol]
  rw [consistentS_iff] at h
  obtain ⟨a, b, c, e, hM, ha, hb, hc, he⟩ := mat_cases B s.1
  rw [hM] at h hr
  exact fin_no_reverse a ha b hb c hc e he s.2 h.1 r hcons2.1 h.2 hr h3

theorem mateS_mem_orbit_rev {B : List Pos} {s : Pos × Dir} (h : consistentS B s) :
    mateS B s ∈ orbitStates B (revS s) :=
  revS_mem_orbit_rev h (step_mem_orbit h (orbit_self h))

theorem consumedB_of_trig {B : List Pos} {p m : Pos} {t : Pos × Dir} (ht : consistentS B t)
    (htr : trig B t = some m) (hlt : lexLt m p) :
    consumedB B p t = decide (t ∈ orbitStates B (startStateAt m)) := by
  unfold consumedB
  rw [htr]
  simp [ht, hlt]

/-- Exactly one of the two traversal directions of a passage is consumed
once the passage's curve has been triggered. -/
theorem consumed_pair {B : List Pos} {p : Pos} {s : Pos × Dir} (h : consistentS B s)
    {m : Pos} (hm : trig B s = some m) (hlt : lexLt m p) :
    (consumedB B p s = true ∧ consumedB B p (mateS B s) = false) ∨
    (consumedB B p s = false ∧ consumedB B p (mateS B s) = true) := by
  obtain ⟨-, hσcons, hσmem, hσtrig⟩ := min_vertex_analysis h hm
  have hmatetrig : trig B (mateS B s) = some m := by
    rw [mateS_trig h, hm]
  have hes := consumedB_of_trig h hm hlt
  have hem := consumedB_of_trig (mateS_consistent h) hmatetrig hlt
  rcases hσmem with hσ | hσ
  · left
    have hsmem : s ∈ orbitStates B (startStateAt m) := orbit_symm h hσ
    have hmnot : mateS B s ∉ orbitStates B (startStateAt m) := by
      intro hmem
      have h1 : mateS B s ∈ orbitStates B s := (orbit_mem_iff h hσ (mateS B s)).1 hmem
      have h2 : revS (stepFn B s) ∉ orbitStates B s :=
        rev_not_mem_orbit h (step_mem_orbit h (orbit_self h))
      exact h2 h1
    rw [hes, hem]
    exact ⟨decide_eq_true hsmem, decide_eq_false hmnot⟩
  · right
    have hrc : consistentS B (revS s) := revS_consistent h
    have hmmem : mateS B s ∈ orbitStates B (startStateAt m) :=
      (orbit_mem_iff hrc hσ (mateS B s)).2 (mateS_mem_orbit_rev h)
    have hsnot : s ∉ orbitStates B (startStateAt m) := by
      intro hmem
      have h1 : s ∈ orbitStates B (revS s) := (orbit_mem_iff hrc hσ s).1 hmem
      have h2 : revS (revS s) ∉ orbitStates B (revS s) :=
        rev_not_mem_orbit hrc (orbit_self hrc)
      rw [revS_invol] at h2
      exact h2 h1
    rw [hes, hem]
    exact ⟨decide_eq_false hsnot, decide_eq_true hmmem⟩

theorem consumedB_not_consistent {B : List Pos} {p : Pos} {s : Pos × Dir}
    (h : ¬ consistentS B s) : consumedB B p s = false := by
  unfold consumedB
  simp [h]

theorem consumedB_not_lt {B : List Pos} {p : Pos} {s : Pos × Dir} {m : Pos}
    (hm : trig B s = some m) (h : ¬ lexLt m p) : consumedB B p s = false := by
  unfold consumedB
  rw [hm]
  simp [h]

theorem count_sum (B : List Pos) (p u : Pos) : countConsumed B p u =
    (if consumedB B p (u, LEFT) = true then 1 else 0) +
    (if consumedB B p (u, UP) = true then 1 else 0) +
    (if consumedB B p (u, RIGHT) = true then 1 else 0) +
    (if consumedB B p (u, DOWN) = true then 1 else 0) := by
  unfold countConsumed stateAt
  simp only [List.countP_cons, List.countP_nil]
  omega

theorem count_zero {B : List Pos} {p u : Pos}
    (hall : ∀ d ∈ dirList, consumedB B p (u, d) = false) : countConsumed B p u = 0 := by
  rw [count_sum]
  rw [hall LEFT (by decide), hall UP (by decide), hall RIGHT (by decide),
    hall DOWN (by decide)]
  rfl

theorem count_one {B : List Pos} {p u : Pos} {d1 d2 : Dir} (h1 : d1 ∈ dirList)
    (h2 : d2 ∈ dirList) (hne : d1 ≠ d2)
    (hpair : (consumedB B p (u, d1) = true ∧ consumedB B p (u, d2) = false) ∨
             (consumedB B p (u, d1) = false ∧ consumedB B p (u, d2) = true))
    (hothers : ∀ d ∈ dirList, d ≠ d1 → d ≠ d2 → consumedB B p (u, d) = false) :
    countConsumed B p u = 1 := by
  rw [count_sum]
  unfold dirList at h1 h2
  simp only [List.mem_cons, List.not_mem_nil, or_false] at h1 h2
  rcases h1 with rfl | rfl | rfl | rfl <;> rcases h2 with rfl | rfl | rfl | rfl
  · exact absurd rfl hne
  · have ho1 : consumedB B p (u, RIGHT) = false :=
      hothers RIGHT (by decide) (by decide) (by decide)
    have ho2 : consumedB B p (u, DOWN) = false :=
      hothers DOWN (by decide) (by decide) (by decide)
    rcases hpair with ⟨ha, hb⟩ | ⟨ha, hb⟩ <;> rw [ha, hb, ho1, ho2] <;> rfl
  · have ho1 : consumedB B p (u, UP) = false :=
      hothers UP (by decide) (by decide) (by decide)
    have ho2 : consumedB B p (u, DOWN) = false :=
      hothers DOWN (by decide) (by decide) (by decide)
    rcases hpair with ⟨ha, hb⟩ | ⟨ha, hb⟩ <;> rw [ha, hb, ho1, ho2] <;> rfl
  · have ho1 : consumedB B p (u, UP) = false :=
      hothers UP (by decide) (by decide) (by decide)
    have ho2 : consumedB B p (u, RIGHT) = false :=
      hothers RIGHT (by decide) (by decide) (by decide)
    rcases hpair with ⟨ha, hb⟩ | ⟨ha, hb⟩ <;> rw [ha, hb, ho1, ho2] <;> rfl
  · have ho1 : consumedB B p (u, RIGHT) = false :=
      hothers RIGHT (by decide) (by decide) (by decide)
    have ho2 : consumedB B p (u, DOWN) = false :=
      hothers DOWN (by decide) (by decide) (by decide)
    rcases hpair with ⟨ha, hb⟩ | ⟨ha, hb⟩ <;> rw [ha, hb, ho1, ho2] <;> rfl
  · exact absurd rfl hne
  · have ho1 : consumedB B p (u, LEFT) = false :=
      hothers LEFT (by decide) (by decide) (by decide)
    have ho2 : consumedB B p (u, DOWN) = false :=
      hothers DOWN (by decide) (by decide) (by decide)
    rcases hpair with ⟨ha, hb⟩ | ⟨ha, hb⟩ <;> rw [ha, hb, ho1, ho2] <;> rfl
  · have ho1 : consumedB B p (u, LEFT) = false :=
      hothers LEFT (by decide) (by decide) (by decide)
    have ho2 : consumedB B p (u, RIGHT) = false :=
      hothers RIGHT (by decide) (by decide) (by decide)
    rcases hpair with ⟨ha, hb⟩ | ⟨ha, hb⟩ <;> rw [ha, hb, ho1, ho2] <;> rfl
  · have ho1 : consumedB B p (u, UP) = false :=
      hothers UP (by decide) (by decide) (by decide)
    have ho2 : consumedB B p (u, DOWN) = false :=
      hothers DOWN (by decide) (by decide) (by decide)
    rcases hpair with ⟨ha, hb⟩ | ⟨ha, hb⟩ <;> rw [ha, hb, ho1, ho2] <;> rfl
  · have ho1 : consumedB B p (u, LEFT) = false :=
      hothers LEFT (by decide) (by decide) (by decide)
    have ho2 : consumedB B p (u, DOWN) = false :=
      hothers DOWN (by decide) (by decide) (by decide)
    rcases hpair with ⟨ha, hb⟩ | ⟨ha, hb⟩ <;> rw [ha, hb, ho1, ho2] <;> rfl
  · exact absurd rfl hne
  · have ho1 : consumedB B p (u, LEFT) = false :=
      hothers LEFT (by decide) (by decide) (by decide)
    have ho2 : consumedB B p (u, UP) = false :=
      hothers UP (by decide) (by decide) (by decide)
    rcases hpair with ⟨ha, hb⟩ | ⟨ha, hb⟩ <;> rw [ha, hb, ho1, ho2] <;> rfl
  · have ho1 : consumedB B p (u, UP) = false :=
      hothers UP (by decide) (by decide) (by decide)
    have ho2 : consumedB B p (u, RIGHT) = false :=
      hothers RIGHT (by decide) (by decide) (by decide)
    rcases hpair with ⟨ha, hb⟩ | ⟨ha, hb⟩ <;> rw [ha, hb, ho1, ho2] <;> rfl
  · have ho1 : consumedB B p (u, LEFT) = false :=
      hothers LEFT (by decide) (by decide) (by decide)
    have ho2 : consumedB B p (u, RIGHT) = false :=
      hothers RIGHT (by decide) (by decide) (by decide)
    rcases hpair with ⟨ha, hb⟩ | ⟨ha, hb⟩ <;> rw [ha, hb, ho1, ho2] <;> rfl
  · have ho1 : consumedB B p (u, LEFT) = false :=
      hothers LEFT (by decide) (by decide) (by decide)
    have ho2 : consumedB B p (u, UP) = false :=
      hothers UP (by decide) (by decide) (by decide)
    rcases hpair with ⟨ha, hb⟩ | ⟨ha, hb⟩ <;> rw [ha, hb, ho1, ho2] <;> rfl
  · exact absurd rfl hne

theorem count_two_A {B : List Pos} {p u : Pos}
    (hp1 : (consumedB B p (u, UP) = true ∧ consumedB B p (u, RIGHT) = false) ∨
           (consumedB B p (u, UP) = false ∧ consumedB B p (u, RIGHT) = true))
    (hp2 : (consumedB B p (u, DOWN) = true ∧ consumedB B p (u, LEFT) = false) ∨
           (consumedB B p (u, DOWN) = false ∧ consumedB B p (u, LEFT) = true)) :
    countConsumed B p u = 2 := by
  rw [count_sum]
  rcases hp1 with ⟨ha, hb⟩ | ⟨ha, hb⟩ <;> rcases hp2 with ⟨hc, hd⟩ | ⟨hc, hd⟩ <;>
    rw [ha, hb, hc, hd] <;> rfl

theorem count_two_B {B : List Pos} {p u : Pos}
    (hp1 : (consumedB B p (u, UP) = true ∧ consumedB B p (u, LEFT) = false) ∨
           (consumedB B p (u, UP) = false ∧ consumedB B p (u, LEFT) = true))
    (hp2 : (consumedB B p (u, DOWN) = true ∧ consumedB B p (u, RIGHT) = false) ∨
           (consumedB B p (u, DOWN) = false ∧ consumedB B p (u, RIGHT) = true)) :
    countConsumed B p u = 2 := by
  rw [count_sum]
  rcases hp1 with ⟨ha, hb⟩ | ⟨ha, hb⟩ <;> rcases hp2 with ⟨hc, hd⟩ | ⟨hc, hd⟩ <;>
    rw [ha, hb, hc, hd] <;> rfl

theorem fin_saddle_all :
    ∀ a ∈ ([0, 1] : List Int), ∀ b ∈ ([0, 1] : List Int), ∀ c ∈ ([0, 1] : List Int),
    ∀ e ∈ ([0, 1] : List Int), (POSSIBLE_DIRECTIONS ((a, b), (c, e))).length = 4 →
      ∀ d ∈ dirList,
        (inCellsOfMat ((a, b), (c, e)) d).1 ≠ (inCellsOfMat ((a, b), (c, e)) d).2 := by decide

theorem fin_saddle_pair :
    ∀ a ∈ ([0, 1] : List Int), ∀ b ∈ ([0, 1] : List Int), ∀ c ∈ ([0, 1] : List Int),
    ∀ e ∈ ([0, 1] : List Int), (POSSIBLE_DIRECTIONS ((a, b), (c, e))).length = 4 →
      (RULES ((a, b), (c, e)) UP = some LEFT ∧ RULES ((a, b), (c, e)) DOWN = some RIGHT) ∨
      (RULES ((a, b), (c, e)) UP = some RIGHT ∧ RULES ((a, b), (c, e)) DOWN = some LEFT) := by
  decide

theorem fin_two_arrivals :
    ∀ a ∈ ([0, 1] : List Int), ∀ b ∈ ([0, 1] : List Int), ∀ c ∈ ([0, 1] : List Int),
    ∀ e ∈ ([0, 1] : List Int), (POSSIBLE_DIRECTIONS ((a, b), (c, e))).length ≠ 4 →
      ∀ d1 ∈ dirList, ∀ d2 ∈ dirList, ∀ d3 ∈ dirList,
        (inCellsOfMat ((a, b), (c, e)) d1).1 ≠ (inCellsOfMat ((a, b), (c, e)) d1).2 →
        (inCellsOfMat ((a, b), (c, e)) d2).1 ≠ (inCellsOfMat ((a, b), (c, e)) d2).2 →
        (inCellsOfMat ((a, b), (c, e)) d3).1 ≠ (inCellsOfMat ((a, b), (c, e)) d3).2 →
        d1 = d2 ∨ d1 = d3 ∨ d2 = d3 := by decide

theorem fin_exists_arrival :
    ∀ a ∈ ([0, 1] : List Int), ∀ b ∈ ([0, 1] : List Int), ∀ c ∈ ([0, 1] : List Int),
    ∀ e ∈ ([0, 1] : List Int), POSSIBLE_DIRECTIONS ((a, b), (c, e)) ≠ [] →
      ∃ d ∈ dirList,
        (inCellsOfMat ((a, b), (c, e)) d).1 ≠ (inCellsOfMat ((a, b), (c, e)) d).2 := by decide

theorem fin_nonboundary :
    ∀ a ∈ ([0, 1] : List Int), ∀ b ∈ ([0, 1] : List Int), ∀ c ∈ ([0, 1] : List Int),
    ∀ e ∈ ([0, 1] : List Int), POSSIBLE_DIRECTIONS ((a, b), (c, e)) = [] →
      ∀ d ∈ dirList,
        (inCellsOfMat ((a, b), (c, e)) d).1 = (inCellsOfMat ((a, b), (c, e)) d).2 := by decide

theorem fin_min_ordinary :
    ∀ a ∈ ([0, 1] : List Int), ∀ b ∈ ([0, 1] : List Int), ∀ c ∈ ([0, 1] : List Int),
    ∀ e ∈ ([0, 1] : List Int), minConfigB ((a, b), (c, e)) = true →
      (POSSIBLE_DIRECTIONS ((a, b), (c, e))).length ≠ 4 →
      (inCellsOfMat ((a, b), (c, e)) RIGHT).1 = (inCellsOfMat ((a, b), (c, e)) RIGHT).2 ∧
      (inCellsOfMat ((a, b), (c, e)) DOWN).1 = (inCellsOfMat ((a, b), (c, e)) DOWN).2 := by
  decide

theorem trig_le_vertex {B : List Pos} {s : Pos × Dir} (h : consistentS B s) :
    ∃ m, trig B s = some m ∧ (m = s.1 ∨ lexLt m s.1) := by
  obtain ⟨m, hm, hmem, hnotlt⟩ := trig_isSome h
  refine ⟨m, hm, ?_⟩
  have hv : s.1 ∈ orbitVerts B s := mem_orbitVerts (orbit_self h)
  rcases lexLt_total m s.1 with hlt | heq | hgt
  · right; exact hlt
  · left; exact heq
  · exact absurd hgt (hnotlt s.1 hv)

theorem trig_lt_of_pred {B : List Pos} {s : Pos × Dir} (h : consistentS B s) {m : Pos}
    (hm : trig B s = some m)
    (hlt : lexLt (s.1.1 - s.2.1, s.1.2 - s.2.2) s.1) : lexLt m s.1 := by
  have hpv := pred_vertex_mem h (orbit_self h)
  have hnot := list_min_not_lt hm _ hpv
  rcases lexLt_total m (s.1.1 - s.2.1, s.1.2 - s.2.2) with h1 | h1 | h1
  · exact lexLt_trans h1 hlt
  · rw [h1]; exact hlt
  · exact absurd h1 hnot

theorem mateS_eq {B : List Pos} {u : Pos} {d r : Dir} (h : consistentS B (u, d))
    (hr : RULES (blocks_matrix B u) d = some r) {d2 : Dir} (hd2 : negD r = d2) :
    mateS B (u, d) = (u, d2) := by
  have h1 := mateS_vertex h
  have h2 : (mateS B (u, d)).2 = negD r := mateS_snd hr
  rw [hd2] at h2
  exact Prod.ext h1 h2

theorem consumedB_shift {B : List Pos} {p1 p2 : Pos}
    (hshift : ∀ m, (∃ s, consistentS B s ∧ trig B s = some m) → (lexLt m p1 ↔ lexLt m p2)) :
    ∀ s, consumedB B p1 s = consumedB B p2 s := by
  intro s
  unfold consumedB
  by_cases hc : consistentS B s
  · cases htr : trig B s with
    | none => rfl
    | some m =>
      have hiff := hshift m ⟨s, hc, htr⟩
      have hd : decide (lexLt m p1) = decide (lexLt m p2) := decide_eq_decide.2 hiff
      dsimp only
      rw [hd]
  · simp [hc]

theorem countP_disjoint {α : Type*} (f g : α → Bool) :
    ∀ l : List α, (∀ x ∈ l, ¬ (f x = true ∧ g x = true)) →
      l.countP (fun x => f x || g x) = l.countP f + l.countP g := by
  intro l
  induction l with
  | nil => intro _; rfl
  | cons a l ih =>
    intro hdis
    have ha := hdis a (List.mem_cons_self a l)
    rw [List.countP_cons, List.countP_cons, List.countP_cons,
      ih (fun x hx => hdis x (List.mem_cons_of_mem a hx))]
    cases hf : f a <;> cases hg : g a
    · simp
    · simp
      omega
    · simp
      omega
    · exact absurd ⟨hf, hg⟩ ha

theorem stateAt_nodup (u : Pos) : (stateAt u).Nodup := by
  unfold stateAt
  simp [LEFT, UP, RIGHT, DOWN]

theorem period_inj {B : List Pos} {s0 : Pos × Dir} (h : consistentS B s0) {P : Nat}
    (hmin : ∀ j, 1 ≤ j → j < P → (stepFn B)^[j] s0 ≠ s0) :
    ∀ i j, i < P → j < P → (stepFn B)^[i] s0 = (stepFn B)^[j] s0 → i = j := by
  have key : ∀ i j, i ≤ j → j < P → (stepFn B)^[i] s0 = (stepFn B)^[j] s0 → i = j := by
    intro i j hij hj heq
    have hc := iterate_inj_cancel h i j hij heq
    by_contra hne
    exact hmin (j - i) (by omega) (by omega) hc
  intro i j hi hj heq
  rcases Nat.lt_or_ge i j with hlt | hge
  · exact key i j (by omega) hj heq
  · exact (key j i hge hi heq.symm).symm

theorem visitCount_succ (B : List Pos) (s : Pos × Dir) (m : Nat) (u : Pos) :
    visitCount B s (m + 1) u =
      (if s.1 = u then 1 else 0) + visitCount B (stepFn B s) m u := by
  unfold visitCount
  rw [List.range_succ_eq_map, List.map_cons, List.map_map]
  have hf : ((fun k => ((stepFn B)^[k] s).1) ∘ Nat.succ) =
      (fun k => ((stepFn B)^[k] (stepFn B s)).1) := by
    funext k
    simp only [Function.comp_apply]
    rw [Function.iterate_succ_apply]
  rw [hf, List.count_cons]
  simp only [Function.iterate_zero, id_eq, beq_iff_eq]
  omega

theorem visitCount_one (B : List Pos) (s : Pos × Dir) (u : Pos) :
    visitCount B s 1 u = (if s.1 = u then 1 else 0) := by
  unfold visitCount
  simp only [List.range_succ, List.range_zero, List.nil_append, List.map_cons, List.map_nil,
    Function.iterate_zero, id_eq, List.count_cons, List.count_nil, beq_iff_eq]
  omega

theorem walkAux_trace {B : List Pos} {first : Pos} :
    ∀ (n : Nat) (s : Pos × Dir) (fuel : Nat) (tracked : Pos → Nat) (acc : List Pos),
      consistentS B s → 1 ≤ n → n ≤ fuel →
      (∀ j, j < n → ((stepFn B)^[j] s).1 ≠ first) →
      ((stepFn B)^[n] s).1 = first →
      ∃ tr tail, tail ≠ [] ∧
        walkAux B first fuel s.1 s.2 tracked acc = some (tr, acc ++ tail) ∧
        ∀ u, tr u = tracked u + incOf B u * visitCount B s n u := by
  intro n
  induction n with
  | zero =>
    intro s fuel tracked acc _ h1 _ _ _
    exact absurd h1 (by omega)
  | succ m ih =>
    intro s fuel tracked acc hcons _ hmf hearly hhit
    obtain ⟨f', rfl⟩ : ∃ f', fuel = f' + 1 := ⟨fuel - 1, by omega⟩
    obtain ⟨r, hr, _⟩ := step_consistent hcons
    have hstep := stepFn_eq hr
    rw [walkAux_succ_of_rule hr f' tracked acc]
    rcases Nat.eq_zero_or_pos m with rfl | hm1
    · -- last step: the appended vertex is `first`
      have hv : sum_vectors s.1 r = first := by
        simp only [Nat.zero_add, Function.iterate_one] at hhit
        rw [hstep] at hhit
        exact hhit
      rw [if_pos hv]
      refine ⟨_, [sum_vectors s.1 r], by simp, rfl, ?_⟩
      intro u
      rw [visitCount_one]
      by_cases hu : u = s.1
      · subst hu
        rw [if_pos rfl, if_pos rfl]
        unfold incOf
        omega
      · rw [if_neg hu, if_neg (fun hh => hu hh.symm)]
        omega
    · -- middle step: the appended vertex is not `first`
      have hv : sum_vectors s.1 r ≠ first := by
        have h1 := hearly 1 (by omega)
        simp only [Function.iterate_one] at h1
        rw [hstep] at h1
        exact h1
      rw [if_neg hv]
      obtain ⟨tr, tail, htne, hw, htr⟩ := ih (stepFn B s) f'
        (fun p => if p = s.1 then tracked s.1 +
            (if (POSSIBLE_DIRECTIONS (blocks_matrix B s.1)).length = 4 then 1 else 2)
          else tracked p)
        (acc ++ [sum_vectors s.1 r]) (stepFn_consistent hcons) hm1 (by omega)
        (by
          intro j hj
          have := hearly (j + 1) (by omega)
          rw [Function.iterate_succ_apply] at this
          exact this)
        (by rw [← Function.iterate_succ_apply]; exact hhit)
      rw [hstep] at hw
      refine ⟨tr, [sum_vectors s.1 r] ++ tail, by simp, ?_, ?_⟩
      · rw [← List.append_assoc]
        exact hw
      · intro u
        rw [htr u, visitCount_succ]
        by_cases hu : u = s.1
        · subst hu
          rw [if_pos rfl, if_pos rfl]
          unfold incOf
          ring
        · rw [if_neg hu, if_neg (fun hh => hu hh.symm)]
          simp only [Nat.zero_add]

theorem walk_trace_start {B : List Pos} {v0 : Pos} {r0 : Dir} {n : Nat}
    (hr0 : RULES (blocks_matrix B v0) STILL = some r0)
    (hσc : consistentS B (sum_vectors v0 r0, r0))
    (hvne : sum_vectors v0 r0 ≠ v0)
    (hn1 : 1 ≤ n)
    (hearly : ∀ j, j < n → ((stepFn B)^[j] (sum_vectors v0 r0, r0)).1 ≠ v0)
    (hhit : ((stepFn B)^[n] (sum_vectors v0 r0, r0)).1 = v0) :
    ∀ fuel tracked acc, n + 1 ≤ fuel →
    ∃ tr tail, tail ≠ [] ∧
      walkAux B v0 fuel v0 STILL tracked acc = some (tr, acc ++ tail) ∧
      ∀ u, tr u = tracked u + incOf B u *
        ((if v0 = u then 1 else 0) + visitCount B (sum_vectors v0 r0, r0) n u) := by
  intro fuel tracked acc hfuel
  obtain ⟨f', rfl⟩ : ∃ f', fuel = f' + 1 := ⟨fuel - 1, by omega⟩
  rw [walkAux_succ_of_rule hr0 f' tracked acc]
  rw [if_neg hvne]
  obtain ⟨tr, tail, htne, hw, htr⟩ := walkAux_trace n (sum_vectors v0 r0, r0) f'
    (fun p => if p = v0 then tracked v0 +
        (if (POSSIBLE_DIRECTIONS (blocks_matrix B v0)).length = 4 then 1 else 2)
      else tracked p)
    (acc ++ [sum_vectors v0 r0]) hσc hn1 (by omega) hearly hhit
  refine ⟨tr, [sum_vectors v0 r0] ++ tail, by simp, ?_, ?_⟩
  · rw [← List.append_assoc]
    exact hw
  · intro u
    rw [htr u]
    by_cases hu : u = v0
    · subst hu
      rw [if_pos rfl, if_pos rfl]
      unfold incOf
      ring
    · rw [if_neg hu, if_neg (fun hh => hu hh.symm)]
      simp only [Nat.zero_add]

theorem mem_stateAt {u : Pos} {t : Pos × Dir} (h1 : t.1 = u) (h2 : t.2 ∈ dirList) :
    t ∈ stateAt u := by
  unfold stateAt
  unfold dirList at h2
  simp only [List.mem_cons, List.not_mem_nil, or_false] at h2 ⊢
  rcases h2 with hd | hd | hd | hd
  · left; rw [← h1, ← hd]
  · right; left; rw [← h1, ← hd]
  · right; right; left; rw [← h1, ← hd]
  · right; right; right; rw [← h1, ← hd]

theorem stateAt_fst {u : Pos} {t : Pos × Dir} (h : t ∈ stateAt u) : t.1 = u := by
  unfold stateAt at h
  simp only [List.mem_cons, List.not_mem_nil, or_false] at h
  rcases h with rfl | rfl | rfl | rfl <;> rfl

theorem orbit_count_core {B : List Pos} {σ : Pos × Dir} (hσ : consistentS B σ) {P : Nat}
    (hP1 : 1 ≤ P) (hPN : P ≤ 16 * B.length) (hper : (stepFn B)^[P] σ = σ)
    (hmin : ∀ j, 1 ≤ j → j < P → (stepFn B)^[j] σ ≠ σ) (u : Pos) :
    visitCount B σ P u =
      (stateAt u).countP (fun s => decide (s ∈ orbitStates B σ)) := by
  have hvc : visitCount B σ P u =
      ((List.range P).map (fun k => (stepFn B)^[k] σ)).countP (fun t => decide (t.1 = u)) := by
    unfold visitCount
    have hmm : (List.range P).map (fun k => ((stepFn B)^[k] σ).1) =
        ((List.range P).map (fun k => (stepFn B)^[k] σ)).map Prod.fst := by
      rw [List.map_map]
      rfl
    rw [hmm, List.count_eq_countP, List.countP_map]
    apply List.countP_congr
    intro t _
    by_cases heq : t.1 = u
    · simp [heq]
    · simp [heq, Ne.symm heq]
  rw [hvc, List.countP_eq_length_filter, List.countP_eq_length_filter]
  have hnd1 : (((List.range P).map (fun k => (stepFn B)^[k] σ)).filter
      (fun t => decide (t.1 = u))).Nodup := by
    apply List.Nodup.filter
    apply List.Nodup.map_on ?_ (List.nodup_range P)
    intro i hi j hj hij
    exact period_inj hσ hmin i j (List.mem_range.1 hi) (List.mem_range.1 hj) hij
  have hnd2 : ((stateAt u).filter (fun s => decide (s ∈ orbitStates B σ))).Nodup :=
    List.Nodup.filter _ (stateAt_nodup u)
  have hext : ∀ t, t ∈ ((List.range P).map (fun k => (stepFn B)^[k] σ)).filter
      (fun t => decide (t.1 = u)) ↔
      t ∈ (stateAt u).filter (fun s => decide (s ∈ orbitStates B σ)) := by
    intro t
    rw [List.mem_filter, List.mem_filter]
    constructor
    · intro ⟨hmem, hp⟩
      rw [List.mem_map] at hmem
      obtain ⟨k, hk, rfl⟩ := hmem
      rw [List.mem_range] at hk
      simp only [decide_eq_true_eq] at hp
      have hcons := iterate_consistent hσ k
      refine ⟨mem_stateAt hp hcons.1, decide_eq_true ?_⟩
      exact mem_orbitStates (lt_of_lt_of_le hk hPN) rfl
    · intro ⟨hmem, hp⟩
      simp only [decide_eq_true_eq] at hp
      obtain ⟨k, hk, rfl⟩ := orbitStates_elim hp
      have hmod := iterate_mod_period hP1 hper k
      rw [List.mem_map]
      refine ⟨⟨k % P, ?_, hmod.symm⟩, decide_eq_true (stateAt_fst hmem)⟩
      exact List.mem_range.2 (Nat.mod_lt k (by omega))
  rw [List.Perm.length_eq ((List.perm_ext_iff_of_nodup hnd1 hnd2).2 hext)]

theorem consumedB_update {B : List Pos} {v p' : Pos}
    (hEc : consistentS B (startStateAt v)) (hEt : trig B (startStateAt v) = some v)
    (hshift : ∀ m, (∃ s, consistentS B s ∧ trig B s = some m) →
      (lexLt m p' ↔ (lexLt m v ∨ m = v))) :
    ∀ s, consumedB B p' s =
      (consumedB B v s || decide (s ∈ orbitStates B (startStateAt v))) := by
  intro s
  by_cases hmem : s ∈ orbitStates B (startStateAt v)
  · have hcons : consistentS B s := orbit_consistent hEc hmem
    have htr : trig B s = some v := by
      rw [trig_of_mem hEc hmem, hEt]
    have hlt : lexLt v p' := by
      rw [hshift v ⟨s, hcons, htr⟩]
      right
      rfl
    have h1 : consumedB B p' s = true := by
      rw [consumedB_of_trig hcons htr hlt]
      exact decide_eq_true hmem
    rw [h1, decide_eq_true hmem, Bool.or_true]
  · rw [decide_eq_false hmem, Bool.or_false]
    by_cases hcons : consistentS B s
    · obtain ⟨m, htr, -⟩ := trig_le_vertex hcons
      by_cases hmv : m = v
      · subst hmv
        have h1 : consumedB B p' s = false := by
          unfold consumedB
          rw [htr]
          dsimp only
          rw [decide_eq_false hmem]
          simp
        have h2 : consumedB B m s = false := consumedB_not_lt htr (lexLt_irrefl _)
        rw [h1, h2]
      · have hiff : lexLt m p' ↔ lexLt m v := by
          rw [hshift m ⟨s, hcons, htr⟩]
          constructor
          · intro hh
            rcases hh with hh | hh
            · exact hh
            · exact absurd hh hmv
          · intro hh
            left
            exact hh
        unfold consumedB
        rw [htr]
        dsimp only
        rw [decide_eq_decide.2 hiff]
    · rw [consumedB_not_consistent hcons, consumedB_not_consistent hcons]

theorem countConsumed_update {B : List Pos} {v p' : Pos}
    (hEc : consistentS B (startStateAt v)) (hEt : trig B (startStateAt v) = some v)
    (hshift : ∀ m, (∃ s, consistentS B s ∧ trig B s = some m) →
      (lexLt m p' ↔ (lexLt m v ∨ m = v))) (u : Pos) :
    countConsumed B p' u = countConsumed B v u +
      (stateAt u).countP (fun s => decide (s ∈ orbitStates B (startStateAt v))) := by
  unfold countConsumed
  have h1 : (stateAt u).countP (consumedB B p') =
      (stateAt u).countP
        (fun s => consumedB B v s || decide (s ∈ orbitStates B (startStateAt v))) := by
    apply List.countP_congr
    intro s _
    rw [consumedB_update hEc hEt hshift s]
  rw [h1]
  apply countP_disjoint
  intro s _ hcontra
  obtain ⟨hc1, hc2⟩ := hcontra
  simp only [decide_eq_true_eq] at hc2
  have hcons : consistentS B s := orbit_consistent hEc hc2
  have htr : trig B s = some v := by
    rw [trig_of_mem hEc hc2, hEt]
  have hfalse := consumedB_not_lt htr (lexLt_irrefl v)
  rw [hfalse] at hc1
  cases hc1

theorem countConsumed_shift {B : List Pos} {v p' : Pos}
    (hnoE : ¬ (consistentS B (startStateAt v) ∧ trig B (startStateAt v) = some v))
    (hshift : ∀ m, (∃ s, consistentS B s ∧ trig B s = some m) →
      (lexLt m p' ↔ (lexLt m v ∨ m = v))) (u : Pos) :
    countConsumed B p' u = countConsumed B v u := by
  unfold countConsumed
  apply List.countP_congr
  intro s _
  have hsh : consumedB B p' s = consumedB B v s := by
    apply consumedB_shift
    intro m hm
    have hmv : m ≠ v := by
      intro hh
      subst hh
      exact hnoE (trig_self_iff.1 hm)
    rw [hshift m hm]
    constructor
    · intro hh
      rcases hh with hh | hh
      · exact hh
      · exact absurd hh hmv
    · intro hh
      left
      exact hh
  rw [hsh]

theorem arrivals_triggered {B : List Pos} {v : Pos}
    (hnoE : ¬ (consistentS B (startStateAt v) ∧ trig B (startStateAt v) = some v))
    {d : Dir} (hc : consistentS B (v, d)) :
    ∃ m, trig B (v, d) = some m ∧ lexLt m v := by
  obtain ⟨m, htr, hle⟩ := trig_le_vertex hc
  refine ⟨m, htr, ?_⟩
  rcases hle with heq | hlt
  · exfalso
    apply hnoE
    apply trig_self_iff.1
    exact ⟨(v, d), hc, by rw [htr, heq]⟩
  · exact hlt

theorem count_saddle_full {B : List Pos} {v p : Pos}
    (hlen : (POSSIBLE_DIRECTIONS (blocks_matrix B v)).length = 4)
    (htrig : ∀ d, consistentS B (v, d) → ∃ m, trig B (v, d) = some m ∧ lexLt m p) :
    countConsumed B p v = 2 := by
  obtain ⟨a, b, c, e, hM, ha, hb, hc, he⟩ := mat_cases B v
  have hall := fin_saddle_all a ha b hb c hc e he (by rw [← hM]; exact hlen)
  have hconsd : ∀ d ∈ dirList, consistentS B (v, d) := by
    intro d hd
    rw [consistentS_iff, hM]
    exact ⟨hd, hall d hd⟩
  have hcU := hconsd UP (by decide)
  have hcD := hconsd DOWN (by decide)
  obtain ⟨m1, ht1, hl1⟩ := htrig UP hcU
  obtain ⟨m2, ht2, hl2⟩ := htrig DOWN hcD
  have hp1 := consumed_pair hcU ht1 hl1
  have hp2 := consumed_pair hcD ht2 hl2
  rcases fin_saddle_pair a ha b hb c hc e he (by rw [← hM]; exact hlen) with ⟨hU, hD⟩ | ⟨hU, hD⟩
  · have hmU : mateS B (v, UP) = (v, RIGHT) :=
      mateS_eq hcU (by rw [hM]; exact hU) (by decide)
    have hmD : mateS B (v, DOWN) = (v, LEFT) :=
      mateS_eq hcD (by rw [hM]; exact hD) (by decide)
    rw [hmU] at hp1
    rw [hmD] at hp2
    exact count_two_A hp1 hp2
  · have hmU : mateS B (v, UP) = (v, LEFT) :=
      mateS_eq hcU (by rw [hM]; exact hU) (by decide)
    have hmD : mateS B (v, DOWN) = (v, RIGHT) :=
      mateS_eq hcD (by rw [hM]; exact hD) (by decide)
    rw [hmU] at hp1
    rw [hmD] at hp2
    exact count_two_B hp1 hp2

theorem count_ordinary_full {B : List Pos} {v p : Pos}
    (hne : POSSIBLE_DIRECTIONS (blocks_matrix B v) ≠ [])
    (hlen : (POSSIBLE_DIRECTIONS (blocks_matrix B v)).length ≠ 4)
    (htrig : ∀ d, consistentS B (v, d) → ∃ m, trig B (v, d) = some m ∧ lexLt m p) :
    countConsumed B p v = 1 := by
  obtain ⟨a, b, c, e, hM, ha, hb, hc, he⟩ := mat_cases B v
  obtain ⟨d, hd, hdne⟩ := fin_exists_arrival a ha b hb c hc e he (by rw [← hM]; exact hne)
  have hcd : consistentS B (v, d) := by
    rw [consistentS_iff, hM]
    exact ⟨hd, hdne⟩
  obtain ⟨r, hr, hcons2⟩ := step_consistent hcd
  have hrd : r ∈ dirList := hcons2.1
  have hmate : mateS B (v, d) = (v, negD r) := mateS_eq hcd hr rfl
  have hd2 : negD r ∈ dirList := negD_mem hrd
  have hd2ne : negD r ≠ d := by
    intro hh
    apply mateS_ne hcd
    rw [hmate, hh]
  obtain ⟨m, ht, hl⟩ := htrig d hcd
  have hpair := consumed_pair hcd ht hl
  rw [hmate] at hpair
  refine count_one hd hd2 (fun hh => hd2ne hh.symm) hpair ?_
  intro d3 hd3 hne1 hne2
  apply consumedB_not_consistent
  intro hc3
  rw [consistentS_iff, hM] at hc3
  have hcm : consistentS B (v, negD r) := by
    rw [← hmate]
    exact mateS_consistent hcd
  rw [consistentS_iff, hM] at hcm
  have hfin := fin_two_arrivals a ha b hb c hc e he (by rw [← hM]; exact hlen)
    d hd (negD r) hd2 d3 hd3 hdne hcm.2 hc3.2
  rcases hfin with hh | hh | hh
  · exact hd2ne hh.symm
  · exact hne1 hh.symm
  · exact hne2 hh.symm

theorem revS_startState (v : Pos) : revS (startStateAt v) = (v, LEFT) := by
  unfold revS startStateAt negD RIGHT LEFT
  refine Prod.ext (Prod.ext ?_ ?_) (Prod.ext ?_ ?_) <;> dsimp <;> try omega

theorem visitCount_split (B : List Pos) (s : Pos × Dir) (n : Nat) (u : Pos) :
    visitCount B s (n + 1) u = visitCount B s n u +
      (if ((stepFn B)^[n] s).1 = u then 1 else 0) := by
  unfold visitCount
  rw [List.range_succ, List.map_append, List.count_append]
  simp only [List.map_cons, List.map_nil, List.count_cons, List.count_nil, beq_iff_eq]
  omega

theorem E_facts {B : List Pos} {v : Pos}
    (hEc : consistentS B (startStateAt v)) (hEt : trig B (startStateAt v) = some v) :
    consistentS B (v, LEFT) ∧ trig B (v, LEFT) = some v ∧
    consistentS B (v, UP) ∧ trig B (v, UP) = some v ∧
    mateS B (v, LEFT) = (v, UP) := by
  have hL : consistentS B (v, LEFT) := by
    rw [← revS_startState v]
    exact revS_consistent hEc
  have hLt : trig B (v, LEFT) = some v := by
    rw [← revS_startState v, trig_rev hEc, hEt]
  obtain ⟨hmc, -, -, -⟩ := min_vertex_analysis hEc hEt
  obtain ⟨a, b, c, e, hM, ha, hb, hc, he⟩ := mat_cases B v
  rw [hM] at hmc
  obtain ⟨hSTILL, hUP, hLEFT, hbe, hce, hver⟩ := fin_minconfig_props a ha b hb c hc e he hmc
  have hmate : mateS B (v, LEFT) = (v, UP) :=
    mateS_eq hL (by rw [hM]; exact hLEFT) (by decide)
  refine ⟨hL, hLt, ?_, ?_, hmate⟩
  · rw [← hmate]
    exact mateS_consistent hL
  · rw [← hmate, mateS_trig hL, hLt]

theorem count_at_E_saddle {B : List Pos} {v : Pos}
    (hEc : consistentS B (startStateAt v)) (hEt : trig B (startStateAt v) = some v)
    (h4 : (POSSIBLE_DIRECTIONS (blocks_matrix B v)).length = 4) :
    countConsumed B v v = 1 := by
  obtain ⟨hL, hLt, hU, hUt, -⟩ := E_facts hEc hEt
  obtain ⟨a, b, c, e, hM, ha, hb, hc, he⟩ := mat_cases B v
  have hall := fin_saddle_all a ha b hb c hc e he (by rw [← hM]; exact h4)
  have hcD : consistentS B (v, DOWN) := by
    rw [consistentS_iff, hM]
    exact ⟨by decide, hall DOWN (by decide)⟩
  obtain ⟨hmc, -, -, -⟩ := min_vertex_analysis hEc hEt
  rw [hM] at hmc
  obtain ⟨hDOWN, hRIGHT, -, -⟩ :=
    fin_minconfig_saddle a ha b hb c hc e he hmc (by rw [← hM]; exact h4)
  have hmD : mateS B (v, DOWN) = (v, RIGHT) :=
    mateS_eq hcD (by rw [hM]; exact hDOWN) (by decide)
  obtain ⟨m, htD, hleD⟩ := trig_le_vertex hcD
  have hltD : lexLt m v :=
    trig_lt_of_pred hcD htD (by simp [lexLt, DOWN])
  have hpair := consumed_pair hcD htD hltD
  rw [hmD] at hpair
  refine count_one (by decide) (by decide) (by decide) hpair ?_
  intro d3 hd3 hne1 hne2
  unfold dirList at hd3
  simp only [List.mem_cons, List.not_mem_nil, or_false] at hd3
  rcases hd3 with rfl | rfl | rfl | rfl
  · exact consumedB_not_lt hLt (lexLt_irrefl v)
  · exact consumedB_not_lt hUt (lexLt_irrefl v)
  · exact absurd rfl hne2
  · exact absurd rfl hne1

theorem count_at_E_ordinary {B : List Pos} {v : Pos}
    (hEc : consistentS B (startStateAt v)) (hEt : trig B (startStateAt v) = some v)
    (h4 : (POSSIBLE_DIRECTIONS (blocks_matrix B v)).length ≠ 4) :
    countConsumed B v v = 0 := by
  obtain ⟨hL, hLt, hU, hUt, -⟩ := E_facts hEc hEt
  obtain ⟨a, b, c, e, hM, ha, hb, hc, he⟩ := mat_cases B v
  obtain ⟨hmc, -, -, -⟩ := min_vertex_analysis hEc hEt
  rw [hM] at hmc
  obtain ⟨hRin, hDin⟩ := fin_min_ordinary a ha b hb c hc e he hmc (by rw [← hM]; exact h4)
  apply count_zero
  intro d hd
  unfold dirList at hd
  simp only [List.mem_cons, List.not_mem_nil, or_false] at hd
  rcases hd with rfl | rfl | rfl | rfl
  · exact consumedB_not_lt hLt (lexLt_irrefl v)
  · exact consumedB_not_lt hUt (lexLt_irrefl v)
  · apply consumedB_not_consistent
    intro hc3
    rw [consistentS_iff, hM] at hc3
    exact hc3.2 hRin
  · apply consumedB_not_consistent
    intro hc3
    rw [consistentS_iff, hM] at hc3
    exact hc3.2 hDin

theorem orbit_unique_at_min {B : List Pos} {v : Pos}
    (hEc : consistentS B (startStateAt v)) (hEt : trig B (startStateAt v) = some v)
    {t : Pos × Dir} (ht : t ∈ orbitStates B (startStateAt v)) (htv : t.1 = v) :
    t = ((v, UP) : Pos × Dir) := by
  have hct : consistentS B t := orbit_consistent hEc ht
  have hdt : t.2 ∈ dirList := hct.1
  have httr : trig B t = some v := by
    rw [trig_of_mem hEc ht, hEt]
  have hteta : t = (v, t.2) := by
    rw [← htv]
  unfold dirList at hdt
  simp only [List.mem_cons, List.not_mem_nil, or_false] at hdt
  rcases hdt with hd | hd | hd | hd
  · exfalso
    have h1 : t = revS (startStateAt v) := by
      rw [revS_startState, hteta, hd]
    have h2 := rev_not_mem_orbit hEc (orbit_self hEc)
    rw [← h1] at h2
    exact h2 ht
  · rw [hteta, hd]
  · exfalso
    have hlt := trig_lt_of_pred hct httr (by rw [htv, hd]; simp [lexLt, RIGHT])
    rw [htv] at hlt
    exact lexLt_irrefl v hlt
  · exfalso
    have hlt := trig_lt_of_pred hct httr (by rw [htv, hd]; simp [lexLt, DOWN])
    rw [htv] at hlt
    exact lexLt_irrefl v hlt

theorem E_walk_setup {B : List Pos} {v : Pos}
    (hEc : consistentS B (startStateAt v)) (hEt : trig B (startStateAt v) = some v) :
    ∃ P, 2 ≤ P ∧ P ≤ 16 * B.length ∧
      (stepFn B)^[P] (startStateAt v) = startStateAt v ∧
      ((stepFn B)^[P - 1] (startStateAt v)).1 = v ∧
      (∀ j, j < P - 1 → ((stepFn B)^[j] (startStateAt v)).1 ≠ v) ∧
      (∀ u, (stateAt u).countP (fun s => decide (s ∈ orbitStates B (startStateAt v))) =
        visitCount B (startStateAt v) (P - 1) u + (if v = u then 1 else 0)) := by
  obtain ⟨P, hP1, hPN, hper, hmin⟩ := exists_min_period hEc
  have hlast : ((stepFn B)^[P - 1] (startStateAt v)).1 = v := by
    have hpred := revS_vertex_pred (iterate_consistent hEc (P - 1))
    have hs : stepFn B ((stepFn B)^[P - 1] (startStateAt v)) = startStateAt v := by
      have h2 := Function.iterate_succ_apply' (stepFn B) (P - 1) (startStateAt v)
      rw [← h2]
      have h3 : (P - 1).succ = P := by omega
      rw [h3, hper]
    rw [hs] at hpred
    rw [revS_startState] at hpred
    exact hpred.symm
  have hP2 : 2 ≤ P := by
    by_contra hcon
    have hP1' : P = 1 := by omega
    subst hP1'
    have hl0 : (startStateAt v).1 = v := by
      simpa using hlast
    have hcon2 := congrArg Prod.fst hl0
    unfold startStateAt at hcon2
    dsimp at hcon2
    omega
  have hearly : ∀ j, j < P - 1 → ((stepFn B)^[j] (startStateAt v)).1 ≠ v := by
    intro j hj hveq
    have hmem := iterate_mem_orbit hEc j
    have huni := orbit_unique_at_min hEc hEt hmem hveq
    have hmem2 := iterate_mem_orbit hEc (P - 1)
    have huni2 := orbit_unique_at_min hEc hEt hmem2 hlast
    have heq2 : (stepFn B)^[j] (startStateAt v) = (stepFn B)^[P - 1] (startStateAt v) := by
      rw [huni, huni2]
    have hj2 := period_inj hEc hmin j (P - 1) (by omega) (by omega) heq2
    omega
  refine ⟨P, hP2, hPN, hper, hlast, hearly, ?_⟩
  intro u
  have hcore := orbit_count_core hEc hP1 hPN hper hmin u
  have hsplit := visitCount_split B (startStateAt v) (P - 1) u
  have h3 : P - 1 + 1 = P := by omega
  rw [h3] at hsplit
  rw [← hcore, hsplit, hlast]

/-- Processing one grid vertex preserves the tracker invariant: the counter
equals `incOf · countConsumed` at the advanced threshold. -/
theorem build_step_inv {B : List Pos} {fuel : Nat} (hfuel : 16 * B.length + 2 ≤ fuel)
    {tracked : Pos → Nat} {perims : List (List Pos)} {v p' : Pos}
    (hInv : ∀ u, tracked u = incOf B u * countConsumed B v u)
    (hshift : ∀ m, (∃ s, consistentS B s ∧ trig B s = some m) →
      (lexLt m p' ↔ (lexLt m v ∨ m = v))) :
    ∃ tr' ps', build_step B fuel (tracked, perims) v = some (tr', ps') ∧
      ∀ u, tr' u = incOf B u * countConsumed B p' u := by
  by_cases hE : consistentS B (startStateAt v) ∧ trig B (startStateAt v) = some v
  · obtain ⟨hEc, hEt⟩ := hE
    obtain ⟨hmc0, -, -, -⟩ := min_vertex_analysis hEc hEt
    obtain ⟨a, b, c, e, hM, ha, hb, hc, he⟩ := mat_cases B v
    rw [hM] at hmc0
    obtain ⟨hSTILL, hUP, hLEFT, hbe, hce, hver⟩ :=
      fin_minconfig_props a ha b hb c hc e he hmc0
    have hver2 : POSSIBLE_DIRECTIONS (blocks_matrix B v) ≠ [] := by
      rw [hM]
      exact hver
    obtain ⟨P, hP2, hPN, hper, hlast, hearly, hcount⟩ := E_walk_setup hEc hEt
    have hσeq : (sum_vectors v RIGHT, RIGHT) = startStateAt v := by
      unfold startStateAt sum_vectors RIGHT
      refine Prod.ext (Prod.ext ?_ ?_) rfl <;> dsimp <;> omega
    have hSTILL2 : RULES (blocks_matrix B v) STILL = some RIGHT := by
      rw [hM]
      exact hSTILL
    have hσc : consistentS B (sum_vectors v RIGHT, RIGHT) := by
      rw [hσeq]
      exact hEc
    have hvne : sum_vectors v RIGHT ≠ v := by
      intro hh
      have h2 := congrArg Prod.fst hh
      unfold sum_vectors RIGHT at h2
      dsimp at h2
      omega
    have hearly2 : ∀ j, j < P - 1 → ((stepFn B)^[j] (sum_vectors v RIGHT, RIGHT)).1 ≠ v := by
      rw [hσeq]
      exact hearly
    have hhit2 : ((stepFn B)^[P - 1] (sum_vectors v RIGHT, RIGHT)).1 = v := by
      rw [hσeq]
      exact hlast
    obtain ⟨tr, tail, htne, hw, htr⟩ := walk_trace_start hSTILL2 hσc hvne (by omega)
      hearly2 hhit2 fuel tracked [v] (by omega)
    simp only [build_step]
    have h0 : ¬ ((POSSIBLE_DIRECTIONS (blocks_matrix B v)).length = 0) := by
      intro hh
      exact hver2 (List.length_eq_zero.1 hh)
    rw [if_neg h0]
    by_cases h4 : (POSSIBLE_DIRECTIONS (blocks_matrix B v)).length = 4
    · have hcv : countConsumed B v v = 1 := count_at_E_saddle hEc hEt h4
      have htv : tracked v = 1 := by
        rw [hInv v, hcv]
        unfold incOf
        rw [if_pos h4]
      rw [if_neg ?hg2]
      case hg2 =>
        intro hh
        rw [htv] at hh
        omega
      rw [if_neg ?hg3]
      case hg3 =>
        intro hh
        exact hh.1 h4
      rw [hw]
      refine ⟨tr, _, rfl, ?_⟩
      intro u
      rw [htr u, hσeq, hInv u, countConsumed_update hEc hEt hshift u, hcount u]
      ring
    · have hcv : countConsumed B v v = 0 := count_at_E_ordinary hEc hEt h4
      have htv : tracked v = 0 := by
        rw [hInv v, hcv]
        omega
      rw [if_neg (fun hh => h4 hh.1)]
      rw [if_neg ?hg3b]
      case hg3b =>
        intro hh
        rw [htv] at hh
        omega
      rw [hw]
      refine ⟨tr, _, rfl, ?_⟩
      intro u
      rw [htr u, hσeq, hInv u, countConsumed_update hEc hEt hshift u, hcount u]
      ring
  · have hcount := countConsumed_shift hE hshift
    simp only [build_step]
    by_cases h0 : (POSSIBLE_DIRECTIONS (blocks_matrix B v)).length = 0
    · rw [if_pos h0]
      refine ⟨tracked, perims, rfl, ?_⟩
      intro u
      rw [hInv u, hcount u]
    · rw [if_neg h0]
      have hne0 : POSSIBLE_DIRECTIONS (blocks_matrix B v) ≠ [] := by
        intro hh
        apply h0
        rw [hh]
        rfl
      have htrg : ∀ d, consistentS B (v, d) → ∃ m, trig B (v, d) = some m ∧ lexLt m v :=
        fun d hcd => arrivals_triggered hE hcd
      by_cases h4 : (POSSIBLE_DIRECTIONS (blocks_matrix B v)).length = 4
      · have hc2 : countConsumed B v v = 2 := count_saddle_full h4 htrg
        have htv : tracked v = 2 := by
          rw [hInv v, hc2]
          unfold incOf
          rw [if_pos h4]
        rw [if_pos ⟨h4, by omega⟩]
        refine ⟨tracked, perims, rfl, ?_⟩
        intro u
        rw [hInv u, hcount u]
      · have hc1 : countConsumed B v v = 1 := count_ordinary_full hne0 h4 htrg
        have htv : tracked v = 2 := by
          rw [hInv v, hc1]
          unfold incOf
          rw [if_neg h4]
        rw [if_neg (fun hh => h4 hh.1)]
        rw [if_pos ⟨h4, by omega⟩]
        refine ⟨tracked, perims, rfl, ?_⟩
        intro u
        rw [hInv u, hcount u]

theorem mapGet_ne_cases {B : List Pos} {p q : Pos} (h : mapGet B p ≠ mapGet B q) :
    p ∈ B ∨ q ∈ B := by
  by_contra hcon
  push_neg at hcon
  unfold mapGet at h
  rw [if_neg hcon.1, if_neg hcon.2] at h
  exact h rfl

theorem trig_range {B : List Pos} {W H : Int}
    (hB : ∀ cl ∈ B, 0 ≤ cl.1 ∧ cl.1 < W ∧ 0 ≤ cl.2 ∧ cl.2 < H)
    {m : Pos} (hm : ∃ s, consistentS B s ∧ trig B s = some m) :
    0 ≤ m.1 ∧ m.1 < W ∧ 0 ≤ m.2 ∧ m.2 < H := by
  obtain ⟨hEc, hEt⟩ := trig_self_iff.1 hm
  obtain ⟨hmc, -, -, -⟩ := min_vertex_analysis hEc hEt
  obtain ⟨a, b, c, e, hM, ha, hb, hc, he⟩ := mat_cases B m
  rw [hM] at hmc
  obtain ⟨-, -, -, hbe, hce, -⟩ := fin_minconfig_props a ha b hb c hc e he hmc
  have hb2 := congrArg (fun z => z.1.2) hM
  have hc2 := congrArg (fun z => z.2.1) hM
  have he2 := congrArg (fun z => z.2.2) hM
  unfold blocks_matrix at hb2 hc2 he2
  dsimp at hb2 hc2 he2
  have heast : (m.1, m.2 - 1) ∈ B ∨ (m.1, m.2) ∈ B := by
    apply mapGet_ne_cases
    rw [hb2, he2]
    exact hbe
  have hsouth : (m.1 - 1, m.2) ∈ B ∨ (m.1, m.2) ∈ B := by
    apply mapGet_ne_cases
    rw [hc2, he2]
    exact hce
  have hx : 0 ≤ m.1 ∧ m.1 < W := by
    rcases heast with hcl | hcl
    · have := hB _ hcl
      dsimp at this
      exact ⟨this.1, this.2.1⟩
    · have := hB _ hcl
      dsimp at this
      exact ⟨this.1, this.2.1⟩
  have hy : 0 ≤ m.2 ∧ m.2 < H := by
    rcases hsouth with hcl | hcl
    · have := hB _ hcl
      dsimp at this
      exact ⟨this.2.2.1, this.2.2.2⟩
    · have := hB _ hcl
      dsimp at this
      exact ⟨this.2.2.1, this.2.2.2⟩
  exact ⟨hx.1, hx.2, hy.1, hy.2⟩

theorem count_initial {B : List Pos} {W H : Int}
    (hB : ∀ cl ∈ B, 0 ≤ cl.1 ∧ cl.1 < W ∧ 0 ≤ cl.2 ∧ cl.2 < H) (u : Pos) :
    countConsumed B ((0 : Int), (0 : Int)) u = 0 := by
  apply count_zero
  intro d _
  by_cases hcons : consistentS B (u, d)
  · obtain ⟨m, htr, -⟩ := trig_le_vertex hcons
    apply consumedB_not_lt htr
    intro hlt
    have hr := trig_range hB ⟨(u, d), hcons, htr⟩
    unfold lexLt at hlt
    dsimp at hlt
    omega
  · exact consumedB_not_consistent hcons

theorem count_B_nil (p u : Pos) : countConsumed [] p u = 0 := by
  apply count_zero
  intro d _
  apply consumedB_not_consistent
  intro hcons
  exact consistent_B_ne hcons rfl

theorem shift_in_column (x y : Int) (m : Pos) :
    lexLt m (x, y + 1) ↔ (lexLt m (x, y) ∨ m = (x, y)) := by
  unfold lexLt
  dsimp
  rw [Prod.ext_iff]
  dsimp
  omega

theorem count_colshift {B : List Pos} {W H : Int}
    (hB : ∀ cl ∈ B, 0 ≤ cl.1 ∧ cl.1 < W ∧ 0 ≤ cl.2 ∧ cl.2 < H) (x : Int) (u : Pos) :
    countConsumed B ((x + 1 : Int), (0 : Int)) u =
      countConsumed B (x, (H.toNat : Int)) u := by
  unfold countConsumed
  apply List.countP_congr
  intro s _
  have hsh : consumedB B ((x + 1 : Int), (0 : Int)) s = consumedB B (x, (H.toNat : Int)) s := by
    apply consumedB_shift
    intro m hm
    have hr := trig_range hB hm
    have hH : 0 < H := by omega
    have hcast : ((H.toNat : Int)) = H := Int.toNat_of_nonneg (le_of_lt hH)
    unfold lexLt
    dsimp
    rw [hcast]
    omega
  rw [hsh]

theorem fold_steps {B : List Pos} {fuel : Nat} (hfuel : 16 * B.length + 2 ≤ fuel) (x : Int) :
    ∀ (k : Nat) (y0 : Nat) (tracked : Pos → Nat) (perims : List (List Pos)),
      (∀ u, tracked u = incOf B u * countConsumed B (x, (y0 : Int)) u) →
      ∃ tr' ps', ((List.range' y0 k).map (fun (gy : Nat) => (x, (gy : Int)))).foldlM
          (build_step B fuel) (tracked, perims) = some (tr', ps') ∧
        ∀ u, tr' u = incOf B u * countConsumed B (x, ((y0 + k : Nat) : Int)) u := by
  intro k
  induction k with
  | zero =>
    intro y0 tracked perims hInv
    refine ⟨tracked, perims, rfl, ?_⟩
    intro u
    rw [hInv u]
    norm_num
  | succ k ih =>
    intro y0 tracked perims hInv
    rw [List.range'_succ, List.map_cons, List.foldlM_cons]
    have hshift : ∀ m, (∃ s, consistentS B s ∧ trig B s = some m) →
        (lexLt m (x, ((y0 : Int) + 1)) ↔ (lexLt m (x, (y0 : Int)) ∨ m = (x, (y0 : Int)))) :=
      fun m _ => shift_in_column x (y0 : Int) m
    obtain ⟨tr1, ps1, hstep, hInv1⟩ := build_step_inv hfuel hInv hshift
    have hInv2 : ∀ u, tr1 u = incOf B u * countConsumed B (x, ((y0 + 1 : Nat) : Int)) u := by
      intro u
      rw [hInv1 u]
      norm_num
    obtain ⟨tr', ps', hfold, hInv3⟩ := ih (y0 + 1) tr1 ps1 hInv2
    refine ⟨tr', ps', ?_, ?_⟩
    · rw [hstep]
      simpa using hfold
    · intro u
      rw [hInv3 u]
      have hcast : ((y0 + 1 + k : Nat) : Int) = ((y0 + (k + 1) : Nat) : Int) := by
        push_cast
        ring
      rw [hcast]

theorem fold_grid {B : List Pos} {fuel : Nat} {W H : Int}
    (hfuel : 16 * B.length + 2 ≤ fuel)
    (hB : ∀ cl ∈ B, 0 ≤ cl.1 ∧ cl.1 < W ∧ 0 ≤ cl.2 ∧ cl.2 < H) :
    ∀ (k : Nat) (x0 : Nat) (tracked : Pos → Nat) (perims : List (List Pos)),
      (∀ u, tracked u = incOf B u * countConsumed B ((x0 : Int), (0 : Int)) u) →
      ∃ tr' ps', (((List.range' x0 k).map (fun (bx : Nat) =>
          (List.range H.toNat).map (fun (gy : Nat) => ((bx : Int), (gy : Int))))).flatten).foldlM
          (build_step B fuel) (tracked, perims) = some (tr', ps') ∧
        ∀ u, tr' u = incOf B u * countConsumed B (((x0 + k : Nat) : Int), (0 : Int)) u := by
  intro k
  induction k with
  | zero =>
    intro x0 tracked perims hInv
    refine ⟨tracked, perims, rfl, ?_⟩
    intro u
    rw [hInv u]
    norm_num
  | succ k ih =>
    intro x0 tracked perims hInv
    rw [List.range'_succ, List.map_cons, List.flatten_cons, List.foldlM_append]
    have hcol : (List.range H.toNat).map (fun (gy : Nat) => ((x0 : Int), (gy : Int))) =
        (List.range' 0 H.toNat).map (fun (gy : Nat) => ((x0 : Int), (gy : Int))) := by
      rw [List.range_eq_range']
    have hInv0 : ∀ u, tracked u =
        incOf B u * countConsumed B ((x0 : Int), ((0 : Nat) : Int)) u := by
      intro u
      rw [hInv u]
      norm_num
    obtain ⟨tr1, ps1, hfold1, hInv1⟩ :=
      fold_steps hfuel (x0 : Int) H.toNat 0 tracked perims hInv0
    have hInv2 : ∀ u, tr1 u =
        incOf B u * countConsumed B (((x0 + 1 : Nat) : Int), (0 : Int)) u := by
      intro u
      rw [hInv1 u]
      have hx : ((x0 + 1 : Nat) : Int) = (x0 : Int) + 1 := by
        push_cast
        ring
      rw [hx, count_colshift hB (x0 : Int) u]
      norm_num
    obtain ⟨tr', ps', hfold2, hInv3⟩ := ih (x0 + 1) tr1 ps1 hInv2
    refine ⟨tr', ps', ?_, ?_⟩
    · rw [hcol, hfold1]
      simpa using hfold2
    · intro u
      rw [hInv3 u]
      have hcast : ((x0 + 1 + k : Nat) : Int) = ((x0 + (k + 1) : Nat) : Int) := by
        push_cast
        ring
      rw [hcast]

theorem listCoe_eq_map (l : List Nat) :
    (do
      let a ← l
      pure ((a : Int))) = l.map (fun (a : Nat) => (a : Int)) := by
  induction l with
  | nil => rfl
  | cons a t ih =>
    have h1 : (do
        let x ← (a :: t)
        pure ((x : Int))) =
        ((a : Int) :: (do
          let x ← t
          pure ((x : Int)))) := rfl
    rw [h1, ih]
    rfl

theorem grid_vertices_eq (W H : Int) :
    grid_vertices W H = ((List.range W.toNat).map (fun (bx : Nat) =>
      (List.range H.toNat).map (fun (gy : Nat) => ((bx : Int), (gy : Int))))).flatten := by
  unfold grid_vertices
  simp only [listCoe_eq_map, List.map_map]
  rfl

theorem final_count {B : List Pos} {W H : Int}
    (hB : ∀ cl ∈ B, 0 ≤ cl.1 ∧ cl.1 < W ∧ 0 ≤ cl.2 ∧ cl.2 < H) (u : Pos)
    (hne : POSSIBLE_DIRECTIONS (blocks_matrix B u) ≠ []) :
    countConsumed B ((W.toNat : Int), (0 : Int)) u =
      (if (POSSIBLE_DIRECTIONS (blocks_matrix B u)).length = 4 then 2 else 1) := by
  have htrg : ∀ d, consistentS B (u, d) →
      ∃ m, trig B (u, d) = some m ∧ lexLt m ((W.toNat : Int), (0 : Int)) := by
    intro d hcd
    obtain ⟨m, htr, -⟩ := trig_le_vertex hcd
    refine ⟨m, htr, ?_⟩
    have hr := trig_range hB ⟨(u, d), hcd, htr⟩
    unfold lexLt
    left
    dsimp
    omega
  by_cases h4 : (POSSIBLE_DIRECTIONS (blocks_matrix B u)).length = 4
  · rw [if_pos h4]
    exact count_saddle_full h4 htrg
  · rw [if_neg h4]
    exact count_ordinary_full hne h4 htrg

/-- C2 (amended).  For every blocks map whose blocked boxes all lie in the
`width x height` range, `BlocksMap.build` (with fuel `16 * |B| + 3` per
walk) succeeds, and its final `tracked_vertices` counter records the
claimed pass counts at EVERY boundary lattice vertex: since each pass of
the walk adds `incOf` (`1` at a saddle, `2` at an ordinary boundary
vertex) to the counter, the final value `incOf * (if saddle then 2 else 1)`
says each saddle vertex is passed exactly twice and each ordinary boundary
vertex exactly once.  The original claim's further assertion that the two
passes through a saddle belong to two DIFFERENT closed loops is false: see
the checkerboard counterexample, where one figure-eight loop passes the
saddle twice. -/
theorem build_visit_counts (B : List Pos) (W H : Int)
    (hB : ∀ cl ∈ B, 0 ≤ cl.1 ∧ cl.1 < W ∧ 0 ≤ cl.2 ∧ cl.2 < H) :
    ∃ tr ps, buildT B W H (16 * B.length + 3) = some (tr, ps) ∧
      ∀ v : Pos, POSSIBLE_DIRECTIONS (blocks_matrix B v) ≠ [] →
        tr v = incOf B v *
          (if (POSSIBLE_DIRECTIONS (blocks_matrix B v)).length = 4 then 2 else 1) := by
  by_cases hBnil : B = []
  · subst hBnil
    refine ⟨fun _ => 0, [], ?_, ?_⟩
    · unfold buildT
      rw [if_pos rfl]
    · intro v hv
      exfalso
      apply hv
      simp [blocks_matrix, mapGet, POSSIBLE_DIRECTIONS]
  · have hfuel : 16 * B.length + 2 ≤ 16 * B.length + 3 := by omega
    have hInv0 : ∀ u, (fun _ => (0 : Nat) : Pos → Nat) u =
        incOf B u * countConsumed B (((0 : Nat) : Int), (0 : Int)) u := by
      intro u
      have h00 : ((((0 : Nat) : Int)), (0 : Int)) = (((0 : Int)), (0 : Int)) := by
        norm_num
      rw [h00, count_initial hB u, Nat.mul_zero]
    obtain ⟨tr, ps, hfold, hInv⟩ :=
      fold_grid hfuel hB W.toNat 0 (fun _ => 0) [] hInv0
    refine ⟨tr, ps, ?_, ?_⟩
    · unfold buildT
      rw [if_neg hBnil, grid_vertices_eq, List.range_eq_range' W.toNat]
      exact hfold
    · intro v hv
      rw [hInv v]
      have hz : ((0 + W.toNat : Nat) : Int) = ((W.toNat : Int)) := by
        norm_num
      rw [hz, final_count hB v hv]

theorem build_visit_counts_witness :
    (∀ cl ∈ ([((0 : Int), (0 : Int))] : List Pos),
      0 ≤ cl.1 ∧ cl.1 < 1 ∧ 0 ≤ cl.2 ∧ cl.2 < 1) ∧
    ∃ tr ps, buildT ([((0 : Int), (0 : Int))] : List Pos) 1 1
        (16 * ([((0 : Int), (0 : Int))] : List Pos).length + 3) = some (tr, ps) ∧
      ∀ v : Pos,
        POSSIBLE_DIRECTIONS (blocks_matrix ([((0 : Int), (0 : Int))] : List Pos) v) ≠ [] →
          tr v = incOf ([((0 : Int), (0 : Int))] : List Pos) v *
            (if (POSSIBLE_DIRECTIONS
                (blocks_matrix ([((0 : Int), (0 : Int))] : List Pos) v)).length = 4
              then 2 else 1) :=
  ⟨by decide, build_visit_counts ([((0 : Int), (0 : Int))] : List Pos) 1 1 (by decide)⟩


end Png2Obj
